import Mathlib

/-!
Portable PDB binary reader: embedding and verification.

Shallow embedding of `CustomBinaryStream` (custombinaryreader.cc / .h).

* A `uint8_t` is a `Fin 256`; wider machine integers are `Nat` (unsigned) or
  `Int` (signed) with the conversions written out.
* The three iterators of the C++ class are offsets into the vector they point
  into.  That vector is `file_content_` after `ConsumeFile` and the caller's
  vector after `ConsumeVector`.
* A C++ function `bool f(T *out)` that mutates the stream becomes a function
  returning an `Option T` (`none` for `false`) together with the new stream.
-/

namespace google_cloud_debugger_portable_pdb

/-- The type `uint8_t`. -/
abbrev Byte := Fin 256

/-- The data members of `CustomBinaryStream`.  The iterators `iterator_`,
`end_` and `begin_` are stored as offsets into the vector they range over:
`file_content_` for a stream made by `ConsumeFile`, the caller's vector
(`borrowed`) for a stream made by `ConsumeVector`. -/
structure CustomBinaryStream where
  file_content_ : List Byte
  borrowed : Option (List Byte)
  iterator_ : Nat
  end_ : Nat
  begin_ : Nat
deriving DecidableEq

namespace CustomBinaryStream

/-- The vector the iterators point into. -/
def backing (s : CustomBinaryStream) : List Byte :=
  match s.borrowed with
  | some v => v
  | none => s.file_content_

/-- The expression `*it` for an iterator at offset `i`.  Dereferencing outside
the vector is undefined behaviour in C++; the embedding yields `0` there, and
no well-formed stream reaches that case. -/
def deref (s : CustomBinaryStream) (i : Nat) : Byte :=
  (s.backing[i]?).getD 0

/-- The function `ConsumeVector` for a non-null `byte_vector`. -/
def ConsumeVector (s : CustomBinaryStream) (byte_vector : List Byte) : CustomBinaryStream :=
  { s with borrowed := some byte_vector, iterator_ := 0, begin_ := 0, end_ := byte_vector.length }

/-- The class invariant `begin_ ≤ iterator_ ≤ end_ ≤ size of the vector`. -/
def WellFormed (s : CustomBinaryStream) : Prop :=
  s.begin_ ≤ s.iterator_ ∧ s.iterator_ ≤ s.end_ ∧ s.end_ ≤ s.backing.length

instance (s : CustomBinaryStream) : Decidable s.WellFormed := by
  unfold WellFormed; infer_instance

/-- The bytes between the current position and the limit, in order. -/
def remaining (s : CustomBinaryStream) : List Byte :=
  (s.backing.take s.end_).drop s.iterator_

/-- The function `GetRemainingStreamLength`: `std::distance(iterator_, end_)`, for a
stream whose current position does not exceed the limit. -/
def GetRemainingStreamLength (s : CustomBinaryStream) : Nat :=
  s.end_ - s.iterator_

/-- The stream with the current position moved forward by `n`. -/
def advance (s : CustomBinaryStream) (n : Nat) : CustomBinaryStream :=
  { s with iterator_ := s.iterator_ + n }

/-- The function `ReadBytes(result, bytes_to_read)`: the returned triple is the `bool`
result, the bytes written to `result` so far, and the stream afterwards. -/
def ReadBytes (s : CustomBinaryStream) : Nat → Bool × List Byte × CustomBinaryStream
  | 0 => (true, [], s)
  | bytes_to_read + 1 =>
    if s.iterator_ = s.end_ then (false, [], s)
    else
      let b := s.deref s.iterator_
      let r := ReadBytes { s with iterator_ := s.iterator_ + 1 } bytes_to_read
      (r.1, b :: r.2.1, r.2.2)

/-- The function `HasNext`. -/
def HasNext (s : CustomBinaryStream) : Bool :=
  decide (s.iterator_ < s.end_)

/-- The function `Peak` (named `Peek` in the header). -/
def Peak (s : CustomBinaryStream) : Option Byte :=
  if s.iterator_ = s.end_ then none else some (s.deref s.iterator_)

/-- The function `ReadByte(result)`, which is `ReadBytes(result, 1)`. -/
def ReadByte (s : CustomBinaryStream) : Option Byte × CustomBinaryStream :=
  match s.ReadBytes 1 with
  | (true, [b], s') => (some b, s')
  | (_, _, s') => (none, s')

/-- The function `ReadUInt16`.  The parameter `big_endian` is the value of the macro
`big_endian()` on the host.  Shifts act on values promoted to `int`; the
assignment to `uint16_t` reduces modulo `2 ^ 16`. -/
def ReadUInt16 (big_endian : Bool) (s : CustomBinaryStream) : Option Nat × CustomBinaryStream :=
  match s.ReadBytes 2 with
  | (true, [buffer0, buffer1], s') =>
    if big_endian then
      (some ((((buffer0.val <<< 8) &&& 0xFF00) ||| buffer1.val) % 2 ^ 16), s')
    else
      (some ((((buffer1.val <<< 8) &&& 0xFF00) ||| buffer0.val) % 2 ^ 16), s')
  | (_, _, s') => (none, s')

/-- The function `ReadUInt32`.  The `int` expression is kept as its 32-bit pattern, which
the assignment to `uint32_t` preserves. -/
def ReadUInt32 (big_endian : Bool) (s : CustomBinaryStream) : Option Nat × CustomBinaryStream :=
  match s.ReadBytes 4 with
  | (true, [buffer0, buffer1, buffer2, buffer3], s') =>
    if big_endian then
      (some (((buffer0.val <<< 24) ||| (buffer1.val <<< 16) ||| (buffer2.val <<< 8) ||| buffer3.val)
        % 2 ^ 32), s')
    else
      (some (((buffer3.val <<< 24) ||| (buffer2.val <<< 16) ||| (buffer1.val <<< 8) ||| buffer0.val)
        % 2 ^ 32), s')
  | (_, _, s') => (none, s')

/-- The function `ReadCompressedUInt32`. -/
def ReadCompressedUInt32 (s : CustomBinaryStream) : Option Nat × CustomBinaryStream :=
  match s.ReadByte with
  | (none, s1) => (none, s1)
  | (some first_byte, s1) =>
    if first_byte.val &&& 0x80 = 0 then (some first_byte.val, s1)
    else
      match s1.ReadByte with
      | (none, s2) => (none, s2)
      | (some second_byte, s2) =>
        if first_byte.val &&& 0xC0 = 0x80 then
          (some (((first_byte.val <<< 8) ||| second_byte.val) &&& 0x3FFF), s2)
        else
          match s2.ReadByte with
          | (none, s3) => (none, s3)
          | (some third_byte, s3) =>
            match s3.ReadByte with
            | (none, s4) => (none, s4)
            | (some fourth_byte, s4) =>
              if first_byte.val &&& 0xE0 = 0xC0 then
                (some (((first_byte.val <<< 24) ||| (second_byte.val <<< 16)
                  ||| (third_byte.val <<< 8) ||| fourth_byte.val) &&& 0x1FFFFFFF), s4)
              else (none, s4)

/-- Conversion of a 32-bit pattern to `int32_t` (two's complement). -/
def toInt32 (n : Nat) : Int :=
  if n % 2 ^ 32 < 2 ^ 31 then ((n % 2 ^ 32 : Nat) : Int) else ((n % 2 ^ 32 : Nat) : Int) - 2 ^ 32

/-- Conversion of an `int32_t` to its 32-bit pattern (`uint32_t`). -/
def toUInt32 (i : Int) : Nat :=
  (i % 2 ^ 32).toNat

/-- The function `ReadCompressSignedInt32`.  The statement
`result |= 0xFFFFFFC0` converts `result` to `unsigned`, ors the masks and
converts back to `int32_t`; `result >>= 1` is the arithmetic shift. -/
def ReadCompressSignedInt32 (s : CustomBinaryStream) : Option Int × CustomBinaryStream :=
  match s.Peak with
  | none => (none, s)
  | some first_byte =>
    match s.ReadCompressedUInt32 with
    | (none, s') => (none, s')
    | (some raw_bytes, s') =>
      let result : Int := toInt32 raw_bytes
      let negative : Bool := decide (toUInt32 result &&& 0x1 ≠ 0)
      let result : Int := result >>> (1 : Nat)
      if negative then
        if first_byte.val &&& 0x80 = 0 then
          (some (toInt32 (toUInt32 result ||| 0xFFFFFFC0)), s')
        else if first_byte.val &&& 0xC0 = 0x80 then
          (some (toInt32 (toUInt32 result ||| 0xFFFFE000)), s')
        else if first_byte.val &&& 0xE0 = 0xC0 then
          (some (toInt32 (toUInt32 result ||| 0xF0000000)), s')
        else (none, s')
      else (some result, s')

end CustomBinaryStream

/-- The enum `Heap : std::uint8_t`. -/
inductive Heap where
  | StringsHeap
  | GuidsHeap
  | BlobsHeap
deriving DecidableEq

/-- The enumerator values of `Heap`. -/
def Heap.toNat : Heap → Nat
  | .StringsHeap => 0x01
  | .GuidsHeap => 0x02
  | .BlobsHeap => 0x04

/-- Modelled from the spec: the enum `MetadataTable` (metadatatables.h), "an
enumeration with a stable small integer per kind"; a table kind is held as
that integer, the value of `static_cast<int>(table)`. -/
abbrev MetadataTable := Nat

/-- Modelled from the spec: the struct `CompressedMetadataTableHeader`
(metadataheaders.h), of which the reader uses two members: `valid_mask_`, "a
bit per kind indicating presence", held as the number whose bit `i` is
`valid_mask_[i]`, and `num_rows_`, "for each present table only, its row
count, stored in table-kind order and compacted". -/
structure CompressedMetadataTableHeader where
  valid_mask_ : Nat
  num_rows_ : List Nat
deriving DecidableEq

namespace CustomBinaryStream

/-- The overload `ReadTableIndex(Heap heap, uint8_t heap_size, uint32_t *table_index)`. -/
def ReadTableIndex_heap (big_endian : Bool) (s : CustomBinaryStream) (heap : Heap)
    (heap_size : Byte) : Option Nat × CustomBinaryStream :=
  if heap.toNat &&& heap_size.val ≠ 0x0 then s.ReadUInt32 big_endian
  else
    match s.ReadUInt16 big_endian with
    | (none, s') => (none, s')
    | (some temp, s') => (some temp, s')

/-- The loop of `ReadTableIndex` that counts the present tables below `table`. -/
def present_table_index (metadata_header : CompressedMetadataTableHeader)
    (table : MetadataTable) : Nat :=
  (List.range table).foldl
    (fun present index => if metadata_header.valid_mask_.testBit index then present + 1 else present) 0

/-- The overload `ReadTableIndex(MetadataTable table, const CompressedMetadataTableHeader &,
uint32_t *table_index)`.  Indexing `num_rows_` past its end is undefined
behaviour in C++; the embedding reads `0` there. -/
def ReadTableIndex_table (big_endian : Bool) (s : CustomBinaryStream) (table : MetadataTable)
    (metadata_header : CompressedMetadataTableHeader) : Option Nat × CustomBinaryStream :=
  if !metadata_header.valid_mask_.testBit table then
    match s.ReadUInt16 big_endian with
    | (none, s') => (none, s')
    | (some temp, s') => (some temp, s')
  else
    let rows_present := (metadata_header.num_rows_[present_table_index metadata_header table]?).getD 0
    if rows_present < 0x10000 then
      match s.ReadUInt16 big_endian with
      | (none, s') => (none, s')
      | (some temp, s') => (some temp, s')
    else s.ReadUInt32 big_endian

/-- The function `ConsumeFile`.  The argument is the content of the file, or
`none` when the file cannot be opened.  The bytes read are inserted at
`file_content_.begin()`, and the iterators then range over `file_content_`. -/
def ConsumeFile (s : CustomBinaryStream) (file : Option (List Byte)) : Bool × CustomBinaryStream :=
  match file with
  | some content =>
    let file_content := content ++ s.file_content_
    (true, { s with file_content_ := file_content, borrowed := none, iterator_ := 0, begin_ := 0,
                    end_ := file_content.length })
  | none => (false, s)

/-- The function `SeekFromCurrent`. -/
def SeekFromCurrent (s : CustomBinaryStream) (index : Nat) : Bool × CustomBinaryStream :=
  if s.iterator_ + index > s.end_ then (false, s)
  else (true, { s with iterator_ := s.iterator_ + index })

/-- The function `SeekFromOrigin`.  The local `begin` is `file_content_.begin()`,
which is offset 0 of the vector the iterators range over when the stream is
file-backed.  For a stream made by `ConsumeVector` it is an iterator of another
vector, and comparing it with `end_` is undefined behaviour in C++: the
embedding returns `none` there. -/
def SeekFromOrigin (s : CustomBinaryStream) (position : Nat) : Option (Bool × CustomBinaryStream) :=
  match s.borrowed with
  | some _ => none
  | none =>
    let begin := 0
    if begin + position > s.end_ then some (false, s)
    else some (true, { s with iterator_ := begin + position })

/-- The function `SetStreamLength`. -/
def SetStreamLength (s : CustomBinaryStream) (length : Nat) : Bool × CustomBinaryStream :=
  if s.iterator_ + length > s.end_ then (false, s)
  else (true, { s with end_ := s.iterator_ + length })

/-- The cursor operations of the class, with their arguments. -/
inductive CursorOp where
  | ReadByte
  | ReadBytes (bytes_to_read : Nat)
  | Peak
  | HasNext
  | SeekFromCurrent (index : Nat)
  | SeekFromOrigin (position : Nat)
  | SetStreamLength (length : Nat)
  | ReadUInt16
  | ReadUInt32
  | ReadCompressedUInt32
  | ReadCompressSignedInt32
  | ReadTableIndex_heap (heap : Heap) (heap_size : Byte)
  | ReadTableIndex_table (table : MetadataTable) (metadata_header : CompressedMetadataTableHeader)

/-- The stream after one cursor operation, whatever it returned; `none` when
the behaviour of the operation is undefined. -/
def CursorOp.apply (big_endian : Bool) (op : CursorOp) (s : CustomBinaryStream) :
    Option CustomBinaryStream :=
  match op with
  | .ReadByte => some s.ReadByte.2
  | .ReadBytes n => some (s.ReadBytes n).2.2
  | .Peak => some s
  | .HasNext => some s
  | .SeekFromCurrent index => some (s.SeekFromCurrent index).2
  | .SeekFromOrigin position => (s.SeekFromOrigin position).map (fun r => r.2)
  | .SetStreamLength length => some (s.SetStreamLength length).2
  | .ReadUInt16 => some (s.ReadUInt16 big_endian).2
  | .ReadUInt32 => some (s.ReadUInt32 big_endian).2
  | .ReadCompressedUInt32 => some s.ReadCompressedUInt32.2
  | .ReadCompressSignedInt32 => some s.ReadCompressSignedInt32.2
  | .ReadTableIndex_heap heap heap_size => some (s.ReadTableIndex_heap big_endian heap heap_size).2
  | .ReadTableIndex_table table hdr => some (s.ReadTableIndex_table big_endian table hdr).2

/-- The stream after a sequence of cursor operations. -/
def runOps (big_endian : Bool) : List CursorOp → CustomBinaryStream → Option CustomBinaryStream
  | [], s => some s
  | op :: rest, s =>
    match op.apply big_endian s with
    | none => none
    | some s' => runOps big_endian rest s'

/-- The cursor invariant `begin ≤ current ≤ limit ≤ size`, with the fact that
a file-backed stream begins at offset 0 of its content. -/
def CursorInvariant (s : CustomBinaryStream) : Prop :=
  s.WellFormed ∧ (s.borrowed = none → s.begin_ = 0)

instance (s : CustomBinaryStream) : Decidable s.CursorInvariant := by
  unfold CursorInvariant; infer_instance

/-- An operation keeps the cursor invariant and the content, and does not
raise the limit. -/
def Keeps (s s' : CustomBinaryStream) : Prop :=
  s'.CursorInvariant ∧ s'.end_ ≤ s.end_ ∧ s'.begin_ = s.begin_ ∧ s'.borrowed = s.borrowed ∧
    s'.file_content_ = s.file_content_

end CustomBinaryStream

/-- A stream over the given bytes, as made by `ConsumeVector` on a fresh object. -/
def streamOf (bytes : List Byte) : CustomBinaryStream :=
  CustomBinaryStream.ConsumeVector ⟨[], none, 0, 0, 0⟩ bytes

/-! ## Reference encoders (ECMA-335 II.23.2), written from the specification -/

/-- The byte with value `n mod 256`. -/
def byteOf (n : Nat) : Byte := ⟨n % 256, Nat.mod_lt n (by decide)⟩

/-- The canonical compressed unsigned encoding of `v ≤ 0x1FFFFFFF`: one byte
`0xxxxxxx` up to `0x7F`, two bytes `10xxxxxx` up to `0x3FFF`, else four bytes
`110xxxxx`, payload big-endian. -/
def encodeCompressedUInt32 (v : Nat) : List Byte :=
  if v ≤ 0x7F then [byteOf v]
  else if v ≤ 0x3FFF then [byteOf (0x80 + v / 2 ^ 8), byteOf v]
  else [byteOf (0xC0 + v / 2 ^ 24), byteOf (v / 2 ^ 16), byteOf (v / 2 ^ 8), byteOf v]

/-- Rotation to the left by one bit of the `w`-bit field `x`: the top bit of
the field becomes the least-significant bit. -/
def rotateLeft1 (w x : Nat) : Nat :=
  (2 * x) % 2 ^ w + x / 2 ^ (w - 1)

/-- The compressed signed encoding of `v` with `-2^28 ≤ v < 2^28`: `v` in two's
complement on 7, 14 or 29 bits according to its tier, rotated left by one
bit, and emitted as a 1-, 2- or 4-byte compressed unsigned integer of that
tier. -/
def encodeCompressedSignedInt32 (v : Int) : List Byte :=
  if -2 ^ 6 ≤ v ∧ v < 2 ^ 6 then
    [byteOf (rotateLeft1 7 (v % 2 ^ 7).toNat)]
  else if -2 ^ 13 ≤ v ∧ v < 2 ^ 13 then
    [byteOf (0x80 + rotateLeft1 14 (v % 2 ^ 14).toNat / 2 ^ 8),
     byteOf (rotateLeft1 14 (v % 2 ^ 14).toNat)]
  else
    [byteOf (0xC0 + rotateLeft1 29 (v % 2 ^ 29).toNat / 2 ^ 24),
     byteOf (rotateLeft1 29 (v % 2 ^ 29).toNat / 2 ^ 16),
     byteOf (rotateLeft1 29 (v % 2 ^ 29).toNat / 2 ^ 8),
     byteOf (rotateLeft1 29 (v % 2 ^ 29).toNat)]

/-- The signed encoding as the comment in `ReadCompressSignedInt32` describes
it: the absolute value of `v` shifted left by one bit, the least-significant
bit set to the sign of `v`, written as a compressed unsigned integer. -/
def encodeSignedAsCommented (v : Int) : List Byte :=
  encodeCompressedUInt32 (2 * v.natAbs + (if v < 0 then 1 else 0))

/-- The number of set bits of a 64-bit valid mask. -/
def validCount (valid_mask_ : Nat) : Nat :=
  ((List.range 64).filter (fun i => valid_mask_.testBit i)).length

/-! ## Documents, methods and scopes -/

/-- Modelled from the spec: the row type `LocalVariableRow` (metadatatables.h),
an entry of a scope's "ordered sequence of Local Variables"; only its name is
kept. -/
structure LocalVariableRow where
  name : String
deriving DecidableEq

/-- Modelled from the spec: the row type `LocalConstantRow` (metadatatables.h),
an entry of a scope's "ordered sequence of Local Constants"; only its name is
kept. -/
structure LocalConstantRow where
  name : String
deriving DecidableEq

/-- Modelled from the spec: the struct `LocalScopeRow` (metadatatables.h) with the
members the resolver reads: the `uint32_t` values `start_offset` and `length`
and the variables and constants of the scope. -/
structure LocalScopeRow where
  start_offset : Nat
  length : Nat
  local_variables : List LocalVariableRow
  local_constants : List LocalConstantRow
deriving DecidableEq

/-- Modelled from the spec: the struct `SequencePoint` (documentindex.h) with the
members the resolver reads: "starting/ending source line" and the
"instruction-offset at which this mapping begins". -/
structure SequencePoint where
  start_line : Nat
  end_line : Nat
  il_offset : Nat
deriving DecidableEq

/-- Modelled from the spec: the struct `MethodInfo` (documentindex.h): "a defining
token", "the method's overall first/last source line", its sequence points
and its local scopes, each in order. -/
structure MethodInfo where
  method_def : Nat
  first_line : Nat
  last_line : Nat
  sequence_points : List SequencePoint
  local_scope : List LocalScopeRow
deriving DecidableEq

/-- Modelled from the spec: the class `DocumentIndex` (documentindex.h): "a file
path plus an ordered sequence of Methods"; `file_path` is the result of
`GetFilePath()`, a `std::string` held as its bytes, and `methods` that of
`GetMethods()`. -/
structure DocumentIndex where
  file_path : List Byte
  methods : List MethodInfo
deriving DecidableEq

/-- Modelled from the spec: the class `PortablePdbFile` (portablepdbfile.h), of
which the resolver uses `GetDocumentIndexTable()`, the collection of
documents. -/
abbrev PortablePdbFile := List DocumentIndex

/-- A sequence point contains `line` when `start_line ≤ line ≤ end_line`. -/
def SequencePoint.containsLine (sp : SequencePoint) (line : Nat) : Prop :=
  sp.start_line ≤ line ∧ line ≤ sp.end_line

instance (sp : SequencePoint) (line : Nat) : Decidable (sp.containsLine line) := by
  unfold SequencePoint.containsLine; infer_instance

/-- A method spans `line` when `first_line ≤ line ≤ last_line`. -/
def MethodInfo.spansLine (m : MethodInfo) (line : Nat) : Prop :=
  m.first_line ≤ line ∧ line ≤ m.last_line

instance (m : MethodInfo) (line : Nat) : Decidable (m.spansLine line) := by
  unfold MethodInfo.spansLine; infer_instance

/-- A method is resolvable at `line` when it spans the line and one of its
sequence points contains it. -/
def MethodInfo.resolvable (m : MethodInfo) (line : Nat) : Prop :=
  m.spansLine line ∧ ∃ sp ∈ m.sequence_points, sp.containsLine line

instance (m : MethodInfo) (line : Nat) : Decidable (m.resolvable line) := by
  unfold MethodInfo.resolvable; infer_instance

/-- The first sequence point of the method that contains `line`, if any. -/
def MethodInfo.firstSequencePoint (m : MethodInfo) (line : Nat) : Option SequencePoint :=
  m.sequence_points.find? (fun sp => decide (sp.containsLine line))

/-- A scope contains the offset `o` when `o` lies in the half-open range
`[start_offset, start_offset + length)`. -/
def LocalScopeRow.containsOffset (scope : LocalScopeRow) (o : Nat) : Prop :=
  scope.start_offset ≤ o ∧ o < scope.start_offset + scope.length

instance (scope : LocalScopeRow) (o : Nat) : Decidable (scope.containsOffset o) := by
  unfold LocalScopeRow.containsOffset; infer_instance

/-- The bytes of a string literal, for writing paths. -/
def str (s : String) : List Byte :=
  s.toList.map (fun c => byteOf c.toNat)

end google_cloud_debugger_portable_pdb

namespace google_cloud_debugger

open google_cloud_debugger_portable_pdb

/-- The constant `UINT32_MAX`, also the value of `-1` converted to `uint32_t`. -/
def UINT32_MAX : Nat := 2 ^ 32 - 1

/-- The constant `std::string::npos` for a 64-bit `size_t`. -/
def npos : Nat := 2 ^ 64 - 1

/-- The function `std::tolower` in the "C" locale on an `unsigned char`. -/
def tolower (c : Byte) : Byte :=
  if 0x41 ≤ c.val ∧ c.val ≤ 0x5A then byteOf (c.val + 0x20) else c

/-- The search loop of `std::string::rfind`: the highest position `≤ i` at
which `str` occurs in `s`, or `npos`. -/
def rfindFrom (s str : List Byte) : Nat → Nat
  | 0 => if (s.drop 0).take str.length = str then 0 else npos
  | i + 1 => if (s.drop (i + 1)).take str.length = str then i + 1 else rfindFrom s str i

/-- The call `s.rfind(str)`: the position of the last occurrence of `str` in
`s`, or `npos` when there is none. -/
def rfind (s str : List Byte) : Nat :=
  if str.length ≤ s.length then rfindFrom s str (s.length - str.length) else npos

/-- Modelled from the spec: the data members of `DbgBreakpoint` (dbgbreakpoint.h)
that `Initialize(const DbgBreakpoint &)` copies, without the COM pointer
`debug_breakpoint_`: "requested file name, line, column, plus resolved state:
whether resolution succeeded, resolved method token, resolved instruction
offset, resolved local variables, resolved local constants". -/
structure DbgBreakpoint where
  set_ : Bool
  line_ : Nat
  column_ : Nat
  file_name_ : List Byte
  id_ : List Byte
  il_offset_ : Nat
  method_def_ : Nat
  method_token_ : Nat
  method_name_ : List Byte
  local_variables_ : List LocalVariableRow
  local_constants_ : List LocalConstantRow
deriving DecidableEq

namespace DbgBreakpoint

/-- Modelled from the spec: a breakpoint as constructed, "unresolved" and with
its "resolved fields empty". -/
def fresh : DbgBreakpoint :=
  { set_ := false, line_ := 0, column_ := 0, file_name_ := [], id_ := [], il_offset_ := 0,
    method_def_ := 0, method_token_ := 0, method_name_ := [], local_variables_ := [],
    local_constants_ := [] }

/-- The overload `Initialize(file_name, id, line, column)`. -/
def Initialize (self : DbgBreakpoint) (file_name id : List Byte) (line column : Nat) :
    DbgBreakpoint :=
  { self with file_name_ := file_name.map tolower, id_ := id, line_ := line, column_ := column }

/-- The inner loop of `TrySetBreakpointInMethod` over `method.local_scope`: one
iteration.  The sum `start_offset + length` is a `uint32_t`. -/
def scopeStep (self : DbgBreakpoint) (local_scope : LocalScopeRow) : DbgBreakpoint :=
  if local_scope.start_offset > self.il_offset_ ∨
      (local_scope.start_offset + local_scope.length) % 2 ^ 32 < self.il_offset_ then self
  else
    { self with local_variables_ := local_scope.local_variables,
                local_constants_ := local_scope.local_constants }

/-- The loop of `TrySetBreakpointInMethod` over the sequence points still to
be examined. -/
def TrySetBreakpointInMethod_loop (self : DbgBreakpoint) (method : MethodInfo) :
    List SequencePoint → Bool × DbgBreakpoint
  | [] => (false, self)
  | sequence_point :: rest =>
    if sequence_point.start_line > self.line_ ∨ sequence_point.end_line < self.line_ then
      TrySetBreakpointInMethod_loop self method rest
    else
      (true, method.local_scope.foldl scopeStep
        { self with il_offset_ := sequence_point.il_offset, method_def_ := method.method_def })

/-- The function `TrySetBreakpointInMethod`. -/
def TrySetBreakpointInMethod (self : DbgBreakpoint) (method : MethodInfo) :
    Bool × DbgBreakpoint :=
  TrySetBreakpointInMethod_loop self method method.sequence_points

/-- Lines 82 to 98 of `TrySetBreakpoint`: the document name with `\` replaced
by `/`, the length check, the lower-casing and the `rfind` check.  The result
is `none` where the code does `continue` and `file_name_location` otherwise.
The sum `file_name_location + file_name_.size()` is a `size_t`. -/
def fileNameLocation (file_name_ : List Byte) (document_index : DocumentIndex) : Option Nat :=
  let document_name := document_index.file_path.map (fun c => if c = 0x5C then 0x2F else c)
  if document_name.length < file_name_.length then none
  else
    let document_name := document_name.map tolower
    let file_name_location := rfind document_name file_name_
    if (file_name_location + file_name_.length) % 2 ^ 64 ≠ document_name.length then none
    else some file_name_location

/-- The locals of the loop over the methods of the matched document. -/
structure MethodLoop where
  found_breakpoint : Bool
  best_matched_method_first_line : Nat
  self : DbgBreakpoint
deriving DecidableEq

/-- One iteration of the loop over `matched_doc.GetMethods()`. -/
def methodStep (st : MethodLoop) (method : MethodInfo) : MethodLoop :=
  if method.first_line > st.self.line_ ∨ method.last_line < st.self.line_ then st
  else if method.first_line > st.best_matched_method_first_line then
    match TrySetBreakpointInMethod st.self method with
    | (true, self') =>
      { found_breakpoint := true, best_matched_method_first_line := method.first_line,
        self := self' }
    | (false, self') => { st with self := self' }
  else st

/-- The locals of the loop of `TrySetBreakpoint` over the documents. -/
structure DocumentLoop where
  current_doc_index_index : Nat
  best_match_index : Nat
  best_file_name_location_matched : Nat
  self : DbgBreakpoint
deriving DecidableEq

/-- One iteration of the loop over `pdb_file.GetDocumentIndexTable()`; `docs` is
the copy of that table made before the loop.  Indexing `docs` past its end is
undefined behaviour in C++; the embedding skips the document there, a case
that does not arise because the index counts the documents iterated. -/
def documentStep (docs : List DocumentIndex) (st : DocumentLoop) (document_index : DocumentIndex) :
    DocumentLoop :=
  let current := (st.current_doc_index_index + 1) % 2 ^ 32
  let st := { st with current_doc_index_index := current }
  match fileNameLocation st.self.file_name_ document_index with
  | none => st
  | some file_name_location =>
    if file_name_location < st.best_file_name_location_matched then
      match docs[current]? with
      | none => st
      | some matched_doc =>
        let r := matched_doc.methods.foldl methodStep ⟨false, 0, st.self⟩
        if r.found_breakpoint then
          { st with best_file_name_location_matched := file_name_location,
                    best_match_index := current, self := r.self }
        else { st with self := r.self }
    else st

/-- The state of the locals of `TrySetBreakpoint` when its loop ends. -/
def TrySetBreakpoint_loop (self : DbgBreakpoint) (pdb_file : PortablePdbFile) : DocumentLoop :=
  pdb_file.foldl (documentStep pdb_file) ⟨UINT32_MAX, UINT32_MAX, UINT32_MAX, self⟩

/-- The function `TrySetBreakpoint`. -/
def TrySetBreakpoint (self : DbgBreakpoint) (pdb_file : PortablePdbFile) : Bool × DbgBreakpoint :=
  let st := TrySetBreakpoint_loop self pdb_file
  let set := decide (st.best_match_index ≠ UINT32_MAX)
  (set, { st.self with set_ := set })

/-- The input sizes the 32-bit locals of `TrySetBreakpoint` can represent:
fewer than `UINT32_MAX` documents, each with a path shorter than `UINT32_MAX`. -/
def withinLimits (pdb_file : PortablePdbFile) : Prop :=
  pdb_file.length < 2 ^ 32 - 1 ∧ ∀ d ∈ pdb_file, d.file_path.length < 2 ^ 32 - 1

instance (pdb_file : PortablePdbFile) : Decidable (withinLimits pdb_file) := by
  unfold withinLimits; infer_instance

/-- A document yields a match at `line` when one of its methods with a
non-zero first line is resolvable at `line`. -/
def yieldsMatch (d : DocumentIndex) (line : Nat) : Prop :=
  ∃ m ∈ d.methods, m.resolvable line ∧ 0 < m.first_line

instance (d : DocumentIndex) (line : Nat) : Decidable (yieldsMatch d line) := by
  unfold yieldsMatch; infer_instance

/-- The invariant of the document loop of `TrySetBreakpoint`, started on the
breakpoint `self0`, after the documents `seen`: either no document seen is a
candidate that yields a match and nothing has changed, or the best match is
the candidate `d` at position `l1.length`, the breakpoint is as the method
loop of `d` left it, every matching candidate before `d` has a larger
location and every one after it a location at least as large. -/
def DocumentLoop.Invariant (self0 : DbgBreakpoint) (seen : List DocumentIndex)
    (st : DocumentLoop) : Prop :=
  st.current_doc_index_index = (seen.length + UINT32_MAX) % 2 ^ 32 ∧
  st.self.line_ = self0.line_ ∧ st.self.file_name_ = self0.file_name_ ∧
  ((st.best_match_index = UINT32_MAX ∧ st.best_file_name_location_matched = UINT32_MAX ∧
      st.self = self0 ∧
      ∀ d ∈ seen, ∀ loc, fileNameLocation self0.file_name_ d = some loc →
        ¬ yieldsMatch d self0.line_) ∨
   (∃ (l1 : List DocumentIndex) (d : DocumentIndex) (l2 : List DocumentIndex) (loc : Nat),
      seen = l1 ++ d :: l2 ∧ st.best_match_index = l1.length ∧
      fileNameLocation self0.file_name_ d = some loc ∧
      st.best_file_name_location_matched = loc ∧ yieldsMatch d self0.line_ ∧
      (∃ b0 : DbgBreakpoint, b0.line_ = self0.line_ ∧ b0.file_name_ = self0.file_name_ ∧
        st.self = (d.methods.foldl methodStep ⟨false, 0, b0⟩).self) ∧
      (∀ d' ∈ l1, ∀ loc', fileNameLocation self0.file_name_ d' = some loc' →
        yieldsMatch d' self0.line_ → loc < loc') ∧
      (∀ d' ∈ l2, ∀ loc', fileNameLocation self0.file_name_ d' = some loc' →
        yieldsMatch d' self0.line_ → loc ≤ loc')))

/-- What a run of the resolver writes into a breakpoint: possibly a new
instruction offset and method, possibly new local variables and constants. -/
structure Update where
  location : Option (Nat × Nat)
  locals : Option (List LocalVariableRow × List LocalConstantRow)
deriving DecidableEq

/-- The breakpoint with the fields of the update written into it. -/
def Update.apply (u : Update) (b : DbgBreakpoint) : DbgBreakpoint :=
  { b with
    il_offset_ := match u.location with
      | some x => x.1
      | none => b.il_offset_
    method_def_ := match u.location with
      | some x => x.2
      | none => b.method_def_
    local_variables_ := match u.locals with
      | some x => x.1
      | none => b.local_variables_
    local_constants_ := match u.locals with
      | some x => x.2
      | none => b.local_constants_ }

/-- The update `u2` made after the update `u1`. -/
def Update.after (u2 u1 : Update) : Update :=
  { location := match u2.location with
      | some x => some x
      | none => u1.location
    locals := match u2.locals with
      | some x => some x
      | none => u1.locals }

end DbgBreakpoint

/-! ### Notions of the specification -/

/-- The normalized form of a document path: `\` replaced by `/`, then
lower-cased. -/
def normalizedPath (path : List Byte) : List Byte :=
  (path.map (fun c => if c = 0x5C then 0x2F else c)).map tolower

end google_cloud_debugger

namespace google_cloud_debugger_portable_pdb

namespace CustomBinaryStream

/-! ## Basic facts about the cursor -/

theorem advance_backing (s : CustomBinaryStream) (n : Nat) : (s.advance n).backing = s.backing := rfl

theorem advance_end (s : CustomBinaryStream) (n : Nat) : (s.advance n).end_ = s.end_ := rfl

theorem advance_iterator (s : CustomBinaryStream) (n : Nat) :
    (s.advance n).iterator_ = s.iterator_ + n := rfl

theorem advance_advance (s : CustomBinaryStream) (m n : Nat) :
    (s.advance m).advance n = s.advance (m + n) := by
  simp [advance, Nat.add_assoc]

theorem advance_zero (s : CustomBinaryStream) : s.advance 0 = s := rfl

theorem remaining_length (s : CustomBinaryStream) (h : s.WellFormed) :
    s.remaining.length = s.end_ - s.iterator_ := by
  obtain ⟨_, _, h3⟩ := h
  simp [remaining, Nat.min_eq_left h3]

theorem advance_wellFormed (s : CustomBinaryStream) (n : Nat) (h : s.WellFormed)
    (hn : n ≤ s.end_ - s.iterator_) : (s.advance n).WellFormed := by
  obtain ⟨h1, h2, h3⟩ := h
  refine ⟨?_, ?_, h3⟩
  · show s.begin_ ≤ s.iterator_ + n
    omega
  · show s.iterator_ + n ≤ s.end_
    omega

theorem remaining_advance (s : CustomBinaryStream) (n : Nat) :
    (s.advance n).remaining = s.remaining.drop n := by
  show ((s.backing.take s.end_).drop (s.iterator_ + n)) = (((s.backing.take s.end_).drop s.iterator_).drop n)
  rw [List.drop_drop, Nat.add_comm]

theorem remaining_cons (s : CustomBinaryStream) (h : s.WellFormed) (hlt : s.iterator_ < s.end_) :
    s.remaining = s.deref s.iterator_ :: (s.advance 1).remaining := by
  obtain ⟨_, _, h3⟩ := h
  have hlen : s.iterator_ < (s.backing.take s.end_).length := by
    simp [Nat.min_eq_left h3]; omega
  have hb : s.iterator_ < s.backing.length := by omega
  rw [remaining_advance]
  unfold remaining
  rw [List.drop_drop, List.drop_eq_getElem_cons hlen]
  simp [deref, List.getElem?_eq_getElem hb, Nat.add_comm]

/-- What `ReadBytes` does when enough bytes remain. -/
theorem ReadBytes_of_le (n : Nat) : ∀ (s : CustomBinaryStream), s.WellFormed →
    n ≤ s.end_ - s.iterator_ → s.ReadBytes n = (true, s.remaining.take n, s.advance n) := by
  induction n with
  | zero => intro s _ _; simp [ReadBytes, advance]
  | succ k ih =>
    intro s h hn
    have hlt : s.iterator_ < s.end_ := by omega
    have hne : s.iterator_ ≠ s.end_ := by omega
    have hwf := advance_wellFormed s 1 h (by omega)
    have hk : k ≤ (s.advance 1).end_ - (s.advance 1).iterator_ := by
      rw [advance_end, advance_iterator]; omega
    have := ih (s.advance 1) hwf hk
    rw [ReadBytes, if_neg hne]
    show (_, _, _) = _
    rw [show ({ s with iterator_ := s.iterator_ + 1 } : CustomBinaryStream) = s.advance 1 from rfl,
      this, remaining_cons s h hlt, advance_advance, Nat.add_comm 1 k]
    rfl

/-- What `ReadBytes` does when too few bytes remain: it consumes all of them. -/
theorem ReadBytes_of_lt (n : Nat) : ∀ (s : CustomBinaryStream), s.WellFormed →
    s.end_ - s.iterator_ < n →
    s.ReadBytes n = (false, s.remaining, s.advance (s.end_ - s.iterator_)) := by
  induction n with
  | zero => intro s _ hn; omega
  | succ k ih =>
    intro s h hn
    by_cases heq : s.iterator_ = s.end_
    · have hr : s.remaining = [] := by
        apply List.eq_nil_of_length_eq_zero
        rw [remaining_length s h]; omega
      rw [ReadBytes, if_pos heq, hr, heq, Nat.sub_self, advance_zero]
    · have h2 := h.2.1
      have hlt : s.iterator_ < s.end_ := by omega
      have hwf := advance_wellFormed s 1 h (by omega)
      have hk : (s.advance 1).end_ - (s.advance 1).iterator_ < k := by
        rw [advance_end, advance_iterator]; omega
      have := ih (s.advance 1) hwf hk
      rw [ReadBytes, if_neg heq]
      show (_, _, _) = _
      rw [show ({ s with iterator_ := s.iterator_ + 1 } : CustomBinaryStream) = s.advance 1 from rfl,
        this, remaining_cons s h hlt, advance_advance, advance_end, advance_iterator]
      have : 1 + (s.end_ - (s.iterator_ + 1)) = s.end_ - s.iterator_ := by omega
      rw [this]

/-- What `ReadByte` does on a stream with a next byte. -/
theorem ReadByte_cons (s : CustomBinaryStream) (h : s.WellFormed) (b : Byte) (rest : List Byte)
    (hr : s.remaining = b :: rest) :
    s.ReadByte = (some b, s.advance 1) ∧ (s.advance 1).WellFormed ∧ (s.advance 1).remaining = rest := by
  have hlen := remaining_length s h
  rw [hr, List.length_cons] at hlen
  have hle : 1 ≤ s.end_ - s.iterator_ := by omega
  refine ⟨?_, advance_wellFormed s 1 h hle, ?_⟩
  · unfold ReadByte
    rw [ReadBytes_of_le 1 s h hle, hr]
    rfl
  · rw [remaining_advance, hr]
    rfl

/-- What `ReadByte` does at the limit. -/
theorem ReadByte_nil (s : CustomBinaryStream) (h : s.WellFormed) (hr : s.remaining = []) :
    s.ReadByte = (none, s) := by
  have hlen := remaining_length s h
  rw [hr, List.length_nil] at hlen
  unfold ReadByte
  rw [ReadBytes_of_lt 1 s h (by omega), hr, ← hlen, advance_zero]

/-! ## Bit-level facts -/

theorem or_eq_add_of_lt (i a b : Nat) (hb : b < 2 ^ i) : 2 ^ i * a ||| b = 2 ^ i * a + b :=
  (Nat.mul_add_lt_is_or hb a).symm

theorem bytes2_or (b0 b1 : Nat) (h1 : b1 < 256) : b0 <<< 8 ||| b1 = b0 * 256 + b1 := by
  rw [Nat.shiftLeft_eq, Nat.mul_comm b0, or_eq_add_of_lt 8 b0 b1 (by omega)]

theorem bytes4_or (b0 b1 b2 b3 : Nat) (h1 : b1 < 256) (h2 : b2 < 256) (h3 : b3 < 256) :
    b0 <<< 24 ||| b1 <<< 16 ||| b2 <<< 8 ||| b3 = b0 * 16777216 + b1 * 65536 + b2 * 256 + b3 := by
  rw [Nat.shiftLeft_eq, Nat.shiftLeft_eq, Nat.shiftLeft_eq]
  rw [Nat.mul_comm b0, or_eq_add_of_lt 24 b0 (b1 * 2 ^ 16) (by omega)]
  rw [show 2 ^ 24 * b0 + b1 * 2 ^ 16 = 2 ^ 16 * (256 * b0 + b1) by omega,
    or_eq_add_of_lt 16 _ (b2 * 2 ^ 8) (by omega)]
  rw [show 2 ^ 16 * (256 * b0 + b1) + b2 * 2 ^ 8 = 2 ^ 8 * (65536 * b0 + 256 * b1 + b2) by omega,
    or_eq_add_of_lt 8 _ b3 (by omega)]
  omega

theorem and_3F (x : Nat) : x &&& 0x3F = x % 64 := by
  simpa using Nat.and_pow_two_sub_one_eq_mod x 6

theorem and_1F (x : Nat) : x &&& 0x1F = x % 32 := by
  simpa using Nat.and_pow_two_sub_one_eq_mod x 5

theorem and_3FFF (x : Nat) : x &&& 0x3FFF = x % 16384 := by
  simpa using Nat.and_pow_two_sub_one_eq_mod x 14

theorem and_1FFFFFFF (x : Nat) : x &&& 0x1FFFFFFF = x % 536870912 := by
  simpa using Nat.and_pow_two_sub_one_eq_mod x 29

set_option maxRecDepth 100000 in
theorem byte_tier1 : ∀ b : Byte, (b.val &&& 0x80 = 0) ↔ b.val < 0x80 := by decide

set_option maxRecDepth 100000 in
theorem byte_tier2 : ∀ b : Byte, (b.val &&& 0xC0 = 0x80) ↔ b.val >>> 6 = 0b10 := by decide

set_option maxRecDepth 100000 in
theorem byte_tier3 : ∀ b : Byte, (b.val &&& 0xE0 = 0xC0) ↔ b.val >>> 5 = 0b110 := by decide

set_option maxRecDepth 100000 in
theorem byte_tier2_not1 : ∀ b : Byte, b.val >>> 6 = 0b10 → ¬ (b.val &&& 0x80 = 0) := by decide

set_option maxRecDepth 100000 in
theorem byte_tier3_not12 : ∀ b : Byte, b.val >>> 5 = 0b110 →
    ¬ (b.val &&& 0x80 = 0) ∧ ¬ (b.val &&& 0xC0 = 0x80) := by decide

set_option maxRecDepth 100000 in
theorem byte_invalid : ∀ b : Byte, 0xE0 ≤ b.val →
    ¬ (b.val &&& 0x80 = 0) ∧ ¬ (b.val &&& 0xC0 = 0x80) ∧ ¬ (b.val &&& 0xE0 = 0xC0) := by decide

/-! ## The compressed unsigned decoder, tier by tier -/

theorem ReadCompressedUInt32_tier1 (s : CustomBinaryStream) (h : s.WellFormed) (b0 : Byte)
    (rest : List Byte) (hr : s.remaining = b0 :: rest) (hb : b0.val &&& 0x80 = 0) :
    s.ReadCompressedUInt32 = (some b0.val, s.advance 1) := by
  obtain ⟨e1, -, -⟩ := ReadByte_cons s h b0 rest hr
  unfold ReadCompressedUInt32
  rw [e1]
  simp only [hb, if_true]

theorem ReadCompressedUInt32_tier2 (s : CustomBinaryStream) (h : s.WellFormed) (b0 b1 : Byte)
    (rest : List Byte) (hr : s.remaining = b0 :: b1 :: rest)
    (hb1 : ¬ (b0.val &&& 0x80 = 0)) (hb2 : b0.val &&& 0xC0 = 0x80) :
    s.ReadCompressedUInt32 = (some (((b0.val <<< 8) ||| b1.val) &&& 0x3FFF), s.advance 2) := by
  obtain ⟨e1, w1, r1⟩ := ReadByte_cons s h b0 _ hr
  obtain ⟨e2, -, -⟩ := ReadByte_cons _ w1 b1 _ r1
  rw [advance_advance] at e2
  unfold ReadCompressedUInt32
  rw [e1]
  simp only [hb1, if_false]
  rw [e2]
  simp only [hb2, if_true]

theorem ReadCompressedUInt32_tier4 (s : CustomBinaryStream) (h : s.WellFormed) (b0 b1 b2 b3 : Byte)
    (rest : List Byte) (hr : s.remaining = b0 :: b1 :: b2 :: b3 :: rest)
    (hb1 : ¬ (b0.val &&& 0x80 = 0)) (hb2 : ¬ (b0.val &&& 0xC0 = 0x80))
    (hb3 : b0.val &&& 0xE0 = 0xC0) :
    s.ReadCompressedUInt32 = (some (((b0.val <<< 24) ||| (b1.val <<< 16) ||| (b2.val <<< 8)
      ||| b3.val) &&& 0x1FFFFFFF), s.advance 4) := by
  obtain ⟨e1, w1, r1⟩ := ReadByte_cons s h b0 _ hr
  obtain ⟨e2, w2, r2⟩ := ReadByte_cons _ w1 b1 _ r1
  obtain ⟨e3, w3, r3⟩ := ReadByte_cons _ w2 b2 _ r2
  obtain ⟨e4, -, -⟩ := ReadByte_cons _ w3 b3 _ r3
  simp only [advance_advance] at e2 e3 e4
  unfold ReadCompressedUInt32
  rw [e1]
  simp only [hb1, if_false]
  rw [e2]
  simp only [hb2, if_false]
  rw [e3]
  simp only []
  rw [e4]
  simp only [hb3, if_true]

/-- What `Peak` returns on a stream with a next byte. -/
theorem Peak_cons (s : CustomBinaryStream) (h : s.WellFormed) (b : Byte) (rest : List Byte)
    (hr : s.remaining = b :: rest) : s.Peak = some b := by
  have hlen := remaining_length s h
  rw [hr, List.length_cons] at hlen
  have hlt : s.iterator_ < s.end_ := by omega
  have hne : s.iterator_ ≠ s.end_ := by omega
  have hc := remaining_cons s h hlt
  rw [hr] at hc
  rw [Peak, if_neg hne, (List.cons.inj hc).1]

/-- A leading byte `≥ 0xE0` makes `ReadCompressedUInt32` fail after it has
consumed up to four bytes. -/
theorem ReadCompressedUInt32_invalid (s : CustomBinaryStream) (h : s.WellFormed) (b0 : Byte)
    (rest : List Byte) (hr : s.remaining = b0 :: rest) (hb : 0xE0 ≤ b0.val) :
    s.ReadCompressedUInt32 = (none, s.advance (min 4 s.remaining.length)) := by
  obtain ⟨hb1, hb2, hb3⟩ := byte_invalid b0 hb
  obtain ⟨e1, w1, r1⟩ := ReadByte_cons s h b0 _ hr
  unfold ReadCompressedUInt32
  rw [e1]
  simp only [hb1, if_false]
  match rest, hr, r1 with
  | [], hr, r1 =>
    rw [ReadByte_nil _ w1 r1, hr]
    rfl
  | b1 :: rest1, hr, r1 =>
    obtain ⟨e2, w2, r2⟩ := ReadByte_cons _ w1 b1 _ r1
    rw [e2]
    simp only [hb2, if_false]
    match rest1, hr, r2 with
    | [], hr, r2 =>
      rw [ReadByte_nil _ w2 r2, hr, advance_advance]
      rfl
    | b2 :: rest2, hr, r2 =>
      obtain ⟨e3, w3, r3⟩ := ReadByte_cons _ w2 b2 _ r2
      rw [e3]
      simp only []
      match rest2, hr, r3 with
      | [], hr, r3 =>
        rw [ReadByte_nil _ w3 r3, hr, advance_advance, advance_advance]
        rfl
      | b3 :: rest3, hr, r3 =>
        obtain ⟨e4, -, -⟩ := ReadByte_cons _ w3 b3 _ r3
        rw [e4]
        simp only [hb3, if_false]
        rw [hr, advance_advance, advance_advance, advance_advance]
        have : min 4 (b0 :: b1 :: b2 :: b3 :: rest3).length = 1 + 1 + 1 + 1 := by
          simp only [List.length_cons]; omega
        rw [this]

theorem byteOf_val (n : Nat) : (byteOf n).val = n % 256 := rfl

/-! ## Claims about the compressed unsigned decoder -/

/-- C1: `ReadCompressedUInt32` decodes by the leading byte `b0` of the
remaining stream: if `b0 < 0x80` it returns `b0` and advances by 1; if the top
two bits of `b0` are `10` and a second byte `b1` remains it returns
`((b0 & 0x3F) << 8) | b1` and advances by 2; if the top three bits are `110`
and three more bytes remain it returns
`((b0 & 0x1F) << 24) | (b1 << 16) | (b2 << 8) | b3` and advances by 4. -/
theorem C1_ReadCompressedUInt32_by_leading_byte (s : CustomBinaryStream) (h : s.WellFormed)
    (b0 : Byte) (rest : List Byte) (hr : s.remaining = b0 :: rest) :
    (b0.val < 0x80 → s.ReadCompressedUInt32 = (some b0.val, s.advance 1)) ∧
    (b0.val >>> 6 = 0b10 → ∀ (b1 : Byte) (tail : List Byte), rest = b1 :: tail →
      s.ReadCompressedUInt32 = (some (((b0.val &&& 0x3F) <<< 8) ||| b1.val), s.advance 2)) ∧
    (b0.val >>> 5 = 0b110 → ∀ (b1 b2 b3 : Byte) (tail : List Byte), rest = b1 :: b2 :: b3 :: tail →
      s.ReadCompressedUInt32 =
        (some (((b0.val &&& 0x1F) <<< 24) ||| (b1.val <<< 16) ||| (b2.val <<< 8) ||| b3.val),
          s.advance 4)) := by
  refine ⟨?_, ?_, ?_⟩
  · intro hb
    exact ReadCompressedUInt32_tier1 s h b0 rest hr ((byte_tier1 b0).2 hb)
  · intro hb b1 tail ht
    subst ht
    rw [ReadCompressedUInt32_tier2 s h b0 b1 tail hr (byte_tier2_not1 b0 hb) ((byte_tier2 b0).2 hb)]
    have h0 := b0.isLt
    have h1 := b1.isLt
    rw [bytes2_or _ _ h1, bytes2_or _ _ h1, and_3FFF, and_3F]
    rw [Nat.shiftRight_eq_div_pow] at hb
    have : ((b0.val * 256 + b1.val) % 16384) = b0.val % 64 * 256 + b1.val := by omega
    rw [this]
  · intro hb b1 b2 b3 tail ht
    subst ht
    obtain ⟨n1, n2⟩ := byte_tier3_not12 b0 hb
    rw [ReadCompressedUInt32_tier4 s h b0 b1 b2 b3 tail hr n1 n2 ((byte_tier3 b0).2 hb)]
    have h0 := b0.isLt
    have h1 := b1.isLt
    have h2 := b2.isLt
    have h3 := b3.isLt
    rw [bytes4_or _ _ _ _ h1 h2 h3, bytes4_or _ _ _ _ h1 h2 h3, and_1FFFFFFF, and_1F]
    have : (b0.val * 16777216 + b1.val * 65536 + b2.val * 256 + b3.val) % 536870912
        = b0.val % 32 * 16777216 + b1.val * 65536 + b2.val * 256 + b3.val := by omega
    rw [this]

/-- Witness for C1: the two-byte form `81 02` decodes to `0x102`. -/
theorem C1_ReadCompressedUInt32_by_leading_byte_witness :
    (streamOf [0x81, 0x02, 0x55]).WellFormed ∧
    (streamOf [0x81, 0x02, 0x55]).remaining = [0x81, 0x02, 0x55] ∧
    (streamOf [0x81, 0x02, 0x55]).ReadCompressedUInt32
      = (some 0x102, (streamOf [0x81, 0x02, 0x55]).advance 2) :=
  ⟨by decide, by decide,
    (C1_ReadCompressedUInt32_by_leading_byte (streamOf [0x81, 0x02, 0x55]) (by decide)
      0x81 [0x02, 0x55] (by decide)).2.1 (by decide) 0x02 [0x55] rfl⟩

/-- C2: round trip of the compressed unsigned encoding.  For every
`v ≤ 0x1FFFFFFF`, reading a stream whose remaining bytes are the canonical
encoding of `v` followed by any bytes returns `v` and consumes exactly the
encoded bytes, which are 1, 2 or 4 according to the tier of `v`. -/
theorem C2_compressed_unsigned_round_trip (v : Nat) (hv : v ≤ 0x1FFFFFFF)
    (s : CustomBinaryStream) (h : s.WellFormed) (rest : List Byte)
    (hr : s.remaining = encodeCompressedUInt32 v ++ rest) :
    s.ReadCompressedUInt32 = (some v, s.advance (encodeCompressedUInt32 v).length) ∧
    (encodeCompressedUInt32 v).length = (if v ≤ 0x7F then 1 else if v ≤ 0x3FFF then 2 else 4) := by
  unfold encodeCompressedUInt32 at hr ⊢
  by_cases h1 : v ≤ 0x7F
  · rw [if_pos h1] at hr ⊢
    refine ⟨?_, by simp [h1]⟩
    have hval : (byteOf v).val = v := by rw [byteOf_val]; omega
    have := ReadCompressedUInt32_tier1 s h (byteOf v) rest hr
      ((byte_tier1 _).2 (by rw [hval]; omega))
    rw [this, hval]
    rfl
  · rw [if_neg h1] at hr ⊢
    by_cases h2 : v ≤ 0x3FFF
    · rw [if_pos h2] at hr ⊢
      refine ⟨?_, by simp [h1, h2]⟩
      have hval0 : (byteOf (0x80 + v / 2 ^ 8)).val = 0x80 + v / 256 := by
        rw [byteOf_val]; omega
      have ht : (byteOf (0x80 + v / 2 ^ 8)).val >>> 6 = 0b10 := by
        rw [hval0, Nat.shiftRight_eq_div_pow]; omega
      have := ReadCompressedUInt32_tier2 s h _ (byteOf v) rest hr
        (byte_tier2_not1 _ ht) ((byte_tier2 _).2 ht)
      rw [this, bytes2_or _ _ (byteOf v).isLt, and_3FFF, hval0, byteOf_val]
      have : ((128 + v / 256) * 256 + v % 256) % 16384 = v := by omega
      rw [this]
      rfl
    · rw [if_neg h2] at hr ⊢
      refine ⟨?_, by simp [h1, h2]⟩
      have hval0 : (byteOf (0xC0 + v / 2 ^ 24)).val = 0xC0 + v / 16777216 := by
        rw [byteOf_val]; omega
      have ht : (byteOf (0xC0 + v / 2 ^ 24)).val >>> 5 = 0b110 := by
        rw [hval0, Nat.shiftRight_eq_div_pow]; omega
      obtain ⟨n1, n2⟩ := byte_tier3_not12 _ ht
      have := ReadCompressedUInt32_tier4 s h _ (byteOf (v / 2 ^ 16)) (byteOf (v / 2 ^ 8))
        (byteOf v) rest hr n1 n2 ((byte_tier3 _).2 ht)
      rw [this, bytes4_or _ _ _ _ (byteOf _).isLt (byteOf _).isLt (byteOf _).isLt, and_1FFFFFFF,
        hval0, byteOf_val, byteOf_val, byteOf_val]
      have : ((192 + v / 16777216) * 16777216 + v / 2 ^ 16 % 256 * 65536 + v / 2 ^ 8 % 256 * 256
          + v % 256) % 536870912 = v := by omega
      rw [this]
      rfl

/-- Witness for C2: the boundary value `0x4000` round-trips through four bytes. -/
theorem C2_compressed_unsigned_round_trip_witness :
    (0x4000 ≤ 0x1FFFFFFF) ∧
    (streamOf [0xC0, 0x00, 0x40, 0x00, 0x07]).WellFormed ∧
    (streamOf [0xC0, 0x00, 0x40, 0x00, 0x07]).remaining = encodeCompressedUInt32 0x4000 ++ [0x07] ∧
    (streamOf [0xC0, 0x00, 0x40, 0x00, 0x07]).ReadCompressedUInt32
      = (some 0x4000, (streamOf [0xC0, 0x00, 0x40, 0x00, 0x07]).advance
          (encodeCompressedUInt32 0x4000).length) :=
  ⟨by decide, by decide, by decide,
    (C2_compressed_unsigned_round_trip 0x4000 (by decide)
      (streamOf [0xC0, 0x00, 0x40, 0x00, 0x07]) (by decide) [0x07] (by decide)).1⟩

/-- C7: a leading byte whose top three bits are `111` (`≥ 0xE0`) makes
`ReadCompressedUInt32` fail, however many bytes follow. -/
theorem C7_ReadCompressedUInt32_rejects_invalid_lead (s : CustomBinaryStream)
    (h : s.WellFormed) (b0 : Byte) (rest : List Byte) (hr : s.remaining = b0 :: rest)
    (hb : 0xE0 ≤ b0.val) : (s.ReadCompressedUInt32).1 = none := by
  rw [ReadCompressedUInt32_invalid s h b0 rest hr hb]

/-- Witness for C7: the stream `FF 01 02 03 04` is rejected. -/
theorem C7_ReadCompressedUInt32_rejects_invalid_lead_witness :
    (streamOf [0xFF, 0x01, 0x02, 0x03, 0x04]).WellFormed ∧
    (streamOf [0xFF, 0x01, 0x02, 0x03, 0x04]).remaining = [0xFF, 0x01, 0x02, 0x03, 0x04] ∧
    (0xE0 ≤ (0xFF : Byte).val) ∧
    ((streamOf [0xFF, 0x01, 0x02, 0x03, 0x04]).ReadCompressedUInt32).1 = none :=
  ⟨by decide, by decide, by decide,
    C7_ReadCompressedUInt32_rejects_invalid_lead (streamOf [0xFF, 0x01, 0x02, 0x03, 0x04])
      (by decide) 0xFF [0x01, 0x02, 0x03, 0x04] (by decide) (by decide)⟩

/-- C8 (as amended): when the next byte is `≥ 0xE0`, `ReadCompressedUInt32` and
`ReadCompressSignedInt32` both fail, and the failure leaves the current
position advanced by `min 4 r`, where `r ≥ 1` is the number of bytes that
remained; the position stays within the limit. -/
theorem C8_invalid_encoding_consumes_bytes (s : CustomBinaryStream) (h : s.WellFormed)
    (b0 : Byte) (rest : List Byte) (hr : s.remaining = b0 :: rest) (hb : 0xE0 ≤ b0.val) :
    s.ReadCompressedUInt32 = (none, s.advance (min 4 s.remaining.length)) ∧
    s.ReadCompressSignedInt32 = (none, s.advance (min 4 s.remaining.length)) ∧
    (s.ReadCompressedUInt32).2.iterator_ = s.iterator_ + min 4 (s.end_ - s.iterator_) ∧
    s.iterator_ < (s.ReadCompressedUInt32).2.iterator_ ∧
    (s.ReadCompressedUInt32).2.iterator_ ≤ s.end_ := by
  have hu := ReadCompressedUInt32_invalid s h b0 rest hr hb
  have hlen := remaining_length s h
  have hpos : 1 ≤ s.remaining.length := by rw [hr]; simp
  refine ⟨hu, ?_, ?_, ?_, ?_⟩
  · unfold ReadCompressSignedInt32
    rw [Peak_cons s h b0 rest hr, hu]
  · rw [hu, advance_iterator, hlen]
  · rw [hu, advance_iterator]; omega
  · rw [hu, advance_iterator]
    have := h.2.1
    omega

/-- Witness for C8 (as amended): on `E0 01 02 03 04` both readers fail four
bytes further on. -/
theorem C8_invalid_encoding_consumes_bytes_witness :
    (streamOf [0xE0, 0x01, 0x02, 0x03, 0x04]).WellFormed ∧
    (0xE0 ≤ (0xE0 : Byte).val) ∧
    (streamOf [0xE0, 0x01, 0x02, 0x03, 0x04]).ReadCompressedUInt32
      = (none, (streamOf [0xE0, 0x01, 0x02, 0x03, 0x04]).advance
          (min 4 (streamOf [0xE0, 0x01, 0x02, 0x03, 0x04]).remaining.length)) :=
  ⟨by decide, by decide,
    (C8_invalid_encoding_consumes_bytes (streamOf [0xE0, 0x01, 0x02, 0x03, 0x04]) (by decide)
      0xE0 [0x01, 0x02, 0x03, 0x04] (by decide) (by decide)).1⟩

/-- Counterexample to C8 as stated: on the stream `E0 01 02 03 04`, positioned
at 0, both `ReadCompressedUInt32` and `ReadCompressSignedInt32` fail and
leave the current position at 4, not at 0. -/
theorem C8_counterexample :
    (streamOf [0xE0, 0x01, 0x02, 0x03, 0x04]).iterator_ = 0 ∧
    (streamOf [0xE0, 0x01, 0x02, 0x03, 0x04]).Peak = some 0xE0 ∧
    ((streamOf [0xE0, 0x01, 0x02, 0x03, 0x04]).ReadCompressedUInt32).1 = none ∧
    ((streamOf [0xE0, 0x01, 0x02, 0x03, 0x04]).ReadCompressedUInt32).2.iterator_ = 4 ∧
    ((streamOf [0xE0, 0x01, 0x02, 0x03, 0x04]).ReadCompressSignedInt32).1 = none ∧
    ((streamOf [0xE0, 0x01, 0x02, 0x03, 0x04]).ReadCompressSignedInt32).2.iterator_ = 4 := by
  decide

/-! ## Claims about `ReadBytes` -/

theorem take_remaining (s : CustomBinaryStream) (n : Nat) (hn : n ≤ s.end_ - s.iterator_) :
    s.remaining.take n = (s.backing.drop s.iterator_).take n := by
  unfold remaining
  rw [List.drop_take, List.take_take, Nat.min_eq_left hn]

/-- C5: `ReadBytes(n)` succeeds if and only if at least `n` bytes remain
between the current position and the limit; when it succeeds it returns
exactly the `n` bytes `content[current .. current + n)` in order and advances
the current position by exactly `n`, leaving the limit (and everything else)
unchanged. -/
theorem C5_ReadBytes_succeeds_iff_enough (s : CustomBinaryStream) (h : s.WellFormed) (n : Nat) :
    ((s.ReadBytes n).1 = true ↔ n ≤ s.end_ - s.iterator_) ∧
    ((s.ReadBytes n).1 = true →
      (s.ReadBytes n).2.1 = (s.backing.drop s.iterator_).take n ∧
      ((s.ReadBytes n).2.1).length = n ∧
      (s.ReadBytes n).2.2.iterator_ = s.iterator_ + n ∧
      (s.ReadBytes n).2.2.end_ = s.end_ ∧
      (s.ReadBytes n).2.2 = s.advance n) := by
  by_cases hn : n ≤ s.end_ - s.iterator_
  · have e := ReadBytes_of_le n s h hn
    have hlen := remaining_length s h
    refine ⟨⟨fun _ => hn, fun _ => by rw [e]⟩, fun _ => ?_⟩
    rw [e]
    refine ⟨take_remaining s n hn, ?_, rfl, rfl, rfl⟩
    show (s.remaining.take n).length = n
    rw [List.length_take, hlen]
    omega
  · have e := ReadBytes_of_lt n s h (by omega)
    refine ⟨⟨fun ht => ?_, fun hle => absurd hle hn⟩, fun ht => ?_⟩
    · rw [e] at ht; exact absurd ht (by simp)
    · rw [e] at ht; exact absurd ht (by simp)

/-- Witness for C5: reading 2 of the 3 bytes `0A 0B 0C`. -/
theorem C5_ReadBytes_succeeds_iff_enough_witness :
    (streamOf [0x0A, 0x0B, 0x0C]).WellFormed ∧
    (((streamOf [0x0A, 0x0B, 0x0C]).ReadBytes 2).1 = true ↔
      2 ≤ (streamOf [0x0A, 0x0B, 0x0C]).end_ - (streamOf [0x0A, 0x0B, 0x0C]).iterator_) :=
  ⟨by decide, (C5_ReadBytes_succeeds_iff_enough (streamOf [0x0A, 0x0B, 0x0C]) (by decide) 2).1⟩

/-- C6 (as amended): for every stream state and every `n` greater than the number
of remaining bytes, `ReadBytes(n)` fails after having copied all remaining
bytes to the result buffer: it leaves the current position at the limit, and
the limit unchanged. -/
theorem C6_ReadBytes_failure_consumes_rest (s : CustomBinaryStream) (h : s.WellFormed) (n : Nat)
    (hn : s.end_ - s.iterator_ < n) :
    (s.ReadBytes n).1 = false ∧
    (s.ReadBytes n).2.1 = s.remaining ∧
    (s.ReadBytes n).2.2.iterator_ = s.end_ ∧
    (s.ReadBytes n).2.2.end_ = s.end_ := by
  rw [ReadBytes_of_lt n s h hn]
  refine ⟨rfl, rfl, ?_, rfl⟩
  show s.iterator_ + (s.end_ - s.iterator_) = s.end_
  have := h.2.1
  omega

/-- Witness for C6 (as amended): asking 5 bytes of a 3-byte stream. -/
theorem C6_ReadBytes_failure_consumes_rest_witness :
    (streamOf [0x0A, 0x0B, 0x0C]).WellFormed ∧
    (streamOf [0x0A, 0x0B, 0x0C]).end_ - (streamOf [0x0A, 0x0B, 0x0C]).iterator_ < 5 ∧
    ((streamOf [0x0A, 0x0B, 0x0C]).ReadBytes 5).1 = false ∧
    ((streamOf [0x0A, 0x0B, 0x0C]).ReadBytes 5).2.2.iterator_ = (streamOf [0x0A, 0x0B, 0x0C]).end_ :=
  ⟨by decide, by decide,
    (C6_ReadBytes_failure_consumes_rest (streamOf [0x0A, 0x0B, 0x0C]) (by decide) 5 (by decide)).1,
    (C6_ReadBytes_failure_consumes_rest (streamOf [0x0A, 0x0B, 0x0C]) (by decide) 5
      (by decide)).2.2.1⟩

/-- Counterexample to C6 as stated: `ReadBytes(5)` on the 3-byte stream
`0A 0B 0C` positioned at 0 fails, and the current position is then 3, not 0. -/
theorem C6_counterexample :
    (streamOf [0x0A, 0x0B, 0x0C]).iterator_ = 0 ∧
    (streamOf [0x0A, 0x0B, 0x0C]).GetRemainingStreamLength = 3 ∧
    ((streamOf [0x0A, 0x0B, 0x0C]).ReadBytes 5).1 = false ∧
    ((streamOf [0x0A, 0x0B, 0x0C]).ReadBytes 5).2.2.iterator_ = 3 := by
  decide

/-! ## Fixed-width reads -/

set_option maxRecDepth 100000 in
theorem byte_shift8_mask : ∀ b : Byte, (b.val <<< 8) &&& 0xFF00 = b.val * 256 := by decide

/-- What `ReadUInt16` does when two bytes remain: the value is little-endian on a
little-endian host and byte-swapped on a big-endian host. -/
theorem ReadUInt16_of_two (big_endian : Bool) (s : CustomBinaryStream) (h : s.WellFormed)
    (b0 b1 : Byte) (rest : List Byte) (hr : s.remaining = b0 :: b1 :: rest) :
    s.ReadUInt16 big_endian =
      (some (if big_endian then b0.val * 256 + b1.val else b0.val + 256 * b1.val), s.advance 2) := by
  have hlen := remaining_length s h
  rw [hr] at hlen
  simp only [List.length_cons] at hlen
  have e := ReadBytes_of_le 2 s h (by omega)
  rw [hr] at e
  have h0 := b0.isLt
  have h1 := b1.isLt
  unfold ReadUInt16
  rw [e]
  cases big_endian
  · simp only [List.take, Bool.false_eq_true, if_false, byte_shift8_mask]
    have key : 256 * b1.val ||| b0.val = 256 * b1.val + b0.val :=
      or_eq_add_of_lt 8 b1.val b0.val (by omega)
    rw [Nat.mul_comm, key]
    have : (256 * b1.val + b0.val) % 2 ^ 16 = b0.val + 256 * b1.val := by omega
    rw [this]
  · simp only [List.take, if_true, byte_shift8_mask]
    have key : 256 * b0.val ||| b1.val = 256 * b0.val + b1.val :=
      or_eq_add_of_lt 8 b0.val b1.val (by omega)
    rw [Nat.mul_comm, key]
    have : (256 * b0.val + b1.val) % 2 ^ 16 = 256 * b0.val + b1.val := by omega
    rw [this]

/-- What `ReadUInt16` does when fewer than two bytes remain. -/
theorem ReadUInt16_of_short (big_endian : Bool) (s : CustomBinaryStream) (h : s.WellFormed)
    (hlt : s.end_ - s.iterator_ < 2) :
    s.ReadUInt16 big_endian = (none, s.advance (s.end_ - s.iterator_)) := by
  unfold ReadUInt16
  rw [ReadBytes_of_lt 2 s h hlt]

/-- What `ReadUInt32` does when four bytes remain. -/
theorem ReadUInt32_of_four (big_endian : Bool) (s : CustomBinaryStream) (h : s.WellFormed)
    (b0 b1 b2 b3 : Byte) (rest : List Byte) (hr : s.remaining = b0 :: b1 :: b2 :: b3 :: rest) :
    s.ReadUInt32 big_endian =
      (some (if big_endian then b0.val * 2 ^ 24 + b1.val * 2 ^ 16 + b2.val * 2 ^ 8 + b3.val
        else b0.val + 2 ^ 8 * b1.val + 2 ^ 16 * b2.val + 2 ^ 24 * b3.val), s.advance 4) := by
  have hlen := remaining_length s h
  rw [hr] at hlen
  simp only [List.length_cons] at hlen
  have e := ReadBytes_of_le 4 s h (by omega)
  rw [hr] at e
  have h0 := b0.isLt
  have h1 := b1.isLt
  have h2 := b2.isLt
  have h3 := b3.isLt
  unfold ReadUInt32
  rw [e]
  cases big_endian
  · simp only [List.take, Bool.false_eq_true, if_false]
    rw [bytes4_or _ _ _ _ h2 h1 h0]
    have : (b3.val * 16777216 + b2.val * 65536 + b1.val * 256 + b0.val) % 2 ^ 32
        = b0.val + 2 ^ 8 * b1.val + 2 ^ 16 * b2.val + 2 ^ 24 * b3.val := by omega
    rw [this]
  · simp only [List.take, if_true]
    rw [bytes4_or _ _ _ _ h1 h2 h3]
    have : (b0.val * 16777216 + b1.val * 65536 + b2.val * 256 + b3.val) % 2 ^ 32
        = b0.val * 2 ^ 24 + b1.val * 2 ^ 16 + b2.val * 2 ^ 8 + b3.val := by omega
    rw [this]

/-- What `ReadUInt32` does when fewer than four bytes remain. -/
theorem ReadUInt32_of_short (big_endian : Bool) (s : CustomBinaryStream) (h : s.WellFormed)
    (hlt : s.end_ - s.iterator_ < 4) :
    s.ReadUInt32 big_endian = (none, s.advance (s.end_ - s.iterator_)) := by
  unfold ReadUInt32
  rw [ReadBytes_of_lt 4 s h hlt]

/-- C4, the defect: on a big-endian host (`big_endian()` true) the wire bytes
`01 00` read as the 16-bit value 256 and `01 00 00 00` as the 32-bit value
16777216, whereas on a little-endian host both read as 1, the value whose
little-endian encoding they are. -/
theorem C4_big_endian_host_swaps_bytes :
    (CustomBinaryStream.ReadUInt16 true (streamOf [0x01, 0x00])).1 = some 256 ∧
    (CustomBinaryStream.ReadUInt16 false (streamOf [0x01, 0x00])).1 = some 1 ∧
    (CustomBinaryStream.ReadUInt32 true (streamOf [0x01, 0x00, 0x00, 0x00])).1 = some 16777216 ∧
    (CustomBinaryStream.ReadUInt32 false (streamOf [0x01, 0x00, 0x00, 0x00])).1 = some 1 := by
  decide

theorem ReadUInt16_none_iff (big_endian : Bool) (s : CustomBinaryStream) (h : s.WellFormed) :
    (s.ReadUInt16 big_endian).1 = none ↔ s.end_ - s.iterator_ < 2 := by
  have hlen := remaining_length s h
  constructor
  · intro hnone
    match hm : s.remaining with
    | [] => rw [hm] at hlen; simp only [List.length_nil] at hlen; omega
    | [_] => rw [hm] at hlen; simp only [List.length_cons, List.length_nil] at hlen; omega
    | b0 :: b1 :: rest =>
      rw [ReadUInt16_of_two big_endian s h b0 b1 rest hm] at hnone
      exact absurd hnone (by simp)
  · intro hlt
    rw [ReadUInt16_of_short big_endian s h hlt]

theorem ReadUInt32_none_iff (big_endian : Bool) (s : CustomBinaryStream) (h : s.WellFormed) :
    (s.ReadUInt32 big_endian).1 = none ↔ s.end_ - s.iterator_ < 4 := by
  have hlen := remaining_length s h
  constructor
  · intro hnone
    match hm : s.remaining with
    | [] => rw [hm] at hlen; simp only [List.length_nil] at hlen; omega
    | [_] => rw [hm] at hlen; simp only [List.length_cons, List.length_nil] at hlen; omega
    | [_, _] => rw [hm] at hlen; simp only [List.length_cons, List.length_nil] at hlen; omega
    | [_, _, _] => rw [hm] at hlen; simp only [List.length_cons, List.length_nil] at hlen; omega
    | b0 :: b1 :: b2 :: b3 :: rest =>
      rw [ReadUInt32_of_four big_endian s h b0 b1 b2 b3 rest hm] at hnone
      exact absurd hnone (by simp)
  · intro hlt
    rw [ReadUInt32_of_short big_endian s h hlt]

/-- The widening copy `*table_index = temp` after `ReadUInt16` changes nothing. -/
theorem widen_ReadUInt16 (r : Option Nat × CustomBinaryStream) :
    (match r with
      | (none, s') => ((none : Option Nat), s')
      | (some temp, s') => (some temp, s')) = r := by
  obtain ⟨v, s'⟩ := r
  cases v <;> rfl

/-! ## Table and heap indices -/

theorem foldl_count (f : Nat → Bool) (l : List Nat) (acc : Nat) :
    l.foldl (fun present index => if f index then present + 1 else present) acc
      = acc + (l.filter f).length := by
  induction l generalizing acc with
  | nil => simp
  | cons a t ih =>
    rw [List.foldl_cons, ih]
    cases hfa : f a
    · simp [List.filter_cons, hfa]
    · simp [List.filter_cons, hfa]
      omega

/-- The counting loop yields the number of present tables of smaller kind. -/
theorem present_table_index_eq (metadata_header : CompressedMetadataTableHeader)
    (table : MetadataTable) :
    present_table_index metadata_header table
      = ((List.range table).filter (fun i => metadata_header.valid_mask_.testBit i)).length := by
  unfold present_table_index
  rw [foldl_count (fun i => metadata_header.valid_mask_.testBit i)]
  omega

/-- How `ReadTableIndex` for a metadata table chooses the index width from the
table-presence header, on either host.  If the bit of `table` in the valid mask is clear it
reads a 2-byte index.  If the bit is set it takes the row count at position
`k` of the compacted row-count list, `k` being the number of present tables
with a smaller table-kind value, and reads a 2-byte index (a value below
65536) when that row count is `< 65536` and a 4-byte index otherwise; the
cursor advances by 2, respectively 4, whatever the host, and on a
little-endian host the index is the little-endian value of those bytes. -/
theorem ReadTableIndex_table_width (big_endian : Bool) (s : CustomBinaryStream)
    (h : s.WellFormed) (table : MetadataTable) (hdr : CompressedMetadataTableHeader) :
    (hdr.valid_mask_.testBit table = false →
      ∀ (b0 b1 : Byte) (rest : List Byte), s.remaining = b0 :: b1 :: rest →
        ∃ v, s.ReadTableIndex_table big_endian table hdr = (some v, s.advance 2) ∧ v < 65536 ∧
          (big_endian = false → v = b0.val + 256 * b1.val)) ∧
    (hdr.valid_mask_.testBit table = true →
      ∀ rows : Nat,
        hdr.num_rows_[((List.range table).filter (fun i => hdr.valid_mask_.testBit i)).length]?
          = some rows →
        (rows < 65536 →
          ∀ (b0 b1 : Byte) (rest : List Byte), s.remaining = b0 :: b1 :: rest →
            ∃ v, s.ReadTableIndex_table big_endian table hdr = (some v, s.advance 2) ∧ v < 65536 ∧
              (big_endian = false → v = b0.val + 256 * b1.val)) ∧
        (65536 ≤ rows →
          ∀ (b0 b1 b2 b3 : Byte) (rest : List Byte), s.remaining = b0 :: b1 :: b2 :: b3 :: rest →
            ∃ v, s.ReadTableIndex_table big_endian table hdr = (some v, s.advance 4) ∧
              (big_endian = false →
                v = b0.val + 2 ^ 8 * b1.val + 2 ^ 16 * b2.val + 2 ^ 24 * b3.val))) := by
  have two : ∀ (b0 b1 : Byte) (rest : List Byte), s.remaining = b0 :: b1 :: rest →
      ∃ v, s.ReadUInt16 big_endian = (some v, s.advance 2) ∧ v < 65536 ∧
        (big_endian = false → v = b0.val + 256 * b1.val) := by
    intro b0 b1 rest hr
    refine ⟨_, ReadUInt16_of_two big_endian s h b0 b1 rest hr, ?_, ?_⟩
    · have h0 := b0.isLt
      have h1 := b1.isLt
      split <;> omega
    · intro hbe
      rw [hbe]
      rfl
  refine ⟨?_, ?_⟩
  · intro hbit b0 b1 rest hr
    unfold ReadTableIndex_table
    rw [hbit]
    simp only [Bool.not_false, if_true]
    rw [widen_ReadUInt16]
    exact two b0 b1 rest hr
  · intro hbit rows hrows
    rw [← present_table_index_eq] at hrows
    refine ⟨?_, ?_⟩
    · intro hlt b0 b1 rest hr
      unfold ReadTableIndex_table
      rw [hbit, hrows]
      simp only [Bool.not_true, Bool.false_eq_true, if_false, Option.getD_some, hlt, if_true]
      rw [widen_ReadUInt16]
      exact two b0 b1 rest hr
    · intro hge b0 b1 b2 b3 rest hr
      unfold ReadTableIndex_table
      rw [hbit, hrows]
      have hnlt : ¬ rows < 65536 := by omega
      simp only [Bool.not_true, Bool.false_eq_true, if_false, Option.getD_some, hnlt]
      refine ⟨_, ReadUInt32_of_four big_endian s h b0 b1 b2 b3 rest hr, ?_⟩
      intro hbe
      rw [hbe]
      rfl

/-- An instance of the width selection: table 2 is present after one smaller
present table (mask `0b101`), its row count is 65535, and the index `34 12` is read from two
bytes as `0x1234`. -/
theorem ReadTableIndex_table_width_example :
    (streamOf [0x34, 0x12, 0x00, 0x00]).WellFormed ∧
    Nat.testBit 0b101 2 = true ∧
    ([7, 65535] : List Nat)[((List.range 2).filter (fun i => Nat.testBit 0b101 i)).length]?
      = some 65535 ∧
    (∃ v, (streamOf [0x34, 0x12, 0x00, 0x00]).ReadTableIndex_table false 2 ⟨0b101, [7, 65535]⟩
        = (some v, (streamOf [0x34, 0x12, 0x00, 0x00]).advance 2) ∧ v < 65536 ∧
      (false = false → v = (0x34 : Byte).val + 256 * (0x12 : Byte).val)) :=
  ⟨by decide, by decide, by decide,
    ((ReadTableIndex_table_width false (streamOf [0x34, 0x12, 0x00, 0x00]) (by decide) 2
      ⟨0b101, [7, 65535]⟩).2 (by decide) 65535 (by decide)).1 (by decide) 0x34 0x12 [0x00, 0x00]
      (by decide)⟩

/-- The width boundary evaluated: with 65535 rows two bytes are consumed, with
65536 rows four. -/
theorem ReadTableIndex_table_boundary :
    ((streamOf [0x34, 0x12, 0x00, 0x00]).ReadTableIndex_table false 2 ⟨0b101, [7, 65535]⟩)
      = (some 0x1234, (streamOf [0x34, 0x12, 0x00, 0x00]).advance 2) ∧
    ((streamOf [0x34, 0x12, 0x00, 0x00]).ReadTableIndex_table false 2 ⟨0b101, [7, 65536]⟩)
      = (some 0x1234, (streamOf [0x34, 0x12, 0x00, 0x00]).advance 4) := by
  decide

/-- C9, the defect: the width of a table index is chosen as claimed (two bytes
for an absent table and for 65535 rows, four bytes for 65536 rows), but on a
big-endian host (`big_endian()` true) the index read is not the little-endian
value of those bytes.  The wire bytes `34 12` give `0x3412` instead of
`0x1234`, for an absent table as for a present one with 65535 rows, and with
65536 rows the wire bytes `34 12 00 00` give `0x34120000` instead of `0x1234`;
on a little-endian host all three reads give `0x1234`. -/
theorem C9_table_index_byte_swapped_on_big_endian_host :
    ((streamOf [0x34, 0x12, 0x00, 0x00]).ReadTableIndex_table true 2 ⟨0b101, [7, 65535]⟩)
      = (some 0x3412, (streamOf [0x34, 0x12, 0x00, 0x00]).advance 2) ∧
    ((streamOf [0x34, 0x12, 0x00, 0x00]).ReadTableIndex_table true 1 ⟨0b101, [7, 65535]⟩)
      = (some 0x3412, (streamOf [0x34, 0x12, 0x00, 0x00]).advance 2) ∧
    ((streamOf [0x34, 0x12, 0x00, 0x00]).ReadTableIndex_table true 2 ⟨0b101, [7, 65536]⟩)
      = (some 0x34120000, (streamOf [0x34, 0x12, 0x00, 0x00]).advance 4) ∧
    ((streamOf [0x34, 0x12, 0x00, 0x00]).ReadTableIndex_table false 2 ⟨0b101, [7, 65535]⟩).1
      = some 0x1234 ∧
    ((streamOf [0x34, 0x12, 0x00, 0x00]).ReadTableIndex_table false 1 ⟨0b101, [7, 65535]⟩).1
      = some 0x1234 ∧
    ((streamOf [0x34, 0x12, 0x00, 0x00]).ReadTableIndex_table false 2 ⟨0b101, [7, 65536]⟩).1
      = some 0x1234 := by
  decide

/-- How `ReadTableIndex` for a heap index chooses the index width, on either
host.  For every heap kind and every
heap-size mask `m`: if `(heap & m) != 0` it reads a 4-byte index and advances
by 4, otherwise it reads a 2-byte index, widened to 32 bits (so `< 65536`),
and advances by 2; on a little-endian host the index is the little-endian
value of those bytes; and it fails exactly when fewer than that many bytes
remain. -/
theorem ReadTableIndex_heap_width (big_endian : Bool) (s : CustomBinaryStream)
    (h : s.WellFormed) (heap : Heap) (m : Byte) :
    (heap.toNat &&& m.val ≠ 0 →
      (∀ (b0 b1 b2 b3 : Byte) (rest : List Byte), s.remaining = b0 :: b1 :: b2 :: b3 :: rest →
        ∃ v, s.ReadTableIndex_heap big_endian heap m = (some v, s.advance 4) ∧
          (big_endian = false →
            v = b0.val + 2 ^ 8 * b1.val + 2 ^ 16 * b2.val + 2 ^ 24 * b3.val)) ∧
      ((s.ReadTableIndex_heap big_endian heap m).1 = none ↔ s.end_ - s.iterator_ < 4)) ∧
    (heap.toNat &&& m.val = 0 →
      (∀ (b0 b1 : Byte) (rest : List Byte), s.remaining = b0 :: b1 :: rest →
        ∃ v, s.ReadTableIndex_heap big_endian heap m = (some v, s.advance 2) ∧ v < 65536 ∧
          (big_endian = false → v = b0.val + 256 * b1.val)) ∧
      ((s.ReadTableIndex_heap big_endian heap m).1 = none ↔ s.end_ - s.iterator_ < 2)) := by
  refine ⟨?_, ?_⟩
  · intro hm
    have e : s.ReadTableIndex_heap big_endian heap m = s.ReadUInt32 big_endian := by
      unfold ReadTableIndex_heap
      rw [if_pos hm]
    rw [e]
    refine ⟨?_, ReadUInt32_none_iff big_endian s h⟩
    intro b0 b1 b2 b3 rest hr
    refine ⟨_, ReadUInt32_of_four big_endian s h b0 b1 b2 b3 rest hr, ?_⟩
    intro hbe
    rw [hbe]
    rfl
  · intro hm
    have e : s.ReadTableIndex_heap big_endian heap m = s.ReadUInt16 big_endian := by
      unfold ReadTableIndex_heap
      rw [if_neg (by simp [hm]), widen_ReadUInt16]
    rw [e]
    refine ⟨?_, ReadUInt16_none_iff big_endian s h⟩
    intro b0 b1 rest hr
    refine ⟨_, ReadUInt16_of_two big_endian s h b0 b1 rest hr, ?_, ?_⟩
    · have h0 := b0.isLt
      have h1 := b1.isLt
      split <;> omega
    · intro hbe
      rw [hbe]
      rfl

/-- An instance of the width selection: the blob heap with mask `0x04` takes a
4-byte index. -/
theorem ReadTableIndex_heap_width_example :
    (streamOf [0x78, 0x56, 0x34, 0x12, 0xAA]).WellFormed ∧
    (Heap.BlobsHeap.toNat &&& (0x04 : Byte).val ≠ 0) ∧
    (∃ v, (streamOf [0x78, 0x56, 0x34, 0x12, 0xAA]).ReadTableIndex_heap false .BlobsHeap 0x04
        = (some v, (streamOf [0x78, 0x56, 0x34, 0x12, 0xAA]).advance 4) ∧
      (false = false → v = (0x78 : Byte).val + 2 ^ 8 * (0x56 : Byte).val
        + 2 ^ 16 * (0x34 : Byte).val + 2 ^ 24 * (0x12 : Byte).val)) :=
  ⟨by decide, by decide,
    ((ReadTableIndex_heap_width false (streamOf [0x78, 0x56, 0x34, 0x12, 0xAA]) (by decide)
      .BlobsHeap 0x04).1 (by decide)).1 0x78 0x56 0x34 0x12 [0xAA] (by decide)⟩

/-- C10, the defect: a heap index has the claimed width (four bytes when
`(heap & m) != 0`, two otherwise), but on a big-endian host (`big_endian()`
true) it is not the little-endian value of those bytes.  For the blob heap
with mask `0x04` the wire bytes `78 56 34 12` give `0x78563412` instead of
`0x12345678`, and with mask `0x00` the wire bytes `34 12` give `0x3412`
instead of `0x1234`; on a little-endian host the reads give `0x12345678` and
`0x1234`. -/
theorem C10_heap_index_byte_swapped_on_big_endian_host :
    ((streamOf [0x78, 0x56, 0x34, 0x12, 0xAA]).ReadTableIndex_heap true .BlobsHeap 0x04)
      = (some 0x78563412, (streamOf [0x78, 0x56, 0x34, 0x12, 0xAA]).advance 4) ∧
    ((streamOf [0x34, 0x12, 0xAA]).ReadTableIndex_heap true .BlobsHeap 0x00)
      = (some 0x3412, (streamOf [0x34, 0x12, 0xAA]).advance 2) ∧
    ((streamOf [0x78, 0x56, 0x34, 0x12, 0xAA]).ReadTableIndex_heap false .BlobsHeap 0x04).1
      = some 0x12345678 ∧
    ((streamOf [0x34, 0x12, 0xAA]).ReadTableIndex_heap false .BlobsHeap 0x00).1
      = some 0x1234 := by
  decide

/-! ## The compressed signed decoder -/

theorem toInt32_of_lt (n : Nat) (h : n < 2 ^ 31) : toInt32 n = (n : Int) := by
  unfold toInt32
  have : n % 2 ^ 32 = n := Nat.mod_eq_of_lt (by omega)
  rw [this, if_pos h]

theorem toInt32_of_ge (n : Nat) (h1 : 2 ^ 31 ≤ n) (h2 : n < 2 ^ 32) :
    toInt32 n = (n : Int) - 2 ^ 32 := by
  unfold toInt32
  have : n % 2 ^ 32 = n := Nat.mod_eq_of_lt h2
  rw [this, if_neg (by omega)]

theorem toUInt32_natCast (n : Nat) (h : n < 2 ^ 32) : toUInt32 (n : Int) = n := by
  unfold toUInt32
  omega

theorem or_mask_eq_add (i x : Nat) (hx : x < 2 ^ i) (k : Nat) : x ||| 2 ^ i * k = 2 ^ i * k + x := by
  rw [Nat.lor_comm, or_eq_add_of_lt i k x hx]

/-- The sign extension of the one-byte form. -/
theorem signExtend6 (x : Nat) (hx : x < 2 ^ 6) : toInt32 (x ||| 0xFFFFFFC0) = (x : Int) - 2 ^ 6 := by
  have e : x ||| 0xFFFFFFC0 = 0xFFFFFFC0 + x := or_mask_eq_add 6 x hx (2 ^ 26 - 1)
  rw [e, toInt32_of_ge _ (by omega) (by omega)]
  omega

/-- The sign extension of the two-byte form. -/
theorem signExtend13 (x : Nat) (hx : x < 2 ^ 13) :
    toInt32 (x ||| 0xFFFFE000) = (x : Int) - 2 ^ 13 := by
  have e : x ||| 0xFFFFE000 = 0xFFFFE000 + x := or_mask_eq_add 13 x hx (2 ^ 19 - 1)
  rw [e, toInt32_of_ge _ (by omega) (by omega)]
  omega

/-- The sign extension of the four-byte form. -/
theorem signExtend28 (x : Nat) (hx : x < 2 ^ 28) :
    toInt32 (x ||| 0xF0000000) = (x : Int) - 2 ^ 28 := by
  have e : x ||| 0xF0000000 = 0xF0000000 + x := or_mask_eq_add 28 x hx (2 ^ 4 - 1)
  rw [e, toInt32_of_ge _ (by omega) (by omega)]
  omega

/-- The result of `ReadCompressSignedInt32` in terms of the unsigned value it reads. -/
theorem ReadCompressSignedInt32_of_raw (s s' : CustomBinaryStream) (fb : Byte) (raw : Nat)
    (hp : s.Peak = some fb) (hu : s.ReadCompressedUInt32 = (some raw, s')) (hraw : raw < 2 ^ 29) :
    s.ReadCompressSignedInt32 =
      if raw % 2 = 0 then (some ((raw / 2 : Nat) : Int), s')
      else if fb.val &&& 0x80 = 0 then (some (toInt32 ((raw / 2) ||| 0xFFFFFFC0)), s')
      else if fb.val &&& 0xC0 = 0x80 then (some (toInt32 ((raw / 2) ||| 0xFFFFE000)), s')
      else if fb.val &&& 0xE0 = 0xC0 then (some (toInt32 ((raw / 2) ||| 0xF0000000)), s')
      else (none, s') := by
  have e1 : toInt32 raw = (raw : Int) := toInt32_of_lt raw (by omega)
  have e2 : toUInt32 (raw : Int) = raw := toUInt32_natCast raw (by omega)
  have e3 : raw &&& 1 = raw % 2 := Nat.and_one_is_mod raw
  have e4 : ((raw : Int) >>> (1 : Nat)) = ((raw / 2 : Nat) : Int) := by
    rw [Int.shiftRight_eq_div_pow]
    norm_num
  have e5 : toUInt32 ((raw / 2 : Nat) : Int) = raw / 2 := toUInt32_natCast _ (by omega)
  unfold ReadCompressSignedInt32
  rw [hp, hu]
  simp only [e1, e2, e3, e4, e5]
  by_cases hev : raw % 2 = 0
  · simp [hev]
  · simp [hev]

/-- Decoding the one-byte form of `x < 2^7`. -/
theorem ReadCompressedUInt32_form1 (s : CustomBinaryStream) (h : s.WellFormed) (x : Nat)
    (hx : x < 2 ^ 7) (rest : List Byte) (hr : s.remaining = byteOf x :: rest) :
    s.ReadCompressedUInt32 = (some x, s.advance 1) ∧ (byteOf x).val &&& 0x80 = 0 := by
  have hval : (byteOf x).val = x := by rw [byteOf_val]; omega
  have hb := (byte_tier1 (byteOf x)).2 (by rw [hval]; omega)
  refine ⟨?_, hb⟩
  rw [ReadCompressedUInt32_tier1 s h (byteOf x) rest hr hb, hval]

/-- Decoding the two-byte form of `x < 2^14`. -/
theorem ReadCompressedUInt32_form2 (s : CustomBinaryStream) (h : s.WellFormed) (x : Nat)
    (hx : x < 2 ^ 14) (rest : List Byte)
    (hr : s.remaining = byteOf (0x80 + x / 2 ^ 8) :: byteOf x :: rest) :
    s.ReadCompressedUInt32 = (some x, s.advance 2) ∧
    ¬ ((byteOf (0x80 + x / 2 ^ 8)).val &&& 0x80 = 0) ∧
    (byteOf (0x80 + x / 2 ^ 8)).val &&& 0xC0 = 0x80 := by
  have hval0 : (byteOf (0x80 + x / 2 ^ 8)).val = 0x80 + x / 256 := by
    rw [byteOf_val]; omega
  have ht : (byteOf (0x80 + x / 2 ^ 8)).val >>> 6 = 0b10 := by
    rw [hval0, Nat.shiftRight_eq_div_pow]; omega
  have n1 := byte_tier2_not1 _ ht
  have n2 := (byte_tier2 _).2 ht
  refine ⟨?_, n1, n2⟩
  rw [ReadCompressedUInt32_tier2 s h _ (byteOf x) rest hr n1 n2,
    bytes2_or _ _ (byteOf x).isLt, and_3FFF, hval0, byteOf_val]
  have : ((128 + x / 256) * 256 + x % 256) % 16384 = x := by omega
  rw [this]

/-- Decoding the four-byte form of `x < 2^29`. -/
theorem ReadCompressedUInt32_form4 (s : CustomBinaryStream) (h : s.WellFormed) (x : Nat)
    (hx : x < 2 ^ 29) (rest : List Byte)
    (hr : s.remaining = byteOf (0xC0 + x / 2 ^ 24) :: byteOf (x / 2 ^ 16) :: byteOf (x / 2 ^ 8)
      :: byteOf x :: rest) :
    s.ReadCompressedUInt32 = (some x, s.advance 4) ∧
    ¬ ((byteOf (0xC0 + x / 2 ^ 24)).val &&& 0x80 = 0) ∧
    ¬ ((byteOf (0xC0 + x / 2 ^ 24)).val &&& 0xC0 = 0x80) ∧
    (byteOf (0xC0 + x / 2 ^ 24)).val &&& 0xE0 = 0xC0 := by
  have hval0 : (byteOf (0xC0 + x / 2 ^ 24)).val = 0xC0 + x / 16777216 := by
    rw [byteOf_val]; omega
  have ht : (byteOf (0xC0 + x / 2 ^ 24)).val >>> 5 = 0b110 := by
    rw [hval0, Nat.shiftRight_eq_div_pow]; omega
  obtain ⟨n1, n2⟩ := byte_tier3_not12 _ ht
  have n3 := (byte_tier3 _).2 ht
  refine ⟨?_, n1, n2, n3⟩
  rw [ReadCompressedUInt32_tier4 s h _ (byteOf (x / 2 ^ 16)) (byteOf (x / 2 ^ 8)) (byteOf x) rest
    hr n1 n2 n3, bytes4_or _ _ _ _ (byteOf _).isLt (byteOf _).isLt (byteOf _).isLt, and_1FFFFFFF,
    hval0, byteOf_val, byteOf_val, byteOf_val]
  have : ((192 + x / 16777216) * 16777216 + x / 2 ^ 16 % 256 * 65536 + x / 2 ^ 8 % 256 * 256
      + x % 256) % 536870912 = x := by omega
  rw [this]

/-- C3: round trip of the compressed signed encoding.  For every integer `v`
in `[-2^28, 2^28 - 1]`, reading with `ReadCompressSignedInt32` a stream whose
remaining bytes are the signed encoding of `v` (two's complement on 7, 14 or
29 bits, rotated left by one bit, emitted in the 1-, 2- or 4-byte form)
followed by any bytes returns `v` and consumes exactly the encoded bytes. -/
theorem C3_compressed_signed_round_trip (v : Int) (hlo : -2 ^ 28 ≤ v) (hhi : v ≤ 2 ^ 28 - 1)
    (s : CustomBinaryStream) (h : s.WellFormed) (rest : List Byte)
    (hr : s.remaining = encodeCompressedSignedInt32 v ++ rest) :
    s.ReadCompressSignedInt32 = (some v, s.advance (encodeCompressedSignedInt32 v).length) := by
  unfold encodeCompressedSignedInt32 at hr ⊢
  by_cases h1 : -2 ^ 6 ≤ v ∧ v < 2 ^ 6
  · rw [if_pos h1] at hr ⊢
    obtain ⟨h1a, h1b⟩ := h1
    have hf : (((v % 2 ^ 7).toNat : Nat) : Int) = v % 128 :=
      Int.toNat_of_nonneg (Int.emod_nonneg v (by norm_num))
    generalize (v % 2 ^ 7).toNat = f at hr hf ⊢
    have hrot : rotateLeft1 7 f = (2 * f) % 128 + f / 64 := rfl
    generalize rotateLeft1 7 f = rot at hr hrot ⊢
    by_cases hv0 : 0 ≤ v
    · have hfv : (f : Int) = v := by omega
      have hrv : rot = 2 * f := by omega
      obtain ⟨hu, -⟩ := ReadCompressedUInt32_form1 s h rot (by omega) rest hr
      rw [ReadCompressSignedInt32_of_raw s _ _ rot (Peak_cons s h _ _ hr) hu (by omega),
        if_pos (by omega)]
      have : ((rot / 2 : Nat) : Int) = v := by omega
      rw [this]
      rfl
    · have hfv : (f : Int) = v + 128 := by omega
      have hrv : rot = 2 * f - 127 := by omega
      obtain ⟨hu, t1⟩ := ReadCompressedUInt32_form1 s h rot (by omega) rest hr
      rw [ReadCompressSignedInt32_of_raw s _ _ rot (Peak_cons s h _ _ hr) hu (by omega),
        if_neg (by omega), if_pos t1, signExtend6 _ (by omega)]
      have : ((rot / 2 : Nat) : Int) - 2 ^ 6 = v := by omega
      rw [this]
      rfl
  · rw [if_neg h1] at hr ⊢
    by_cases h2 : -2 ^ 13 ≤ v ∧ v < 2 ^ 13
    · rw [if_pos h2] at hr ⊢
      obtain ⟨h2a, h2b⟩ := h2
      have hf : (((v % 2 ^ 14).toNat : Nat) : Int) = v % 16384 :=
        Int.toNat_of_nonneg (Int.emod_nonneg v (by norm_num))
      generalize (v % 2 ^ 14).toNat = f at hr hf ⊢
      have hrot : rotateLeft1 14 f = (2 * f) % 16384 + f / 8192 := rfl
      generalize rotateLeft1 14 f = rot at hr hrot ⊢
      by_cases hv0 : 0 ≤ v
      · have hfv : (f : Int) = v := by omega
        have hrv : rot = 2 * f := by omega
        obtain ⟨hu, -, -⟩ := ReadCompressedUInt32_form2 s h rot (by omega) rest hr
        rw [ReadCompressSignedInt32_of_raw s _ _ rot (Peak_cons s h _ _ hr) hu (by omega),
          if_pos (by omega)]
        have : ((rot / 2 : Nat) : Int) = v := by omega
        rw [this]
        rfl
      · have hfv : (f : Int) = v + 16384 := by omega
        have hrv : rot = 2 * f - 16383 := by omega
        obtain ⟨hu, t1, t2⟩ := ReadCompressedUInt32_form2 s h rot (by omega) rest hr
        rw [ReadCompressSignedInt32_of_raw s _ _ rot (Peak_cons s h _ _ hr) hu (by omega),
          if_neg (by omega), if_neg t1, if_pos t2, signExtend13 _ (by omega)]
        have : ((rot / 2 : Nat) : Int) - 2 ^ 13 = v := by omega
        rw [this]
        rfl
    · rw [if_neg h2] at hr ⊢
      have hf : (((v % 2 ^ 29).toNat : Nat) : Int) = v % 536870912 :=
        Int.toNat_of_nonneg (Int.emod_nonneg v (by norm_num))
      generalize (v % 2 ^ 29).toNat = f at hr hf ⊢
      have hrot : rotateLeft1 29 f = (2 * f) % 536870912 + f / 268435456 := rfl
      generalize rotateLeft1 29 f = rot at hr hrot ⊢
      by_cases hv0 : 0 ≤ v
      · have hfv : (f : Int) = v := by omega
        have hrv : rot = 2 * f := by omega
        obtain ⟨hu, -, -, -⟩ := ReadCompressedUInt32_form4 s h rot (by omega) rest hr
        rw [ReadCompressSignedInt32_of_raw s _ _ rot (Peak_cons s h _ _ hr) hu (by omega),
          if_pos (by omega)]
        have : ((rot / 2 : Nat) : Int) = v := by omega
        rw [this]
        rfl
      · have hfv : (f : Int) = v + 536870912 := by omega
        have hrv : rot = 2 * f - 536870911 := by omega
        obtain ⟨hu, t1, t2, t3⟩ := ReadCompressedUInt32_form4 s h rot (by omega) rest hr
        rw [ReadCompressSignedInt32_of_raw s _ _ rot (Peak_cons s h _ _ hr) hu (by omega),
          if_neg (by omega), if_neg t1, if_neg t2, if_pos t3, signExtend28 _ (by omega)]
        have : ((rot / 2 : Nat) : Int) - 2 ^ 28 = v := by omega
        rw [this]
        rfl

/-- Witness for C3: the most negative two-byte value `-8192` is encoded as
`80 01` and read back. -/
theorem C3_compressed_signed_round_trip_witness :
    ((-2 ^ 28 : Int) ≤ -8192 ∧ (-8192 : Int) ≤ 2 ^ 28 - 1) ∧
    (streamOf [0x80, 0x01, 0x33]).WellFormed ∧
    (streamOf [0x80, 0x01, 0x33]).remaining = encodeCompressedSignedInt32 (-8192) ++ [0x33] ∧
    (streamOf [0x80, 0x01, 0x33]).ReadCompressSignedInt32
      = (some (-8192), (streamOf [0x80, 0x01, 0x33]).advance
          (encodeCompressedSignedInt32 (-8192)).length) :=
  ⟨⟨by decide, by decide⟩, by decide, by decide,
    C3_compressed_signed_round_trip (-8192) (by decide) (by decide) (streamOf [0x80, 0x01, 0x33])
      (by decide) [0x33] (by decide)⟩

/-- The most negative value of each tier is read back: `-64` from `01`,
`-8192` from `80 01`, `-2^28` from `C0 00 00 01`. -/
theorem ReadCompressSignedInt32_most_negative :
    encodeCompressedSignedInt32 (-64) = [0x01] ∧
    ((streamOf [0x01]).ReadCompressSignedInt32).1 = some (-64) ∧
    encodeCompressedSignedInt32 (-8192) = [0x80, 0x01] ∧
    ((streamOf [0x80, 0x01]).ReadCompressSignedInt32).1 = some (-8192) ∧
    encodeCompressedSignedInt32 (-268435456) = [0xC0, 0x00, 0x00, 0x01] ∧
    ((streamOf [0xC0, 0x00, 0x00, 0x01]).ReadCompressSignedInt32).1 = some (-268435456) := by
  decide

/-! ## The signed decoder against the unsigned one -/

/-- What `ReadByte` does, for any stream. -/
theorem ReadByte_eq (s : CustomBinaryStream) :
    s.ReadByte = if s.iterator_ = s.end_ then (none, s)
      else (some (s.deref s.iterator_), s.advance 1) := by
  unfold ReadByte
  by_cases heq : s.iterator_ = s.end_
  · rw [if_pos heq]
    have : s.ReadBytes 1 = (false, [], s) := by
      unfold ReadBytes
      rw [if_pos heq]
    rw [this]
  · rw [if_neg heq]
    have : s.ReadBytes 1 = (true, [s.deref s.iterator_], s.advance 1) := by
      unfold ReadBytes
      rw [if_neg heq]
      unfold ReadBytes
      rfl
    rw [this]

/-- When `ReadCompressedUInt32` succeeds, the stream had a next byte and that
byte belongs to one of the three tiers. -/
theorem ReadCompressedUInt32_some_tier (s s' : CustomBinaryStream) (raw : Nat)
    (h : s.ReadCompressedUInt32 = (some raw, s')) :
    s.iterator_ ≠ s.end_ ∧
    ((s.deref s.iterator_).val &&& 0x80 = 0 ∨ (s.deref s.iterator_).val &&& 0xC0 = 0x80 ∨
      (s.deref s.iterator_).val &&& 0xE0 = 0xC0) := by
  unfold ReadCompressedUInt32 at h
  rw [ReadByte_eq] at h
  by_cases heq : s.iterator_ = s.end_
  · rw [if_pos heq] at h
    exact absurd h (by simp)
  · refine ⟨heq, ?_⟩
    rw [if_neg heq] at h
    by_cases t1 : (s.deref s.iterator_).val &&& 0x80 = 0
    · exact Or.inl t1
    · by_cases t2 : (s.deref s.iterator_).val &&& 0xC0 = 0x80
      · exact Or.inr (Or.inl t2)
      · by_cases t3 : (s.deref s.iterator_).val &&& 0xE0 = 0xC0
        · exact Or.inr (Or.inr t3)
        · exfalso
          simp only [t1, t2, t3, if_false] at h
          split at h
          · exact absurd h (by simp)
          · split at h
            · exact absurd h (by simp)
            · split at h
              · exact absurd h (by simp)
              · exact absurd h (by simp)

/-- C27: `ReadCompressSignedInt32` succeeds on exactly the streams on which
`ReadCompressedUInt32` succeeds and leaves the stream, hence the cursor, as
`ReadCompressedUInt32` does, in the success and in the failure case.  The
final `return false` of its width check is unreachable: whenever
`ReadCompressedUInt32` has succeeded, the peeked first byte matches one of the
three tiers. -/
theorem C27_signed_succeeds_as_unsigned (s : CustomBinaryStream) :
    (s.ReadCompressSignedInt32).2 = (s.ReadCompressedUInt32).2 ∧
    ((s.ReadCompressSignedInt32).1.isSome = (s.ReadCompressedUInt32).1.isSome) ∧
    (∀ (raw : Nat) (s' : CustomBinaryStream) (first_byte : Byte),
      s.ReadCompressedUInt32 = (some raw, s') → s.Peak = some first_byte →
      first_byte.val &&& 0x80 = 0 ∨ first_byte.val &&& 0xC0 = 0x80 ∨
        first_byte.val &&& 0xE0 = 0xC0) := by
  have hreach : ∀ (raw : Nat) (s' : CustomBinaryStream) (first_byte : Byte),
      s.ReadCompressedUInt32 = (some raw, s') → s.Peak = some first_byte →
      first_byte.val &&& 0x80 = 0 ∨ first_byte.val &&& 0xC0 = 0x80 ∨
        first_byte.val &&& 0xE0 = 0xC0 := by
    intro raw s' fb hu hp
    obtain ⟨hne, ht⟩ := ReadCompressedUInt32_some_tier s s' raw hu
    unfold Peak at hp
    rw [if_neg hne] at hp
    rw [← Option.some.inj hp]
    exact ht
  by_cases heq : s.iterator_ = s.end_
  · have hp : s.Peak = none := by unfold Peak; rw [if_pos heq]
    have hu : s.ReadCompressedUInt32 = (none, s) := by
      unfold ReadCompressedUInt32
      rw [ReadByte_eq, if_pos heq]
    have hs : s.ReadCompressSignedInt32 = (none, s) := by
      unfold ReadCompressSignedInt32
      rw [hp]
    refine ⟨?_, ?_, hreach⟩
    · rw [hs, hu]
    · rw [hs, hu]
      rfl
  · have hp : s.Peak = some (s.deref s.iterator_) := by unfold Peak; rw [if_neg heq]
    refine ⟨?_, ?_, hreach⟩
    · unfold ReadCompressSignedInt32
      rw [hp]
      cases hu : s.ReadCompressedUInt32 with
      | mk o s' =>
        cases o with
        | none => rfl
        | some raw =>
          simp only
          split_ifs <;> rfl
    · unfold ReadCompressSignedInt32
      rw [hp]
      cases hu : s.ReadCompressedUInt32 with
      | mk o s' =>
        cases o with
        | none => rfl
        | some raw =>
          have ht := hreach raw s' _ hu hp
          simp only
          split_ifs <;> first | rfl | (rcases ht with t | t | t <;> contradiction)

/-! ## The encoding of the comment in `ReadCompressSignedInt32` -/

/-- C26 (as amended): `ReadCompressSignedInt32` reverses the encoding described in
its comment for every non-negative `v < 2^28`: reading the compressed unsigned
encoding of `|v| << 1`, followed by any bytes, returns `v` and consumes the
encoded bytes. -/
theorem C26_comment_encoding_round_trip_nonneg (v : Int) (hlo : 0 ≤ v) (hhi : v < 2 ^ 28)
    (s : CustomBinaryStream) (h : s.WellFormed) (rest : List Byte)
    (hr : s.remaining = encodeSignedAsCommented v ++ rest) :
    s.ReadCompressSignedInt32 = (some v, s.advance (encodeSignedAsCommented v).length) := by
  have hnat : ((v.natAbs : Nat) : Int) = v := Int.natAbs_of_nonneg hlo
  have hu : 2 * v.natAbs + (if v < 0 then 1 else 0) = 2 * v.natAbs := by
    rw [if_neg (by omega)]; rfl
  unfold encodeSignedAsCommented at hr ⊢
  rw [hu] at hr ⊢
  generalize v.natAbs = n at hr hnat ⊢
  have hn : n < 2 ^ 28 := by omega
  have hhalf : (((2 * n) / 2 : Nat) : Int) = v := by
    rw [Nat.mul_div_cancel_left n (by decide)]; exact hnat
  unfold encodeCompressedUInt32 at hr ⊢
  by_cases h1 : 2 * n ≤ 0x7F
  · rw [if_pos h1] at hr ⊢
    obtain ⟨e, -⟩ := ReadCompressedUInt32_form1 s h (2 * n) (by omega) rest hr
    rw [ReadCompressSignedInt32_of_raw s _ _ (2 * n) (Peak_cons s h _ _ hr) e (by omega),
      if_pos (by omega), hhalf]
    rfl
  · rw [if_neg h1] at hr ⊢
    by_cases h2 : 2 * n ≤ 0x3FFF
    · rw [if_pos h2] at hr ⊢
      obtain ⟨e, -⟩ := ReadCompressedUInt32_form2 s h (2 * n) (by omega) rest hr
      rw [ReadCompressSignedInt32_of_raw s _ _ (2 * n) (Peak_cons s h _ _ hr) e (by omega),
        if_pos (by omega), hhalf]
      rfl
    · rw [if_neg h2] at hr ⊢
      obtain ⟨e, -⟩ := ReadCompressedUInt32_form4 s h (2 * n) (by omega) rest hr
      rw [ReadCompressSignedInt32_of_raw s _ _ (2 * n) (Peak_cons s h _ _ hr) e (by omega),
        if_pos (by omega), hhalf]
      rfl

/-- Witness for C26 (as amended): `100` is written as `|100| << 1 = 200`, that is
`80 C8`, and read back. -/
theorem C26_comment_encoding_round_trip_nonneg_witness :
    ((0 : Int) ≤ 100 ∧ (100 : Int) < 2 ^ 28) ∧
    (streamOf [0x80, 0xC8, 0x11]).WellFormed ∧
    (streamOf [0x80, 0xC8, 0x11]).remaining = encodeSignedAsCommented 100 ++ [0x11] ∧
    (streamOf [0x80, 0xC8, 0x11]).ReadCompressSignedInt32
      = (some 100, (streamOf [0x80, 0xC8, 0x11]).advance (encodeSignedAsCommented 100).length) :=
  ⟨⟨by decide, by decide⟩, by decide, by decide,
    C26_comment_encoding_round_trip_nonneg 100 (by decide) (by decide)
      (streamOf [0x80, 0xC8, 0x11]) (by decide) [0x11] (by decide)⟩

/-- Counterexample to C26 as stated: the comment's encoding of `-1` is the
single byte `03` (`|-1| << 1` with the sign bit set), and
`ReadCompressSignedInt32` reads it as `-63`; the byte it reads as `-1` is
`7F`, the encoding of C3. -/
theorem C26_counterexample :
    encodeSignedAsCommented (-1) = [0x03] ∧
    (streamOf [0x03]).ReadCompressSignedInt32 = (some (-63), (streamOf [0x03]).advance 1) ∧
    encodeCompressedSignedInt32 (-1) = [0x7F] ∧
    (streamOf [0x7F]).ReadCompressSignedInt32 = (some (-1), (streamOf [0x7F]).advance 1) := by
  decide

/-! ## The row-count lookup -/

theorem filter_range_length_le (f : Nat → Bool) (a b : Nat) (h : a ≤ b) :
    ((List.range a).filter f).length ≤ ((List.range b).filter f).length := by
  obtain ⟨k, rfl⟩ := Nat.exists_eq_add_of_le h
  induction k with
  | zero => exact Nat.le_refl _
  | succ k ih =>
    have := ih (Nat.le_add_right a k)
    rw [← Nat.add_assoc, List.range_succ, List.filter_append, List.length_append]
    omega

/-- C25: the row-count lookup of `ReadTableIndex` is in bounds.  For every
table-presence header whose 64-bit valid mask has as many set bits as there
are row-count entries, and every table kind whose bit is set, the compacted
position, the number of present tables of smaller kind, is strictly less
than the length of the row-count list, so `num_rows_[position]` exists. -/
theorem C25_row_count_lookup_in_bounds (hdr : CompressedMetadataTableHeader)
    (table : Nat) (hmask : hdr.valid_mask_ < 2 ^ 64)
    (hrows : hdr.num_rows_.length = validCount hdr.valid_mask_)
    (hbit : hdr.valid_mask_.testBit table = true) :
    present_table_index hdr table
      = ((List.range table).filter (fun i => hdr.valid_mask_.testBit i)).length ∧
    present_table_index hdr table < hdr.num_rows_.length ∧
    ∃ rows, hdr.num_rows_[present_table_index hdr table]? = some rows := by
  have htable : table < 64 := by
    by_contra hge
    have hlt : hdr.valid_mask_ < 2 ^ table :=
      Nat.lt_of_lt_of_le hmask (Nat.pow_le_pow_right (by decide) (by omega))
    rw [Nat.testBit_lt_two_pow hlt] at hbit
    exact absurd hbit (by simp)
  have hlt : present_table_index hdr table < hdr.num_rows_.length := by
    rw [present_table_index_eq, hrows]
    unfold validCount
    have h1 := filter_range_length_le (fun i => hdr.valid_mask_.testBit i) (table + 1) 64 (by omega)
    rw [List.range_succ, List.filter_append, List.length_append] at h1
    have h2 : ([table].filter (fun i => hdr.valid_mask_.testBit i)).length = 1 := by
      simp [List.filter_cons, hbit]
    omega
  refine ⟨present_table_index_eq hdr table, hlt, ?_⟩
  exact ⟨hdr.num_rows_[present_table_index hdr table], List.getElem?_eq_getElem hlt⟩

/-- Witness for C25: mask `0b101` with two row counts; table 2 is at position 1. -/
theorem C25_row_count_lookup_in_bounds_witness :
    (0b101 : Nat) < 2 ^ 64 ∧
    ([7, 65535] : List Nat).length = validCount 0b101 ∧
    Nat.testBit 0b101 2 = true ∧
    present_table_index ⟨0b101, [7, 65535]⟩ 2 < ([7, 65535] : List Nat).length :=
  ⟨by decide, by decide, by decide,
    (C25_row_count_lookup_in_bounds ⟨0b101, [7, 65535]⟩ 2 (by decide) (by decide)
      (by decide)).2.1⟩

/-! ## The cursor invariant -/

theorem Keeps.refl (s : CustomBinaryStream) (h : s.CursorInvariant) : Keeps s s :=
  ⟨h, Nat.le_refl _, rfl, rfl, rfl⟩

theorem Keeps.trans {s s1 s2 : CustomBinaryStream} (h1 : Keeps s s1) (h2 : Keeps s1 s2) :
    Keeps s s2 :=
  ⟨h2.1, Nat.le_trans h2.2.1 h1.2.1, h2.2.2.1.trans h1.2.2.1, h2.2.2.2.1.trans h1.2.2.2.1,
    h2.2.2.2.2.trans h1.2.2.2.2⟩

theorem Keeps_advance (s : CustomBinaryStream) (h : s.CursorInvariant) (k : Nat)
    (hk : k ≤ s.end_ - s.iterator_) : Keeps s (s.advance k) :=
  ⟨⟨advance_wellFormed s k h.1 hk, h.2⟩, Nat.le_refl _, rfl, rfl, rfl⟩

theorem ReadBytes_keeps (s : CustomBinaryStream) (h : s.CursorInvariant) (n : Nat) :
    Keeps s (s.ReadBytes n).2.2 := by
  by_cases hn : n ≤ s.end_ - s.iterator_
  · rw [ReadBytes_of_le n s h.1 hn]
    exact Keeps_advance s h n hn
  · rw [ReadBytes_of_lt n s h.1 (by omega)]
    exact Keeps_advance s h _ (Nat.le_refl _)

theorem ReadByte_snd (s : CustomBinaryStream) : s.ReadByte.2 = (s.ReadBytes 1).2.2 := by
  rw [ReadByte_eq]
  by_cases heq : s.iterator_ = s.end_
  · rw [if_pos heq]
    unfold ReadBytes
    rw [if_pos heq]
  · rw [if_neg heq]
    unfold ReadBytes
    rw [if_neg heq]
    unfold ReadBytes
    rfl

theorem ReadByte_keeps (s : CustomBinaryStream) (h : s.CursorInvariant) : Keeps s s.ReadByte.2 := by
  rw [ReadByte_snd]
  exact ReadBytes_keeps s h 1

theorem ReadUInt16_snd (big_endian : Bool) (s : CustomBinaryStream) :
    (s.ReadUInt16 big_endian).2 = (s.ReadBytes 2).2.2 := by
  unfold ReadUInt16
  split
  · rename_i heq
    rw [heq]
    cases big_endian <;> rfl
  · rename_i hno heq
    rw [heq]

theorem ReadUInt32_snd (big_endian : Bool) (s : CustomBinaryStream) :
    (s.ReadUInt32 big_endian).2 = (s.ReadBytes 4).2.2 := by
  unfold ReadUInt32
  split
  · rename_i heq
    rw [heq]
    cases big_endian <;> rfl
  · rename_i hno heq
    rw [heq]

/-- The stream `ReadCompressedUInt32` leaves is the one after one, two, three
or four calls of `ReadByte`. -/
theorem ReadCompressedUInt32_snd (s : CustomBinaryStream) :
    s.ReadCompressedUInt32.2 = s.ReadByte.2 ∨
    s.ReadCompressedUInt32.2 = s.ReadByte.2.ReadByte.2 ∨
    s.ReadCompressedUInt32.2 = s.ReadByte.2.ReadByte.2.ReadByte.2 ∨
    s.ReadCompressedUInt32.2 = s.ReadByte.2.ReadByte.2.ReadByte.2.ReadByte.2 := by
  unfold ReadCompressedUInt32
  cases h1 : s.ReadByte with
  | mk o1 s1 =>
    cases o1 with
    | none => exact Or.inl rfl
    | some b0 =>
      simp only
      split
      · exact Or.inl rfl
      · cases h2 : s1.ReadByte with
        | mk o2 s2 =>
          cases o2 with
          | none => exact Or.inr (Or.inl rfl)
          | some b1 =>
            simp only
            split
            · exact Or.inr (Or.inl rfl)
            · cases h3 : s2.ReadByte with
              | mk o3 s3 =>
                cases o3 with
                | none => exact Or.inr (Or.inr (Or.inl rfl))
                | some b2 =>
                  simp only
                  cases h4 : s3.ReadByte with
                  | mk o4 s4 =>
                    cases o4 with
                    | none => exact Or.inr (Or.inr (Or.inr rfl))
                    | some b3 =>
                      simp only
                      split <;> exact Or.inr (Or.inr (Or.inr rfl))

theorem ReadCompressedUInt32_keeps (s : CustomBinaryStream) (h : s.CursorInvariant) :
    Keeps s s.ReadCompressedUInt32.2 := by
  have k1 := ReadByte_keeps s h
  have k2 := k1.trans (ReadByte_keeps _ k1.1)
  have k3 := k2.trans (ReadByte_keeps _ k2.1)
  have k4 := k3.trans (ReadByte_keeps _ k3.1)
  rcases ReadCompressedUInt32_snd s with e | e | e | e <;> rw [e] <;> assumption

/-- The stream `ReadCompressSignedInt32` leaves is the one
`ReadCompressedUInt32` leaves. -/
theorem ReadCompressSignedInt32_snd (s : CustomBinaryStream) :
    s.ReadCompressSignedInt32.2 = s.ReadCompressedUInt32.2 := by
  unfold ReadCompressSignedInt32
  cases hp : s.Peak with
  | none =>
    have heq : s.iterator_ = s.end_ := by
      unfold Peak at hp
      by_contra hne
      rw [if_neg hne] at hp
      exact absurd hp (by simp)
    unfold ReadCompressedUInt32
    rw [ReadByte_eq, if_pos heq]
  | some fb =>
    cases hu : s.ReadCompressedUInt32 with
    | mk o s' =>
      cases o with
      | none => rfl
      | some raw =>
        simp only
        split_ifs <;> rfl

theorem ReadTableIndex_heap_snd (big_endian : Bool) (s : CustomBinaryStream) (heap : Heap)
    (heap_size : Byte) :
    (s.ReadTableIndex_heap big_endian heap heap_size).2 = (s.ReadUInt32 big_endian).2 ∨
    (s.ReadTableIndex_heap big_endian heap heap_size).2 = (s.ReadUInt16 big_endian).2 := by
  unfold ReadTableIndex_heap
  split
  · exact Or.inl rfl
  · rw [widen_ReadUInt16]; exact Or.inr rfl

theorem ReadTableIndex_table_snd (big_endian : Bool) (s : CustomBinaryStream)
    (table : MetadataTable) (hdr : CompressedMetadataTableHeader) :
    (s.ReadTableIndex_table big_endian table hdr).2 = (s.ReadUInt32 big_endian).2 ∨
    (s.ReadTableIndex_table big_endian table hdr).2 = (s.ReadUInt16 big_endian).2 := by
  unfold ReadTableIndex_table
  split
  · rw [widen_ReadUInt16]; exact Or.inr rfl
  · simp only
    split
    · rw [widen_ReadUInt16]; exact Or.inr rfl
    · exact Or.inl rfl

theorem SeekFromCurrent_keeps (s : CustomBinaryStream) (h : s.CursorInvariant) (index : Nat) :
    Keeps s (s.SeekFromCurrent index).2 := by
  unfold SeekFromCurrent
  by_cases hgt : s.iterator_ + index > s.end_
  · rw [if_pos hgt]; exact Keeps.refl s h
  · rw [if_neg hgt]
    exact Keeps_advance s h index (by omega)

theorem SetStreamLength_keeps (s : CustomBinaryStream) (h : s.CursorInvariant) (length : Nat) :
    Keeps s (s.SetStreamLength length).2 := by
  unfold SetStreamLength
  by_cases hgt : s.iterator_ + length > s.end_
  · rw [if_pos hgt]; exact Keeps.refl s h
  · rw [if_neg hgt]
    obtain ⟨⟨h1, h2, h3⟩, h4⟩ := h
    refine ⟨⟨⟨h1, ?_, ?_⟩, h4⟩, ?_, rfl, rfl, rfl⟩
    · show s.iterator_ ≤ s.iterator_ + length
      omega
    · show s.iterator_ + length ≤ s.backing.length
      omega
    · show s.iterator_ + length ≤ s.end_
      omega

/-- On a file-backed stream `SeekFromOrigin` is defined and keeps the invariant. -/
theorem SeekFromOrigin_keeps (s : CustomBinaryStream) (h : s.CursorInvariant)
    (hb : s.borrowed = none) (position : Nat) :
    ∃ r, s.SeekFromOrigin position = some r ∧ Keeps s r.2 := by
  unfold SeekFromOrigin
  rw [hb]
  by_cases hgt : 0 + position > s.end_
  · refine ⟨(false, s), by simp only [hgt, if_true], Keeps.refl s h⟩
  · refine ⟨(true, { s with iterator_ := 0 + position }), by simp only [hgt, if_false, hb], ?_⟩
    obtain ⟨⟨h1, h2, h3⟩, h4⟩ := h
    refine ⟨⟨⟨?_, ?_, h3⟩, h4⟩, Nat.le_refl _, rfl, rfl, rfl⟩
    · show s.begin_ ≤ 0 + position
      rw [h4 hb]; omega
    · show 0 + position ≤ s.end_
      omega

/-- On a stream made by `ConsumeVector`, `SeekFromOrigin` has no defined result. -/
theorem SeekFromOrigin_borrowed (s : CustomBinaryStream) (v : List Byte) (hb : s.borrowed = some v)
    (position : Nat) : s.SeekFromOrigin position = none := by
  unfold SeekFromOrigin
  rw [hb]

/-- Every cursor operation other than `SeekFromOrigin` on a stream made by
`ConsumeVector` is defined and keeps the invariant. -/
theorem CursorOp.apply_keeps (big_endian : Bool) (op : CursorOp) (s : CustomBinaryStream)
    (h : s.CursorInvariant)
    (hop : s.borrowed = none ∨ ∀ position, op ≠ CursorOp.SeekFromOrigin position) :
    ∃ s', op.apply big_endian s = some s' ∧ Keeps s s' := by
  cases op with
  | ReadByte => exact ⟨_, rfl, ReadByte_keeps s h⟩
  | ReadBytes n => exact ⟨_, rfl, ReadBytes_keeps s h n⟩
  | Peak => exact ⟨_, rfl, Keeps.refl s h⟩
  | HasNext => exact ⟨_, rfl, Keeps.refl s h⟩
  | SeekFromCurrent index => exact ⟨_, rfl, SeekFromCurrent_keeps s h index⟩
  | SeekFromOrigin position =>
    rcases hop with hb | hne
    · obtain ⟨r, hr, hk⟩ := SeekFromOrigin_keeps s h hb position
      refine ⟨r.2, ?_, hk⟩
      show Option.map (fun r => r.2) (s.SeekFromOrigin position) = some r.2
      rw [hr]
      rfl
    · exact absurd rfl (hne position)
  | SetStreamLength length => exact ⟨_, rfl, SetStreamLength_keeps s h length⟩
  | ReadUInt16 =>
    refine ⟨_, rfl, ?_⟩
    rw [ReadUInt16_snd]; exact ReadBytes_keeps s h 2
  | ReadUInt32 =>
    refine ⟨_, rfl, ?_⟩
    rw [ReadUInt32_snd]; exact ReadBytes_keeps s h 4
  | ReadCompressedUInt32 => exact ⟨_, rfl, ReadCompressedUInt32_keeps s h⟩
  | ReadCompressSignedInt32 =>
    refine ⟨_, rfl, ?_⟩
    rw [ReadCompressSignedInt32_snd]; exact ReadCompressedUInt32_keeps s h
  | ReadTableIndex_heap heap heap_size =>
    refine ⟨_, rfl, ?_⟩
    rcases ReadTableIndex_heap_snd big_endian s heap heap_size with e | e
    · rw [e, ReadUInt32_snd]; exact ReadBytes_keeps s h 4
    · rw [e, ReadUInt16_snd]; exact ReadBytes_keeps s h 2
  | ReadTableIndex_table table hdr =>
    refine ⟨_, rfl, ?_⟩
    rcases ReadTableIndex_table_snd big_endian s table hdr with e | e
    · rw [e, ReadUInt32_snd]; exact ReadBytes_keeps s h 4
    · rw [e, ReadUInt16_snd]; exact ReadBytes_keeps s h 2

/-- The cursor invariant over sequences of operations: on a file-backed stream
every sequence, and on any stream every sequence without `SeekFromOrigin`, is
defined, keeps `begin ≤ current ≤ limit ≤ size` and does not raise the limit. -/
theorem runOps_keeps (big_endian : Bool) (ops : List CursorOp) : ∀ (s : CustomBinaryStream),
    s.CursorInvariant →
    (s.borrowed = none ∨ ∀ op ∈ ops, ∀ position, op ≠ CursorOp.SeekFromOrigin position) →
    ∃ s', runOps big_endian ops s = some s' ∧ Keeps s s' := by
  induction ops with
  | nil => intro s h _; exact ⟨s, rfl, Keeps.refl s h⟩
  | cons op rest ih =>
    intro s h hops
    have hop : s.borrowed = none ∨ ∀ position, op ≠ CursorOp.SeekFromOrigin position := by
      rcases hops with hb | hall
      · exact Or.inl hb
      · exact Or.inr (hall op (List.mem_cons_self _ _))
    obtain ⟨s1, e1, k1⟩ := CursorOp.apply_keeps big_endian op s h hop
    have hrest : s1.borrowed = none ∨
        ∀ op ∈ rest, ∀ position, op ≠ CursorOp.SeekFromOrigin position := by
      rcases hops with hb | hall
      · exact Or.inl (k1.2.2.2.1.trans hb)
      · exact Or.inr (fun o ho => hall o (List.mem_cons_of_mem _ ho))
    obtain ⟨s2, e2, k2⟩ := ih s1 k1.1 hrest
    refine ⟨s2, ?_, k1.trans k2⟩
    unfold runOps
    rw [e1]
    exact e2

/-- C23, the defect: on a stream made by `ConsumeVector`, which satisfies the
cursor invariant, a sequence of operations that contains `SeekFromOrigin` has
no defined outcome, because `SeekFromOrigin` positions the cursor from
`file_content_.begin()`, an iterator of another vector; the same sequence on
a file-backed stream of the same bytes, and a sequence without
`SeekFromOrigin` on the vector stream, keep the invariant. -/
theorem C23_SeekFromOrigin_leaves_vector_stream_undefined :
    (streamOf [0x0A, 0x0B, 0x0C]).CursorInvariant ∧
    runOps false [CursorOp.ReadByte, CursorOp.SeekFromOrigin 0, CursorOp.ReadByte]
      (streamOf [0x0A, 0x0B, 0x0C]) = none ∧
    runOps false [CursorOp.ReadByte, CursorOp.SeekFromOrigin 0, CursorOp.ReadByte]
      (ConsumeFile ⟨[], none, 0, 0, 0⟩ (some [0x0A, 0x0B, 0x0C])).2
        = some ⟨[0x0A, 0x0B, 0x0C], none, 1, 3, 0⟩ ∧
    runOps false [CursorOp.ReadByte, CursorOp.SeekFromCurrent 1, CursorOp.SetStreamLength 1,
        CursorOp.ReadUInt16, CursorOp.ReadCompressSignedInt32]
      (streamOf [0x0A, 0x0B, 0x0C]) = some ⟨[], some [0x0A, 0x0B, 0x0C], 3, 3, 0⟩ := by
  decide

/-- The stream `ConsumeFile` makes on a fresh object. -/
theorem ConsumeFile_fresh (v : List Byte) :
    (ConsumeFile ⟨[], none, 0, 0, 0⟩ (some v)).2 = ⟨v, none, 0, v.length, 0⟩ := by
  unfold ConsumeFile
  simp

/-- On a stream made by `ConsumeFile`, `SeekFromOrigin(p)` with `p < |v|`
succeeds and a following `ReadByte` returns `v[p]`. -/
theorem SeekFromOrigin_file_backed (v : List Byte) (p : Nat) (hp : p < v.length) :
    (ConsumeFile ⟨[], none, 0, 0, 0⟩ (some v)).2.SeekFromOrigin p
      = some (true, ⟨v, none, p, v.length, 0⟩) ∧
    (CustomBinaryStream.mk v none p v.length 0).ReadByte
      = (some (v.get ⟨p, hp⟩), ⟨v, none, p + 1, v.length, 0⟩) := by
  constructor
  · rw [ConsumeFile_fresh]
    unfold SeekFromOrigin
    have : ¬ (p > v.length) := by omega
    simp only [Nat.zero_add, this, if_false]
  · rw [ReadByte_eq]
    have hne : ¬ (p = v.length) := by omega
    simp only [hne, if_false]
    have hd : (CustomBinaryStream.mk v none p v.length 0).deref p = v.get ⟨p, hp⟩ := by
      unfold deref backing
      simp [List.getElem?_eq_getElem hp]
    rw [hd]
    rfl

/-- C29, the defect: for the caller's vector `0A 0B 0C`, `SeekFromOrigin(1)` on
the stream made by `ConsumeVector` has no defined result, whereas on the
stream made by `ConsumeFile` over the same bytes it succeeds, places the
cursor at 1, and the following `ReadByte` returns `0B`. -/
theorem C29_SeekFromOrigin_ignores_borrowed_vector :
    (streamOf [0x0A, 0x0B, 0x0C]).SeekFromOrigin 1 = none ∧
    (ConsumeFile ⟨[], none, 0, 0, 0⟩ (some [0x0A, 0x0B, 0x0C])).2.SeekFromOrigin 1
      = some (true, ⟨[0x0A, 0x0B, 0x0C], none, 1, 3, 0⟩) ∧
    (CustomBinaryStream.mk [0x0A, 0x0B, 0x0C] none 1 3 0).ReadByte
      = (some 0x0B, ⟨[0x0A, 0x0B, 0x0C], none, 2, 3, 0⟩) := by
  decide

/-! ## Repositioning and truncation -/

/-- C11: `SeekFromCurrent(offset)` succeeds if and only if
`current + offset ≤ limit`; on success the new current position is
`current + offset`, on failure the current position is unchanged, and in both
cases begin and limit are unchanged.  `SeekFromOrigin(offset)` on a
file-backed stream, whose origin is offset 0 of the file content, succeeds if
and only if `origin + offset ≤ limit`, then sets current to `origin + offset`,
and on failure leaves the stream unchanged. -/
theorem C11_seek_succeeds_iff_within_limit (s : CustomBinaryStream) (offset : Nat) :
    ((s.SeekFromCurrent offset).1 = true ↔ s.iterator_ + offset ≤ s.end_) ∧
    ((s.SeekFromCurrent offset).1 = true →
      (s.SeekFromCurrent offset).2.iterator_ = s.iterator_ + offset) ∧
    ((s.SeekFromCurrent offset).1 = false → (s.SeekFromCurrent offset).2 = s) ∧
    (s.SeekFromCurrent offset).2.begin_ = s.begin_ ∧
    (s.SeekFromCurrent offset).2.end_ = s.end_ ∧
    (s.borrowed = none →
      ∃ r, s.SeekFromOrigin offset = some r ∧
        (r.1 = true ↔ 0 + offset ≤ s.end_) ∧
        (r.1 = true → r.2.iterator_ = 0 + offset) ∧
        (r.1 = false → r.2 = s) ∧
        r.2.begin_ = s.begin_ ∧ r.2.end_ = s.end_) := by
  refine ⟨?_, ?_, ?_, ?_, ?_, ?_⟩
  · unfold SeekFromCurrent
    by_cases hgt : s.iterator_ + offset > s.end_
    · rw [if_pos hgt]
      constructor
      · intro hf; exact absurd hf (by simp)
      · intro hle; omega
    · rw [if_neg hgt]
      exact ⟨fun _ => by omega, fun _ => rfl⟩
  · unfold SeekFromCurrent
    by_cases hgt : s.iterator_ + offset > s.end_
    · rw [if_pos hgt]; intro hf; exact absurd hf (by simp)
    · rw [if_neg hgt]; intro _; rfl
  · unfold SeekFromCurrent
    by_cases hgt : s.iterator_ + offset > s.end_
    · rw [if_pos hgt]; intro _; rfl
    · rw [if_neg hgt]; intro hf; exact absurd hf (by simp)
  · unfold SeekFromCurrent
    by_cases hgt : s.iterator_ + offset > s.end_
    · rw [if_pos hgt]
    · rw [if_neg hgt]
  · unfold SeekFromCurrent
    by_cases hgt : s.iterator_ + offset > s.end_
    · rw [if_pos hgt]
    · rw [if_neg hgt]
  · intro hb
    unfold SeekFromOrigin
    rw [hb]
    by_cases hgt : 0 + offset > s.end_
    · refine ⟨(false, s), ?_, ?_, ?_, ?_, rfl, rfl⟩
      · simp only [hgt, if_true]
      · constructor
        · intro hf; exact absurd hf (by simp)
        · intro hle; omega
      · intro hf; exact absurd hf (by simp)
      · intro _; rfl
    · refine ⟨(true, { s with iterator_ := 0 + offset }), ?_, ?_, ?_, ?_, rfl, rfl⟩
      · simp only [hgt, if_false, hb]
      · exact ⟨fun _ => by omega, fun _ => rfl⟩
      · intro _; rfl
      · intro hf; exact absurd hf (by simp)

/-- Witness for C11: on a file-backed stream of 3 bytes positioned at 1,
seeking 2 from the current position and 3 from the origin both succeed. -/
theorem C11_seek_succeeds_iff_within_limit_witness :
    (((CustomBinaryStream.mk [0x0A, 0x0B, 0x0C] none 1 3 0).SeekFromCurrent 2).1 = true ↔
      (CustomBinaryStream.mk [0x0A, 0x0B, 0x0C] none 1 3 0).iterator_ + 2
        ≤ (CustomBinaryStream.mk [0x0A, 0x0B, 0x0C] none 1 3 0).end_) ∧
    (∃ r, (CustomBinaryStream.mk [0x0A, 0x0B, 0x0C] none 1 3 0).SeekFromOrigin 3 = some r ∧
      r.1 = true ∧ r.2.iterator_ = 3) :=
  ⟨(C11_seek_succeeds_iff_within_limit (CustomBinaryStream.mk [0x0A, 0x0B, 0x0C] none 1 3 0) 2).1,
    by decide⟩

/-- C12: `SetStreamLength(length)` succeeds if and only if
`current + length ≤ limit`; on success the new limit is exactly
`current + length`, so the remaining length equals `length` and the limit does
not grow, and current is unchanged; on failure nothing changes.  Begin and the
content are unchanged in both cases. -/
theorem C12_SetStreamLength_narrows_limit (s : CustomBinaryStream) (length : Nat) :
    ((s.SetStreamLength length).1 = true ↔ s.iterator_ + length ≤ s.end_) ∧
    ((s.SetStreamLength length).1 = true →
      (s.SetStreamLength length).2.end_ = s.iterator_ + length ∧
      (s.SetStreamLength length).2.GetRemainingStreamLength = length ∧
      (s.SetStreamLength length).2.end_ ≤ s.end_ ∧
      (s.SetStreamLength length).2.iterator_ = s.iterator_) ∧
    ((s.SetStreamLength length).1 = false → (s.SetStreamLength length).2 = s) ∧
    (s.SetStreamLength length).2.begin_ = s.begin_ ∧
    (s.SetStreamLength length).2.backing = s.backing := by
  unfold SetStreamLength
  by_cases hgt : s.iterator_ + length > s.end_
  · rw [if_pos hgt]
    refine ⟨⟨fun hf => absurd hf (by simp), fun hle => by omega⟩, fun hf => absurd hf (by simp),
      fun _ => rfl, rfl, rfl⟩
  · rw [if_neg hgt]
    refine ⟨⟨fun _ => by omega, fun _ => rfl⟩, fun _ => ⟨rfl, ?_, ?_, rfl⟩,
      fun hf => absurd hf (by simp), rfl, rfl⟩
    · show s.iterator_ + length - s.iterator_ = length
      omega
    · show s.iterator_ + length ≤ s.end_
      omega

/-- Witness for C12: truncating a 5-byte stream positioned at 1 to length 2. -/
theorem C12_SetStreamLength_narrows_limit_witness :
    (((streamOf [1, 2, 3, 4, 5]).advance 1).SetStreamLength 2).1 = true ∧
    (((streamOf [1, 2, 3, 4, 5]).advance 1).SetStreamLength 2).2.end_ = 3 ∧
    (((streamOf [1, 2, 3, 4, 5]).advance 1).SetStreamLength 2).2.GetRemainingStreamLength = 2 :=
  ⟨(C12_SetStreamLength_narrows_limit ((streamOf [1, 2, 3, 4, 5]).advance 1) 2).1.2 (by decide),
    ((C12_SetStreamLength_narrows_limit ((streamOf [1, 2, 3, 4, 5]).advance 1) 2).2.1
      (by decide)).1,
    ((C12_SetStreamLength_narrows_limit ((streamOf [1, 2, 3, 4, 5]).advance 1) 2).2.1
      (by decide)).2.1⟩

end CustomBinaryStream

end google_cloud_debugger_portable_pdb

namespace google_cloud_debugger

open google_cloud_debugger_portable_pdb

namespace DbgBreakpoint

/-! ## Resolution inside one method -/

theorem scopeStep_frame (b : DbgBreakpoint) (scope : LocalScopeRow) :
    (scopeStep b scope).il_offset_ = b.il_offset_ ∧ (scopeStep b scope).method_def_ = b.method_def_ ∧
    (scopeStep b scope).line_ = b.line_ ∧ (scopeStep b scope).file_name_ = b.file_name_ ∧
    (scopeStep b scope).set_ = b.set_ ∧ (scopeStep b scope).column_ = b.column_ := by
  unfold scopeStep
  split <;> exact ⟨rfl, rfl, rfl, rfl, rfl, rfl⟩

/-- The scope loop changes only the local variables and constants. -/
theorem scopeLoop_frame (scopes : List LocalScopeRow) : ∀ b : DbgBreakpoint,
    (scopes.foldl scopeStep b).il_offset_ = b.il_offset_ ∧
    (scopes.foldl scopeStep b).method_def_ = b.method_def_ ∧
    (scopes.foldl scopeStep b).line_ = b.line_ ∧
    (scopes.foldl scopeStep b).file_name_ = b.file_name_ ∧
    (scopes.foldl scopeStep b).set_ = b.set_ ∧
    (scopes.foldl scopeStep b).column_ = b.column_ := by
  induction scopes with
  | nil => intro b; exact ⟨rfl, rfl, rfl, rfl, rfl, rfl⟩
  | cons sc t ih =>
    intro b
    rw [List.foldl_cons]
    obtain ⟨h1, h2, h3, h4, h5, h6⟩ := ih (scopeStep b sc)
    obtain ⟨g1, g2, g3, g4, g5, g6⟩ := scopeStep_frame b sc
    exact ⟨h1.trans g1, h2.trans g2, h3.trans g3, h4.trans g4, h5.trans g5, h6.trans g6⟩

/-- The sequence-point loop in closed form: it stops at the first sequence
point that contains the line. -/
theorem TrySetBreakpointInMethod_loop_eq (self : DbgBreakpoint) (method : MethodInfo)
    (sps : List SequencePoint) :
    TrySetBreakpointInMethod_loop self method sps =
      match sps.find? (fun sp => decide (sp.containsLine self.line_)) with
      | none => (false, self)
      | some sp => (true, method.local_scope.foldl scopeStep
          { self with il_offset_ := sp.il_offset, method_def_ := method.method_def }) := by
  induction sps with
  | nil => rfl
  | cons sp t ih =>
    unfold TrySetBreakpointInMethod_loop
    by_cases hskip : sp.start_line > self.line_ ∨ sp.end_line < self.line_
    · have hc : ¬ sp.containsLine self.line_ := by
        unfold SequencePoint.containsLine; omega
      rw [if_pos hskip, ih, List.find?_cons_of_neg _ (by simpa using hc)]
    · have hc : sp.containsLine self.line_ := by
        unfold SequencePoint.containsLine; omega
      rw [if_neg hskip, List.find?_cons_of_pos _ (by simpa using hc)]

theorem TrySetBreakpointInMethod_eq (self : DbgBreakpoint) (method : MethodInfo) :
    TrySetBreakpointInMethod self method =
      match method.firstSequencePoint self.line_ with
      | none => (false, self)
      | some sp => (true, method.local_scope.foldl scopeStep
          { self with il_offset_ := sp.il_offset, method_def_ := method.method_def }) :=
  TrySetBreakpointInMethod_loop_eq self method method.sequence_points

/-- A method has a first sequence point containing the line exactly when it
has one at all. -/
theorem firstSequencePoint_isSome (m : MethodInfo) (line : Nat) :
    (∃ sp, m.firstSequencePoint line = some sp) ↔ ∃ sp ∈ m.sequence_points, sp.containsLine line := by
  unfold MethodInfo.firstSequencePoint
  constructor
  · rintro ⟨sp, hsp⟩
    exact ⟨sp, List.mem_of_find?_eq_some hsp, by simpa using List.find?_some hsp⟩
  · rintro ⟨sp, hmem, hc⟩
    cases hf : m.sequence_points.find? (fun sp => decide (sp.containsLine line)) with
    | some q => exact ⟨q, rfl⟩
    | none =>
      rw [List.find?_eq_none] at hf
      exact absurd hc (by simpa using hf sp hmem)

/-- C16: `TrySetBreakpointInMethod` succeeds if and only if the method has a
sequence point with `start_line ≤ line ≤ end_line`; when it succeeds the
recorded instruction offset is the `il_offset` of the first such sequence
point in the method's sequence-point order and the recorded method is the
method's `method_def`; when it fails the breakpoint is unchanged. -/
theorem C16_TrySetBreakpointInMethod_first_sequence_point (self : DbgBreakpoint)
    (method : MethodInfo) :
    ((TrySetBreakpointInMethod self method).1 = true ↔
      ∃ sp ∈ method.sequence_points, sp.start_line ≤ self.line_ ∧ self.line_ ≤ sp.end_line) ∧
    ((TrySetBreakpointInMethod self method).1 = true →
      ∃ sp, method.sequence_points.find?
          (fun sp => decide (sp.start_line ≤ self.line_ ∧ self.line_ ≤ sp.end_line)) = some sp ∧
        (TrySetBreakpointInMethod self method).2.il_offset_ = sp.il_offset ∧
        (TrySetBreakpointInMethod self method).2.method_def_ = method.method_def) ∧
    ((TrySetBreakpointInMethod self method).1 = false →
      (TrySetBreakpointInMethod self method).2 = self) := by
  have e := TrySetBreakpointInMethod_eq self method
  have hiff := firstSequencePoint_isSome method self.line_
  cases hf : method.firstSequencePoint self.line_ with
  | none =>
    rw [hf] at e
    rw [e]
    refine ⟨⟨fun h => absurd h (by simp), fun h => ?_⟩, fun h => absurd h (by simp), fun _ => rfl⟩
    obtain ⟨sp, hsp⟩ := hiff.2 h
    rw [hf] at hsp
    exact absurd hsp (by simp)
  | some sp =>
    rw [hf] at e
    rw [e]
    obtain ⟨h1, h2, -⟩ := scopeLoop_frame method.local_scope
      { self with il_offset_ := sp.il_offset, method_def_ := method.method_def }
    refine ⟨⟨fun _ => hiff.1 ⟨sp, hf⟩, fun _ => rfl⟩, fun _ => ⟨sp, hf, h1, h2⟩,
      fun h => absurd h (by simp)⟩

/-- Witness for C16: with sequence points on lines 1-2 (offset 0), 3-5 (offset 4)
and 5-6 (offset 9), line 5 resolves to offset 4 of method 7. -/
theorem C16_TrySetBreakpointInMethod_first_sequence_point_witness :
    (TrySetBreakpointInMethod (fresh.Initialize (str "a.cs") [] 5 0)
      ⟨7, 1, 6, [⟨1, 2, 0⟩, ⟨3, 5, 4⟩, ⟨5, 6, 9⟩], []⟩).1 = true ∧
    (TrySetBreakpointInMethod (fresh.Initialize (str "a.cs") [] 5 0)
      ⟨7, 1, 6, [⟨1, 2, 0⟩, ⟨3, 5, 4⟩, ⟨5, 6, 9⟩], []⟩).2.il_offset_ = 4 ∧
    (TrySetBreakpointInMethod (fresh.Initialize (str "a.cs") [] 5 0)
      ⟨7, 1, 6, [⟨1, 2, 0⟩, ⟨3, 5, 4⟩, ⟨5, 6, 9⟩], []⟩).2.method_def_ = 7 :=
  ⟨(C16_TrySetBreakpointInMethod_first_sequence_point (fresh.Initialize (str "a.cs") [] 5 0)
      ⟨7, 1, 6, [⟨1, 2, 0⟩, ⟨3, 5, 4⟩, ⟨5, 6, 9⟩], []⟩).1.2 (by decide),
    by decide, by decide⟩

theorem scopeStep_of_outside (b : DbgBreakpoint) (sc : LocalScopeRow)
    (h : sc.start_offset > b.il_offset_ ∨ (sc.start_offset + sc.length) % 2 ^ 32 < b.il_offset_) :
    scopeStep b sc = b := by
  unfold scopeStep
  rw [if_pos h]

theorem scopeStep_of_inside (b : DbgBreakpoint) (sc : LocalScopeRow)
    (h : ¬ (sc.start_offset > b.il_offset_ ∨ (sc.start_offset + sc.length) % 2 ^ 32 < b.il_offset_)) :
    scopeStep b sc =
      { b with local_variables_ := sc.local_variables, local_constants_ := sc.local_constants } := by
  unfold scopeStep
  rw [if_neg h]

/-- The scope loop in closed form: the locals are those of the last scope, in
the method's scope order, with `start_offset ≤ o ≤ start_offset + length`
(the bounds the code tests, the upper one included), and are left as they
were when there is no such scope. -/
theorem scopeLoop_locals (scopes : List LocalScopeRow) (b : DbgBreakpoint) :
    match scopes.reverse.find? (fun sc => decide (sc.start_offset ≤ b.il_offset_ ∧
        b.il_offset_ ≤ (sc.start_offset + sc.length) % 2 ^ 32)) with
    | none => (scopes.foldl scopeStep b).local_variables_ = b.local_variables_ ∧
        (scopes.foldl scopeStep b).local_constants_ = b.local_constants_
    | some sc => (scopes.foldl scopeStep b).local_variables_ = sc.local_variables ∧
        (scopes.foldl scopeStep b).local_constants_ = sc.local_constants := by
  induction scopes using List.reverseRecOn with
  | nil => exact ⟨rfl, rfl⟩
  | append_singleton t a ih =>
    rw [List.foldl_append, List.reverse_append, List.reverse_singleton, List.singleton_append,
      List.foldl_cons, List.foldl_nil]
    have hil := (scopeLoop_frame t b).1
    by_cases hm : a.start_offset ≤ b.il_offset_ ∧
        b.il_offset_ ≤ (a.start_offset + a.length) % 2 ^ 32
    · rw [List.find?_cons_of_pos _ (by simpa using hm)]
      have hskip : ¬ (a.start_offset > (t.foldl scopeStep b).il_offset_ ∨
          (a.start_offset + a.length) % 2 ^ 32 < (t.foldl scopeStep b).il_offset_) := by
        rw [hil]; omega
      rw [scopeStep_of_inside _ _ hskip]
      exact ⟨rfl, rfl⟩
    · rw [List.find?_cons_of_neg _ (by simpa using hm)]
      have hskip : a.start_offset > (t.foldl scopeStep b).il_offset_ ∨
          (a.start_offset + a.length) % 2 ^ 32 < (t.foldl scopeStep b).il_offset_ := by
        rw [hil]; omega
      rw [scopeStep_of_outside _ _ hskip]
      exact ih

/-- C17, the defect: a method whose sequence point for line 5 is at offset 15
has an outer scope `[0, 100)` declaring `x` and a later scope `[5, 15)`
declaring `y`.  Offset 15 lies in the outer scope only, yet the resolved
locals are those of the later scope, because the code skips a scope only when
`start_offset + length < il_offset_`. -/
theorem C17_scope_end_offset_counts_as_inside :
    (TrySetBreakpointInMethod (fresh.Initialize (str "a.cs") [] 5 0)
      ⟨1, 1, 10, [⟨5, 5, 15⟩], [⟨0, 100, [⟨"x"⟩], [⟨"c"⟩]⟩, ⟨5, 10, [⟨"y"⟩], []⟩]⟩).1 = true ∧
    (TrySetBreakpointInMethod (fresh.Initialize (str "a.cs") [] 5 0)
      ⟨1, 1, 10, [⟨5, 5, 15⟩], [⟨0, 100, [⟨"x"⟩], [⟨"c"⟩]⟩, ⟨5, 10, [⟨"y"⟩], []⟩]⟩).2.il_offset_ = 15 ∧
    (⟨0, 100, [⟨"x"⟩], [⟨"c"⟩]⟩ : LocalScopeRow).containsOffset 15 ∧
    ¬ (⟨5, 10, [⟨"y"⟩], []⟩ : LocalScopeRow).containsOffset 15 ∧
    (TrySetBreakpointInMethod (fresh.Initialize (str "a.cs") [] 5 0)
      ⟨1, 1, 10, [⟨5, 5, 15⟩], [⟨0, 100, [⟨"x"⟩], [⟨"c"⟩]⟩, ⟨5, 10, [⟨"y"⟩], []⟩]⟩).2.local_variables_
        = [⟨"y"⟩] ∧
    (TrySetBreakpointInMethod (fresh.Initialize (str "a.cs") [] 5 0)
      ⟨1, 1, 10, [⟨5, 5, 15⟩], [⟨0, 100, [⟨"x"⟩], [⟨"c"⟩]⟩, ⟨5, 10, [⟨"y"⟩], []⟩]⟩).2.local_constants_
        = [] := by
  decide

/-- The shadowing scenario of C17 evaluated: outer scope `[0, 100)` declaring
`x`, later inner scope `[10, 20)` declaring `x'`; offset 15 yields the inner
one only. -/
theorem TrySetBreakpointInMethod_shadowing :
    (TrySetBreakpointInMethod (fresh.Initialize (str "a.cs") [] 5 0)
      ⟨1, 1, 10, [⟨5, 5, 15⟩], [⟨0, 100, [⟨"x"⟩], []⟩, ⟨10, 10, [⟨"x'"⟩], []⟩]⟩).2.local_variables_
        = [⟨"x'"⟩] := by
  decide

/-! ## The file-name match -/

theorem rfindFrom_top (s str : List Byte) (i : Nat) (h : (s.drop i).take str.length = str) :
    rfindFrom s str i = i := by
  cases i with
  | zero => unfold rfindFrom; rw [if_pos h]
  | succ k => unfold rfindFrom; rw [if_pos h]

/-- The search either returns a position at which `str` occurs, or `npos`
after finding no occurrence at any position up to `i`. -/
theorem rfindFrom_spec (s str : List Byte) (i : Nat) :
    (rfindFrom s str i ≤ i ∧ (s.drop (rfindFrom s str i)).take str.length = str) ∨
    (rfindFrom s str i = npos ∧ ∀ j, j ≤ i → (s.drop j).take str.length ≠ str) := by
  induction i with
  | zero =>
    unfold rfindFrom
    by_cases h : (s.drop 0).take str.length = str
    · rw [if_pos h]; exact Or.inl ⟨Nat.le_refl 0, h⟩
    · rw [if_neg h]
      refine Or.inr ⟨rfl, fun j hj => ?_⟩
      have : j = 0 := by omega
      rw [this]; exact h
  | succ k ih =>
    unfold rfindFrom
    by_cases h : (s.drop (k + 1)).take str.length = str
    · rw [if_pos h]; exact Or.inl ⟨Nat.le_refl _, h⟩
    · rw [if_neg h]
      rcases ih with ⟨hle, hm⟩ | ⟨hn, hno⟩
      · exact Or.inl ⟨by omega, hm⟩
      · refine Or.inr ⟨hn, fun j hj => ?_⟩
        by_cases hjk : j ≤ k
        · exact hno j hjk
        · have : j = k + 1 := by omega
          rw [this]; exact h

theorem normalizedPath_length (p : List Byte) : (normalizedPath p).length = p.length := by
  simp [normalizedPath]

/-- The checks of lines 82 to 98 pass exactly when the stored name is a suffix
of the normalized document path, and then `file_name_location` is the start
of that suffix. -/
theorem fileNameLocation_eq_some_iff (f : List Byte) (d : DocumentIndex)
    (hlen : d.file_path.length < 2 ^ 64) (loc : Nat) :
    fileNameLocation f d = some loc ↔
      (f <:+ normalizedPath d.file_path ∧ loc + f.length = d.file_path.length) := by
  have hnl := normalizedPath_length d.file_path
  unfold fileNameLocation
  simp only [List.length_map]
  by_cases hshort : d.file_path.length < f.length
  · rw [if_pos hshort]
    constructor
    · intro h; exact absurd h (by simp)
    · rintro ⟨hsuf, -⟩
      have := hsuf.length_le
      omega
  · rw [if_neg hshort]
    show (if (rfind (normalizedPath d.file_path) f + f.length) % 2 ^ 64 ≠ d.file_path.length
      then none else some (rfind (normalizedPath d.file_path) f)) = some loc ↔ _
    have hr : rfind (normalizedPath d.file_path) f
        = rfindFrom (normalizedPath d.file_path) f (d.file_path.length - f.length) := by
      unfold rfind
      rw [hnl, if_pos (by omega)]
    rw [hr]
    generalize hn : normalizedPath d.file_path = n at hnl ⊢
    constructor
    · intro h
      by_cases hne : (rfindFrom n f (d.file_path.length - f.length) + f.length) % 2 ^ 64
          ≠ d.file_path.length
      · rw [if_pos hne] at h; exact absurd h (by simp)
      · rw [if_neg hne] at h
        have hv : rfindFrom n f (d.file_path.length - f.length) = loc := Option.some.inj h
        rw [hv] at hne
        have hmod : (loc + f.length) % 2 ^ 64 = d.file_path.length := by omega
        rcases rfindFrom_spec n f (d.file_path.length - f.length) with ⟨hle, hm⟩ | ⟨hnp, hno⟩
        · rw [hv] at hle hm
          have hsum : loc + f.length = d.file_path.length := by
            have : loc + f.length < 2 ^ 64 := by omega
            rw [Nat.mod_eq_of_lt this] at hmod
            exact hmod
          refine ⟨?_, hsum⟩
          have hdl : (n.drop loc).length = f.length := by
            rw [List.length_drop, hnl]; omega
          have htake : (n.drop loc).take f.length = n.drop loc := by
            rw [← hdl, List.take_length]
          rw [htake] at hm
          rw [← hm]
          exact List.drop_suffix loc n
        · exfalso
          rw [hv] at hnp
          by_cases hf0 : f.length = 0
          · have := hno 0 (Nat.zero_le _)
            rw [hf0, List.take_zero] at this
            exact this (List.eq_nil_of_length_eq_zero hf0).symm
          · unfold npos at hnp
            omega
    · rintro ⟨hsuf, hsum⟩
      obtain ⟨t, ht⟩ := hsuf
      have htl : t.length = d.file_path.length - f.length := by
        have := congrArg List.length ht
        rw [List.length_append, hnl] at this
        omega
      have hm : (n.drop (d.file_path.length - f.length)).take f.length = f := by
        rw [← htl, ← ht, List.drop_left, List.take_length]
      rw [rfindFrom_top n f _ hm]
      have hmod : (d.file_path.length - f.length + f.length) % 2 ^ 64 = d.file_path.length := by
        rw [Nat.sub_add_cancel (by omega), Nat.mod_eq_of_lt hlen]
      rw [if_neg (by rw [hmod]; simp)]
      congr 1
      omega

/-- A document that fails the checks is skipped: only the running index moves. -/
theorem documentStep_of_none (docs : List DocumentIndex) (st : DocumentLoop) (d : DocumentIndex)
    (h : fileNameLocation st.self.file_name_ d = none) :
    documentStep docs st d =
      { st with current_doc_index_index := (st.current_doc_index_index + 1) % 2 ^ 32 } := by
  unfold documentStep
  simp only [h]

/-- C13: document candidacy is exactly a suffix test.  For every document path
`p` and stored requested name `f`, the document passes the length check and
the `rfind` check of `TrySetBreakpoint` if and only if the lower-cased,
backslash-to-slash-normalized `p` ends with `f`, the location found being
where that suffix starts; a document whose normalized path does not end with
`f`, whether `f` occurs inside it or not at all, is not a candidate and the
loop skips it. -/
theorem C13_candidate_iff_suffix (f : List Byte) (d : DocumentIndex)
    (hlen : d.file_path.length < 2 ^ 64) :
    ((fileNameLocation f d).isSome ↔ f <:+ normalizedPath d.file_path) ∧
    (∀ loc, fileNameLocation f d = some loc →
      loc + f.length = d.file_path.length ∧ (normalizedPath d.file_path).drop loc = f) ∧
    (¬ f <:+ normalizedPath d.file_path →
      ∀ (docs : List DocumentIndex) (st : DocumentLoop), st.self.file_name_ = f →
        documentStep docs st d =
          { st with current_doc_index_index := (st.current_doc_index_index + 1) % 2 ^ 32 }) := by
  have key := fileNameLocation_eq_some_iff f d hlen
  have hiff : (fileNameLocation f d).isSome ↔ f <:+ normalizedPath d.file_path := by
    constructor
    · intro h
      obtain ⟨loc, hloc⟩ := Option.isSome_iff_exists.1 h
      exact ((key loc).1 hloc).1
    · intro hsuf
      have hle := hsuf.length_le
      rw [normalizedPath_length] at hle
      have := (key (d.file_path.length - f.length)).2 ⟨hsuf, by omega⟩
      rw [this]
      rfl
  refine ⟨hiff, ?_, ?_⟩
  · intro loc hloc
    obtain ⟨hsuf, hsum⟩ := (key loc).1 hloc
    refine ⟨hsum, ?_⟩
    obtain ⟨t, ht⟩ := hsuf
    have htl : t.length = loc := by
      have := congrArg List.length ht
      rw [List.length_append, normalizedPath_length] at this
      omega
    rw [← ht, ← htl, List.drop_left]
  · intro hns docs st hst
    apply documentStep_of_none
    rw [hst]
    cases hfl : fileNameLocation f d with
    | none => rfl
    | some loc =>
      have : (fileNameLocation f d).isSome := by rw [hfl]; rfl
      exact absurd (hiff.1 this) hns

/-- Witness for C13: the request `foo.cs` is a suffix of the normalized form of
`C:\Src\Foo.cs`, and the match starts at position 7. -/
theorem C13_candidate_iff_suffix_witness :
    (str "C:\\Src\\Foo.cs").length < 2 ^ 64 ∧
    fileNameLocation (str "foo.cs") ⟨str "C:\\Src\\Foo.cs", []⟩ = some 7 ∧
    (str "foo.cs") <:+ normalizedPath (str "C:\\Src\\Foo.cs") :=
  ⟨by decide, by decide,
    (C13_candidate_iff_suffix (str "foo.cs") ⟨str "C:\\Src\\Foo.cs", []⟩ (by decide)).1.1
      (by decide)⟩

/-- The cases of C13 evaluated: an occurrence inside the path that does not end
it, and a name that does not occur, both fail the checks. -/
theorem fileNameLocation_inner_occurrence :
    fileNameLocation (str "foo.cs") ⟨str "/src/foo.cs/bar.cs", []⟩ = none ∧
    rfind (normalizedPath (str "/src/foo.cs/bar.cs")) (str "foo.cs") = 5 ∧
    fileNameLocation (str "foo.cs") ⟨str "/src/main.cs", []⟩ = none ∧
    rfind (normalizedPath (str "/src/main.cs")) (str "foo.cs") = npos := by
  decide

/-! ## The method loop -/

theorem TrySetBreakpointInMethod_frame (self : DbgBreakpoint) (m : MethodInfo) :
    (TrySetBreakpointInMethod self m).2.line_ = self.line_ ∧
    (TrySetBreakpointInMethod self m).2.file_name_ = self.file_name_ := by
  rw [TrySetBreakpointInMethod_eq]
  cases m.firstSequencePoint self.line_ with
  | none => exact ⟨rfl, rfl⟩
  | some sp =>
    obtain ⟨-, -, h3, h4, -⟩ := scopeLoop_frame m.local_scope
      { self with il_offset_ := sp.il_offset, method_def_ := m.method_def }
    exact ⟨h3, h4⟩

/-- What `TrySetBreakpointInMethod` records depends on the incoming breakpoint
only through its line, apart from the locals. -/
theorem TrySetBreakpointInMethod_of_resolvable (self : DbgBreakpoint) (m : MethodInfo)
    (h : ∃ sp ∈ m.sequence_points, sp.containsLine self.line_) :
    ∃ sp, m.firstSequencePoint self.line_ = some sp ∧
      (TrySetBreakpointInMethod self m).1 = true ∧
      (TrySetBreakpointInMethod self m).2.il_offset_ = sp.il_offset ∧
      (TrySetBreakpointInMethod self m).2.method_def_ = m.method_def := by
  obtain ⟨sp, hsp⟩ := (firstSequencePoint_isSome m self.line_).2 h
  refine ⟨sp, hsp, ?_⟩
  rw [TrySetBreakpointInMethod_eq, hsp]
  obtain ⟨h1, h2, -⟩ := scopeLoop_frame m.local_scope
    { self with il_offset_ := sp.il_offset, method_def_ := m.method_def }
  exact ⟨rfl, h1, h2⟩

/-- One iteration of the method loop: either nothing changes, and then the
method is not resolvable or does not start after the best so far, or the
method is resolvable, starts after the best so far, and is recorded. -/
theorem methodStep_spec (st : MethodLoop) (m : MethodInfo) :
    (methodStep st m = st ∧ (m.resolvable st.self.line_ → m.first_line ≤ st.best_matched_method_first_line)) ∨
    (m.resolvable st.self.line_ ∧ st.best_matched_method_first_line < m.first_line ∧
      methodStep st m = ⟨true, m.first_line, (TrySetBreakpointInMethod st.self m).2⟩) := by
  unfold methodStep
  by_cases hout : m.first_line > st.self.line_ ∨ m.last_line < st.self.line_
  · rw [if_pos hout]
    refine Or.inl ⟨rfl, fun hres => ?_⟩
    have := hres.1
    unfold MethodInfo.spansLine at this
    omega
  · rw [if_neg hout]
    by_cases hgt : m.first_line > st.best_matched_method_first_line
    · rw [if_pos hgt]
      have hspan : m.spansLine st.self.line_ := by
        unfold MethodInfo.spansLine; omega
      by_cases hsp : ∃ sp ∈ m.sequence_points, sp.containsLine st.self.line_
      · obtain ⟨sp, -, h1, -, -⟩ := TrySetBreakpointInMethod_of_resolvable st.self m hsp
        refine Or.inr ⟨⟨hspan, hsp⟩, hgt, ?_⟩
        cases hr : TrySetBreakpointInMethod st.self m with
        | mk ok self' =>
          rw [hr] at h1
          simp only at h1
          subst h1
          rfl
      · have hnone : m.firstSequencePoint st.self.line_ = none := by
          cases hf : m.firstSequencePoint st.self.line_ with
          | none => rfl
          | some sp => exact absurd ((firstSequencePoint_isSome m st.self.line_).1 ⟨sp, hf⟩) hsp
        refine Or.inl ⟨?_, fun hres => absurd hres.2 hsp⟩
        rw [TrySetBreakpointInMethod_eq, hnone]
    · rw [if_neg hgt]
      exact Or.inl ⟨rfl, fun _ => by omega⟩

/-- The method loop: the line and file name are kept, the best first line only
grows and bounds the first line of every resolvable method, and either
nothing changed or the state is the one recorded for a resolvable method
whose first line is the final best. -/
theorem methodLoop_spec (ms : List MethodInfo) : ∀ st : MethodLoop,
    (ms.foldl methodStep st).self.line_ = st.self.line_ ∧
    (ms.foldl methodStep st).self.file_name_ = st.self.file_name_ ∧
    st.best_matched_method_first_line ≤ (ms.foldl methodStep st).best_matched_method_first_line ∧
    (∀ m ∈ ms, m.resolvable st.self.line_ →
      m.first_line ≤ (ms.foldl methodStep st).best_matched_method_first_line) ∧
    (ms.foldl methodStep st = st ∨
      ((ms.foldl methodStep st).found_breakpoint = true ∧
        ∃ m ∈ ms, m.resolvable st.self.line_ ∧
          st.best_matched_method_first_line < m.first_line ∧
          m.first_line = (ms.foldl methodStep st).best_matched_method_first_line ∧
          ∃ b0 : DbgBreakpoint, b0.line_ = st.self.line_ ∧ b0.file_name_ = st.self.file_name_ ∧
            (ms.foldl methodStep st).self = (TrySetBreakpointInMethod b0 m).2)) := by
  induction ms with
  | nil =>
    intro st
    exact ⟨rfl, rfl, Nat.le_refl _, fun m hm => absurd hm (List.not_mem_nil m), Or.inl rfl⟩
  | cons a t ih =>
    intro st
    rw [List.foldl_cons]
    obtain ⟨i1, i2, i3, i4, i5⟩ := ih (methodStep st a)
    rcases methodStep_spec st a with ⟨hsame, hbound⟩ | ⟨hres, hlt, hset⟩
    · rw [hsame] at i1 i2 i3 i4 i5 ⊢
      refine ⟨i1, i2, i3, ?_, ?_⟩
      · intro m hm hr
        rcases List.mem_cons.1 hm with rfl | hmt
        · exact Nat.le_trans (hbound hr) i3
        · exact i4 m hmt hr
      · rcases i5 with h | ⟨hf, m, hm, hr, hlt, hbest, hb⟩
        · exact Or.inl h
        · exact Or.inr ⟨hf, m, List.mem_cons_of_mem _ hm, hr, hlt, hbest, hb⟩
    · obtain ⟨f1, f2⟩ := TrySetBreakpointInMethod_frame st.self a
      have hl : (methodStep st a).self.line_ = st.self.line_ := by rw [hset]; exact f1
      have hn : (methodStep st a).self.file_name_ = st.self.file_name_ := by rw [hset]; exact f2
      have hb : (methodStep st a).best_matched_method_first_line = a.first_line := by rw [hset]
      rw [hl] at i1 i4 i5
      rw [hn] at i2 i5
      rw [hb] at i3 i5
      refine ⟨i1, i2, by omega, ?_, Or.inr ?_⟩
      · intro m hm hr
        rcases List.mem_cons.1 hm with rfl | hmt
        · exact i3
        · exact i4 m hmt hr
      · rcases i5 with h | ⟨hf, m, hm, hr, hlt2, hbest, hb0⟩
        · rw [h, hset]
          exact ⟨rfl, a, List.mem_cons_self _ _, hres, hlt, rfl, st.self, rfl, rfl, rfl⟩
        · exact ⟨hf, m, List.mem_cons_of_mem _ hm, hr, by omega, hbest, hb0⟩

/-- The method loop started afresh finds a breakpoint exactly when the document
yields a match, and otherwise leaves the breakpoint as it was. -/
theorem methodLoop_fresh (d : DocumentIndex) (b : DbgBreakpoint) :
    ((d.methods.foldl methodStep ⟨false, 0, b⟩).found_breakpoint = true ↔ yieldsMatch d b.line_) ∧
    ((d.methods.foldl methodStep ⟨false, 0, b⟩).found_breakpoint = false →
      (d.methods.foldl methodStep ⟨false, 0, b⟩).self = b) := by
  obtain ⟨-, -, -, h4, h5⟩ := methodLoop_spec d.methods ⟨false, 0, b⟩
  refine ⟨⟨fun hf => ?_, fun hy => ?_⟩, fun hnf => ?_⟩
  · rcases h5 with h | ⟨-, m, hm, hr, hlt, -, -⟩
    · rw [h] at hf; exact absurd hf (by simp)
    · exact ⟨m, hm, hr, hlt⟩
  · obtain ⟨m, hm, hr, hpos⟩ := hy
    have hle := h4 m hm hr
    rcases h5 with h | ⟨hf, -⟩
    · rw [h] at hle
      have : m.first_line ≤ 0 := hle
      omega
    · exact hf
  · rcases h5 with h | ⟨hf, -⟩
    · rw [h]
    · rw [hf] at hnf; exact absurd hnf (by simp)

/-! ## The document loop -/

theorem documentStep_of_some (docs : List DocumentIndex) (st : DocumentLoop) (d : DocumentIndex)
    (loc : Nat) (h : fileNameLocation st.self.file_name_ d = some loc)
    (hget : docs[(st.current_doc_index_index + 1) % 2 ^ 32]? = some d) :
    documentStep docs st d =
      if loc < st.best_file_name_location_matched then
        if (d.methods.foldl methodStep ⟨false, 0, st.self⟩).found_breakpoint then
          { current_doc_index_index := (st.current_doc_index_index + 1) % 2 ^ 32,
            best_match_index := (st.current_doc_index_index + 1) % 2 ^ 32,
            best_file_name_location_matched := loc,
            self := (d.methods.foldl methodStep ⟨false, 0, st.self⟩).self }
        else
          { st with current_doc_index_index := (st.current_doc_index_index + 1) % 2 ^ 32,
                    self := (d.methods.foldl methodStep ⟨false, 0, st.self⟩).self }
      else { st with current_doc_index_index := (st.current_doc_index_index + 1) % 2 ^ 32 } := by
  unfold documentStep
  simp only [h, hget]

/-- The invariant survives a document that does not become the best match. -/
theorem invariant_skip (self0 : DbgBreakpoint) (seen : List DocumentIndex) (d : DocumentIndex)
    (st : DocumentLoop) (hinv : DocumentLoop.Invariant self0 seen st)
    (hd : ∀ loc, fileNameLocation self0.file_name_ d = some loc → yieldsMatch d self0.line_ →
      st.best_file_name_location_matched ≤ loc ∧ st.best_file_name_location_matched ≠ UINT32_MAX) :
    DocumentLoop.Invariant self0 (seen ++ [d])
      { st with current_doc_index_index := (st.current_doc_index_index + 1) % 2 ^ 32 } := by
  obtain ⟨hcur, hline, hname, hcase⟩ := hinv
  refine ⟨?_, hline, hname, ?_⟩
  · show (st.current_doc_index_index + 1) % 2 ^ 32 = ((seen ++ [d]).length + UINT32_MAX) % 2 ^ 32
    rw [hcur, List.length_append, List.length_singleton]
    unfold UINT32_MAX
    omega
  · rcases hcase with ⟨hb, hl, hs, hno⟩ | ⟨l1, db, l2, locb, hsplit, hb, hfb, hl, hyb, hb0, hbefore, hafter⟩
    · refine Or.inl ⟨hb, hl, hs, ?_⟩
      intro d' hd' loc hloc hy
      rcases List.mem_append.1 hd' with hin | hin
      · exact hno d' hin loc hloc hy
      · rw [List.mem_singleton] at hin
        subst hin
        exact (hd loc hloc hy).2 hl
    · refine Or.inr ⟨l1, db, l2 ++ [d], locb, ?_, hb, hfb, hl, hyb, hb0, hbefore, ?_⟩
      · rw [hsplit, List.append_assoc, List.cons_append]
      · intro d' hd' loc' hloc' hy
        rcases List.mem_append.1 hd' with hin | hin
        · exact hafter d' hin loc' hloc' hy
        · rw [List.mem_singleton] at hin
          subst hin
          have := (hd loc' hloc' hy).1
          show locb ≤ loc'
          rw [← hl]
          exact this

/-- The invariant survives one iteration of the document loop. -/
theorem documentStep_invariant (self0 : DbgBreakpoint) (docs seen rest : List DocumentIndex)
    (d : DocumentIndex) (st : DocumentLoop) (hdocs : docs = seen ++ d :: rest)
    (hlim : withinLimits docs) (hinv : DocumentLoop.Invariant self0 seen st) :
    DocumentLoop.Invariant self0 (seen ++ [d]) (documentStep docs st d) := by
  have hinv' := hinv
  obtain ⟨hcur, hline, hname, hcase⟩ := hinv'
  have hdl : docs.length = seen.length + (rest.length + 1) := by
    rw [hdocs, List.length_append, List.length_cons]
  have hseen : seen.length < 2 ^ 32 - 1 := by
    have := hlim.1
    omega
  have hc : (st.current_doc_index_index + 1) % 2 ^ 32 = seen.length := by
    rw [hcur]
    unfold UINT32_MAX
    omega
  have hget : docs[(st.current_doc_index_index + 1) % 2 ^ 32]? = some d := by
    rw [hc, hdocs, List.getElem?_append_right (Nat.le_refl _), Nat.sub_self]
    exact List.getElem?_cons_zero
  have hdpath : d.file_path.length < 2 ^ 32 - 1 := hlim.2 d (by rw [hdocs]; simp)
  cases hfl : fileNameLocation self0.file_name_ d with
  | none =>
    rw [documentStep_of_none docs st d (by rw [hname]; exact hfl)]
    exact invariant_skip self0 seen d st hinv (fun loc hloc => by rw [hfl] at hloc; exact absurd hloc (by simp))
  | some loc =>
    have hlocsum := ((fileNameLocation_eq_some_iff self0.file_name_ d (by omega) loc).1 hfl).2
    have hlocLt : loc < UINT32_MAX := by unfold UINT32_MAX; omega
    rw [documentStep_of_some docs st d loc (by rw [hname]; exact hfl) hget]
    obtain ⟨hfound, hnot⟩ := methodLoop_fresh d st.self
    rw [hline] at hfound
    by_cases hlt : loc < st.best_file_name_location_matched
    · rw [if_pos hlt]
      cases hf : (d.methods.foldl methodStep ⟨false, 0, st.self⟩).found_breakpoint with
      | false =>
        have hself := hnot hf
        rw [hself]
        simp only [Bool.false_eq_true, if_false]
        have hny : ¬ yieldsMatch d self0.line_ := fun hy => by
          have := hfound.2 hy
          rw [hf] at this
          exact absurd this (by simp)
        exact invariant_skip self0 seen d st hinv (fun loc' _ hy => absurd hy hny)
      | true =>
        simp only [if_true]
        have hy : yieldsMatch d self0.line_ := hfound.1 hf
        obtain ⟨m1, m2, -⟩ := methodLoop_spec d.methods ⟨false, 0, st.self⟩
        refine ⟨?_, m1.trans hline, m2.trans hname, Or.inr ⟨seen, d, [], loc, rfl, hc, hfl, rfl, hy,
          ⟨st.self, hline, hname, rfl⟩, ?_, fun d' hd' => absurd hd' (List.not_mem_nil d')⟩⟩
        · show (st.current_doc_index_index + 1) % 2 ^ 32 = ((seen ++ [d]).length + UINT32_MAX) % 2 ^ 32
          rw [hc, List.length_append, List.length_singleton]
          unfold UINT32_MAX
          omega
        · intro d' hd' loc' hloc' hy'
          rcases hcase with ⟨-, -, -, hno⟩ | ⟨l1, db, l2, locb, hsplit, -, hfb, hl, -, -, hbefore, hafter⟩
          · exact absurd hy' (hno d' hd' loc' hloc')
          · rw [hl] at hlt
            rw [hsplit] at hd'
            rcases List.mem_append.1 hd' with hin | hin
            · have := hbefore d' hin loc' hloc' hy'
              omega
            · rcases List.mem_cons.1 hin with heq | hin2
              · subst heq
                rw [hfb] at hloc'
                have : locb = loc' := Option.some.inj hloc'
                omega
              · have := hafter d' hin2 loc' hloc' hy'
                omega
    · rw [if_neg hlt]
      refine invariant_skip self0 seen d st hinv (fun loc' hloc' _ => ?_)
      rw [hfl] at hloc'
      have : loc = loc' := Option.some.inj hloc'
      subst this
      constructor
      · omega
      · omega

/-- The invariant holds when the document loop ends. -/
theorem documentLoop_invariant (self0 : DbgBreakpoint) (docs : List DocumentIndex)
    (hlim : withinLimits docs) : ∀ (rest seen : List DocumentIndex) (st : DocumentLoop),
    docs = seen ++ rest → DocumentLoop.Invariant self0 seen st →
    DocumentLoop.Invariant self0 docs (rest.foldl (documentStep docs) st) := by
  intro rest
  induction rest with
  | nil =>
    intro seen st hdocs hinv
    rw [List.append_nil] at hdocs
    rw [hdocs]
    exact hinv
  | cons d t ih =>
    intro seen st hdocs hinv
    rw [List.foldl_cons]
    apply ih (seen ++ [d])
    · rw [hdocs, List.append_assoc, List.singleton_append]
    · exact documentStep_invariant self0 docs seen t d st hdocs hlim hinv

theorem TrySetBreakpoint_loop_invariant (self0 : DbgBreakpoint) (docs : PortablePdbFile)
    (hlim : withinLimits docs) :
    DocumentLoop.Invariant self0 docs (TrySetBreakpoint_loop self0 docs) := by
  unfold TrySetBreakpoint_loop
  apply documentLoop_invariant self0 docs hlim docs [] _ rfl
  refine ⟨?_, rfl, rfl, Or.inl ⟨rfl, rfl, rfl, fun d hd => absurd hd (List.not_mem_nil d)⟩⟩
  show UINT32_MAX = (0 + UINT32_MAX) % 2 ^ 32
  unfold UINT32_MAX
  omega

/-- The two outcomes of `TrySetBreakpoint`.  Either it returns false, the
breakpoint is unchanged but for the cleared flag, and no candidate document
yields a match; or it returns true and the breakpoint is as the method loop
of the best candidate `d` left it, `d` being at position `best_match_index`,
with a smaller location than every matching candidate before it and none
larger than any after it. -/
theorem TrySetBreakpoint_cases (self : DbgBreakpoint) (docs : PortablePdbFile)
    (hlim : withinLimits docs) :
    ((TrySetBreakpoint self docs).1 = false ∧
      (TrySetBreakpoint self docs).2 = { self with set_ := false } ∧
      ∀ d ∈ docs, ∀ loc, fileNameLocation self.file_name_ d = some loc →
        ¬ yieldsMatch d self.line_) ∨
    ((TrySetBreakpoint self docs).1 = true ∧
      ∃ (l1 : List DocumentIndex) (d : DocumentIndex) (l2 : List DocumentIndex) (loc : Nat),
        docs = l1 ++ d :: l2 ∧ (TrySetBreakpoint_loop self docs).best_match_index = l1.length ∧
        fileNameLocation self.file_name_ d = some loc ∧ yieldsMatch d self.line_ ∧
        (∃ b0 : DbgBreakpoint, b0.line_ = self.line_ ∧ b0.file_name_ = self.file_name_ ∧
          (TrySetBreakpoint self docs).2 =
            { (d.methods.foldl methodStep ⟨false, 0, b0⟩).self with set_ := true }) ∧
        (∀ d' ∈ l1, ∀ loc', fileNameLocation self.file_name_ d' = some loc' →
          yieldsMatch d' self.line_ → loc < loc') ∧
        (∀ d' ∈ l2, ∀ loc', fileNameLocation self.file_name_ d' = some loc' →
          yieldsMatch d' self.line_ → loc ≤ loc')) := by
  obtain ⟨-, -, -, hcase⟩ := TrySetBreakpoint_loop_invariant self docs hlim
  rcases hcase with ⟨hb, -, hs, hno⟩ | ⟨l1, d, l2, loc, hsplit, hb, hfl, -, hy, ⟨b0, hb1, hb2, hb3⟩, hbefore, hafter⟩
  · refine Or.inl ⟨?_, ?_, hno⟩
    · unfold TrySetBreakpoint
      simp only [hb, ne_eq, not_true_eq_false, decide_False]
    · unfold TrySetBreakpoint
      simp only [hb, hs, ne_eq, not_true_eq_false, decide_False]
  · have hne : (TrySetBreakpoint_loop self docs).best_match_index ≠ UINT32_MAX := by
      have h1 := hlim.1
      have h2 : docs.length = l1.length + (l2.length + 1) := by
        rw [hsplit, List.length_append, List.length_cons]
      rw [hb]
      unfold UINT32_MAX
      omega
    refine Or.inr ⟨?_, l1, d, l2, loc, hsplit, hb, hfl, hy, ⟨b0, hb1, hb2, ?_⟩, hbefore, hafter⟩
    · unfold TrySetBreakpoint
      simp only [hne, ne_eq, not_false_eq_true, decide_True]
    · unfold TrySetBreakpoint
      simp only [hne, ne_eq, not_false_eq_true, decide_True, hb3]

/-- What the method loop of a document that yields a match records: a
resolvable method of the document with the largest first line, and the
offset of its first sequence point containing the line. -/
theorem methodLoop_resolved (d : DocumentIndex) (b0 : DbgBreakpoint)
    (hy : yieldsMatch d b0.line_) :
    ∃ m ∈ d.methods, m.resolvable b0.line_ ∧
      (d.methods.foldl methodStep ⟨false, 0, b0⟩).self.method_def_ = m.method_def ∧
      (∃ sp, m.firstSequencePoint b0.line_ = some sp ∧
        (d.methods.foldl methodStep ⟨false, 0, b0⟩).self.il_offset_ = sp.il_offset) ∧
      ∀ m' ∈ d.methods, m'.resolvable b0.line_ → m'.first_line ≤ m.first_line := by
  obtain ⟨-, -, -, h4, h5⟩ := methodLoop_spec d.methods ⟨false, 0, b0⟩
  have hf := (methodLoop_fresh d b0).1.2 hy
  rcases h5 with h | ⟨-, m, hm, hr, -, hbest, b1, hb1, -, hself⟩
  · rw [h] at hf; exact absurd hf (by simp)
  · have hr1 : ∃ sp ∈ m.sequence_points, sp.containsLine b1.line_ := by
      rw [hb1]; exact hr.2
    obtain ⟨sp, hsp, -, hil, hdef⟩ := TrySetBreakpointInMethod_of_resolvable b1 m hr1
    rw [hb1] at hsp
    refine ⟨m, hm, hr, ?_, ⟨sp, hsp, ?_⟩, ?_⟩
    · rw [hself]; exact hdef
    · rw [hself]; exact hil
    · intro m' hm' hr'
      rw [hbest]
      exact h4 m' hm' hr'

/-! ## Claims about `TrySetBreakpoint` -/

/-- C15: innermost-method preference.  When `TrySetBreakpoint` succeeds (on a
table within the 32-bit limits), the chosen document, the one at position
`best_match_index`, has a method whose `[first_line, last_line]` contains the
requested line, with a sequence point containing the line, whose `method_def`
and first such sequence point's offset are the resolved ones, and whose
`first_line` is the largest among all methods of that document with those two
properties, whatever the order of the methods. -/
theorem C15_innermost_method_preference (self : DbgBreakpoint) (docs : PortablePdbFile)
    (hlim : withinLimits docs) (hset : (TrySetBreakpoint self docs).1 = true) :
    ∃ (l1 : List DocumentIndex) (d : DocumentIndex) (l2 : List DocumentIndex),
      docs = l1 ++ d :: l2 ∧ (TrySetBreakpoint_loop self docs).best_match_index = l1.length ∧
      ∃ m ∈ d.methods,
        (m.first_line ≤ self.line_ ∧ self.line_ ≤ m.last_line) ∧
        (∃ sp ∈ m.sequence_points, sp.start_line ≤ self.line_ ∧ self.line_ ≤ sp.end_line) ∧
        (TrySetBreakpoint self docs).2.method_def_ = m.method_def ∧
        (∃ sp, m.firstSequencePoint self.line_ = some sp ∧
          (TrySetBreakpoint self docs).2.il_offset_ = sp.il_offset) ∧
        ∀ m' ∈ d.methods,
          (m'.first_line ≤ self.line_ ∧ self.line_ ≤ m'.last_line) →
          (∃ sp ∈ m'.sequence_points, sp.start_line ≤ self.line_ ∧ self.line_ ≤ sp.end_line) →
          m'.first_line ≤ m.first_line := by
  rcases TrySetBreakpoint_cases self docs hlim with ⟨hf, -⟩ | ⟨-, l1, d, l2, loc, hsplit, hb, -, hy, ⟨b0, hb1, -, hb3⟩, -, -⟩
  · rw [hf] at hset; exact absurd hset (by simp)
  · rw [← hb1] at hy
    obtain ⟨m, hm, hr, hdef, ⟨sp, hsp, hil⟩, hmax⟩ := methodLoop_resolved d b0 hy
    rw [hb1] at hr hsp hmax
    refine ⟨l1, d, l2, hsplit, hb, m, hm, hr.1, hr.2, ?_, ⟨sp, hsp, ?_⟩, ?_⟩
    · rw [hb3]; exact hdef
    · rw [hb3]; exact hil
    · intro m' hm' h1 h2
      exact hmax m' hm' ⟨h1, h2⟩

/-- Witness for C15: an outer method on lines 1-100 (token 1) listed before or
after an inner one on lines 40-60 (token 2); line 50 resolves to the inner
method. -/
theorem C15_innermost_method_preference_witness :
    withinLimits [⟨str "C:\\src\\Foo.cs", [⟨1, 1, 100, [⟨1, 100, 0⟩], []⟩, ⟨2, 40, 60, [⟨40, 60, 7⟩], []⟩]⟩] ∧
    (TrySetBreakpoint (fresh.Initialize (str "Foo.cs") [] 50 0)
      [⟨str "C:\\src\\Foo.cs", [⟨1, 1, 100, [⟨1, 100, 0⟩], []⟩, ⟨2, 40, 60, [⟨40, 60, 7⟩], []⟩]⟩]).1 = true ∧
    (TrySetBreakpoint (fresh.Initialize (str "Foo.cs") [] 50 0)
      [⟨str "C:\\src\\Foo.cs", [⟨1, 1, 100, [⟨1, 100, 0⟩], []⟩, ⟨2, 40, 60, [⟨40, 60, 7⟩], []⟩]⟩]).2.method_def_ = 2 ∧
    (TrySetBreakpoint (fresh.Initialize (str "Foo.cs") [] 50 0)
      [⟨str "C:\\src\\Foo.cs", [⟨2, 40, 60, [⟨40, 60, 7⟩], []⟩, ⟨1, 1, 100, [⟨1, 100, 0⟩], []⟩]⟩]).2.method_def_ = 2 ∧
    (∃ (l1 : List DocumentIndex) (d : DocumentIndex) (l2 : List DocumentIndex),
      [(⟨str "C:\\src\\Foo.cs", [⟨1, 1, 100, [⟨1, 100, 0⟩], []⟩, ⟨2, 40, 60, [⟨40, 60, 7⟩], []⟩]⟩ :
        DocumentIndex)] = l1 ++ d :: l2 ∧
      (TrySetBreakpoint_loop (fresh.Initialize (str "Foo.cs") [] 50 0)
        [⟨str "C:\\src\\Foo.cs", [⟨1, 1, 100, [⟨1, 100, 0⟩], []⟩, ⟨2, 40, 60, [⟨40, 60, 7⟩], []⟩]⟩]).best_match_index
          = l1.length) :=
  ⟨by decide, by decide, by decide, by decide,
    by
      obtain ⟨l1, d, l2, h1, h2, -⟩ := C15_innermost_method_preference
        (fresh.Initialize (str "Foo.cs") [] 50 0)
        [⟨str "C:\\src\\Foo.cs", [⟨1, 1, 100, [⟨1, 100, 0⟩], []⟩, ⟨2, 40, 60, [⟨40, 60, 7⟩], []⟩]⟩]
        (by decide) (by decide)
      exact ⟨l1, d, l2, h1, h2⟩⟩

/-- C19 (as amended): on a table within the 32-bit limits, `TrySetBreakpoint`
returns true, and sets the resolved flag, if and only if some candidate
document contains a method with `first_line ≥ 1` whose
`[first_line, last_line]` contains the requested line and which has a
sequence point whose `[start_line, end_line]` contains it; otherwise it
returns false and the breakpoint stays unresolved. -/
theorem C19_resolves_iff_candidate_yields (self : DbgBreakpoint) (docs : PortablePdbFile)
    (hlim : withinLimits docs) :
    ((TrySetBreakpoint self docs).1 = true ↔
      ∃ d ∈ docs, self.file_name_ <:+ normalizedPath d.file_path ∧
        ∃ m ∈ d.methods, 0 < m.first_line ∧
          (m.first_line ≤ self.line_ ∧ self.line_ ≤ m.last_line) ∧
          ∃ sp ∈ m.sequence_points, sp.start_line ≤ self.line_ ∧ self.line_ ≤ sp.end_line) ∧
    (TrySetBreakpoint self docs).2.set_ = (TrySetBreakpoint self docs).1 := by
  have h64 : ∀ d ∈ docs, d.file_path.length < 2 ^ 64 := fun d hd => by
    have := hlim.2 d hd
    omega
  rcases TrySetBreakpoint_cases self docs hlim with ⟨hf, hst, hno⟩ | ⟨ht, l1, d, l2, loc, hsplit, -, hfl, hy, ⟨b0, -, -, hb3⟩, -, -⟩
  · refine ⟨⟨fun h => ?_, ?_⟩, ?_⟩
    · rw [hf] at h; exact absurd h (by simp)
    · rintro ⟨d, hd, hsuf, m, hm, hpos, hspan, hsp⟩
      exfalso
      have hle := hsuf.length_le
      rw [normalizedPath_length] at hle
      have hloc := (fileNameLocation_eq_some_iff self.file_name_ d (h64 d hd)
        (d.file_path.length - self.file_name_.length)).2 ⟨hsuf, by omega⟩
      exact hno d hd _ hloc ⟨m, hm, ⟨hspan, hsp⟩, hpos⟩
    · rw [hst, hf]
  · have hd : d ∈ docs := by rw [hsplit]; simp
    refine ⟨⟨fun _ => ?_, fun _ => ht⟩, ?_⟩
    · obtain ⟨m, hm, hr, hpos⟩ := hy
      exact ⟨d, hd, ((fileNameLocation_eq_some_iff self.file_name_ d (h64 d hd) loc).1 hfl).1,
        m, hm, hpos, hr.1, hr.2⟩
    · rw [hb3, ht]

/-- Witness for C19 (as amended): one candidate document with a method on lines
1-100 resolves line 50. -/
theorem C19_resolves_iff_candidate_yields_witness :
    withinLimits [⟨str "/src/foo.cs", [⟨1, 1, 100, [⟨1, 100, 0⟩], []⟩]⟩] ∧
    (TrySetBreakpoint (fresh.Initialize (str "foo.cs") [] 50 0)
      [⟨str "/src/foo.cs", [⟨1, 1, 100, [⟨1, 100, 0⟩], []⟩]⟩]).2.set_ =
    (TrySetBreakpoint (fresh.Initialize (str "foo.cs") [] 50 0)
      [⟨str "/src/foo.cs", [⟨1, 1, 100, [⟨1, 100, 0⟩], []⟩]⟩]).1 :=
  ⟨by decide, (C19_resolves_iff_candidate_yields (fresh.Initialize (str "foo.cs") [] 50 0)
    [⟨str "/src/foo.cs", [⟨1, 1, 100, [⟨1, 100, 0⟩], []⟩]⟩] (by decide)).2⟩

/-- Counterexample to C19 as stated: the document `foo.cs` is a candidate for
the request `foo.cs` and its only method spans lines 0-10 with a sequence
point on lines 0-10, so line 5 is contained in both; yet `TrySetBreakpoint`
returns false, because the method's `first_line` 0 does not exceed the
initial best first line 0. -/
theorem C19_counterexample :
    fileNameLocation (fresh.Initialize (str "foo.cs") [] 5 0).file_name_
      ⟨str "foo.cs", [⟨1, 0, 10, [⟨0, 10, 0⟩], []⟩]⟩ = some 0 ∧
    (⟨1, 0, 10, [⟨0, 10, 0⟩], []⟩ : MethodInfo).resolvable 5 ∧
    (TrySetBreakpoint (fresh.Initialize (str "foo.cs") [] 5 0)
      [⟨str "foo.cs", [⟨1, 0, 10, [⟨0, 10, 0⟩], []⟩]⟩]).1 = false := by
  decide

/-- C20: failed resolution does not mutate resolved state.  On a table within
the 32-bit limits, if `TrySetBreakpoint` returns false then the instruction
offset, method, local variables and local constants are as before the call
and the resolved flag is false; this is the case in particular when the
requested name is a suffix of no normalized document path; and for a freshly
constructed and initialized breakpoint the resolved fields are still empty. -/
theorem C20_failure_leaves_resolved_state (docs : PortablePdbFile) (hlim : withinLimits docs) :
    (∀ self : DbgBreakpoint, (TrySetBreakpoint self docs).1 = false →
      (TrySetBreakpoint self docs).2.il_offset_ = self.il_offset_ ∧
      (TrySetBreakpoint self docs).2.method_def_ = self.method_def_ ∧
      (TrySetBreakpoint self docs).2.local_variables_ = self.local_variables_ ∧
      (TrySetBreakpoint self docs).2.local_constants_ = self.local_constants_ ∧
      (TrySetBreakpoint self docs).2.set_ = false ∧
      (TrySetBreakpoint self docs).2 = { self with set_ := false }) ∧
    (∀ self : DbgBreakpoint,
      (∀ d ∈ docs, ¬ self.file_name_ <:+ normalizedPath d.file_path) →
      (TrySetBreakpoint self docs).1 = false) ∧
    (∀ (file_name id : List Byte) (line column : Nat),
      (TrySetBreakpoint (fresh.Initialize file_name id line column) docs).1 = false →
      (TrySetBreakpoint (fresh.Initialize file_name id line column) docs).2.il_offset_ = 0 ∧
      (TrySetBreakpoint (fresh.Initialize file_name id line column) docs).2.method_def_ = 0 ∧
      (TrySetBreakpoint (fresh.Initialize file_name id line column) docs).2.local_variables_ = [] ∧
      (TrySetBreakpoint (fresh.Initialize file_name id line column) docs).2.local_constants_ = [] ∧
      (TrySetBreakpoint (fresh.Initialize file_name id line column) docs).2.set_ = false) := by
  have key : ∀ self : DbgBreakpoint, (TrySetBreakpoint self docs).1 = false →
      (TrySetBreakpoint self docs).2 = { self with set_ := false } := by
    intro self hfail
    rcases TrySetBreakpoint_cases self docs hlim with ⟨-, hst, -⟩ | ⟨ht, -⟩
    · exact hst
    · rw [ht] at hfail; exact absurd hfail (by simp)
  refine ⟨?_, ?_, ?_⟩
  · intro self hfail
    have := key self hfail
    rw [this]
    exact ⟨rfl, rfl, rfl, rfl, rfl, rfl⟩
  · intro self hns
    rcases TrySetBreakpoint_cases self docs hlim with ⟨hf, -⟩ | ⟨-, l1, d, l2, loc, hsplit, -, hfl, -⟩
    · exact hf
    · exfalso
      have hd : d ∈ docs := by rw [hsplit]; simp
      have h64 : d.file_path.length < 2 ^ 64 := by
        have := hlim.2 d hd
        omega
      exact hns d hd ((fileNameLocation_eq_some_iff self.file_name_ d h64 loc).1 hfl).1
  · intro file_name id line column hfail
    have := key _ hfail
    rw [this]
    exact ⟨rfl, rfl, rfl, rfl, rfl⟩

/-- Witness for C20: the request `bar.cs` matches no document, and a breakpoint
that carried offset 9 and method 3 keeps them. -/
theorem C20_failure_leaves_resolved_state_witness :
    withinLimits [⟨str "/src/foo.cs", [⟨1, 1, 100, [⟨1, 100, 0⟩], []⟩]⟩] ∧
    (TrySetBreakpoint ⟨true, 50, 0, str "bar.cs", [], 9, 3, 0, [], [⟨"v"⟩], []⟩
      [⟨str "/src/foo.cs", [⟨1, 1, 100, [⟨1, 100, 0⟩], []⟩]⟩]).1 = false ∧
    (TrySetBreakpoint ⟨true, 50, 0, str "bar.cs", [], 9, 3, 0, [], [⟨"v"⟩], []⟩
      [⟨str "/src/foo.cs", [⟨1, 1, 100, [⟨1, 100, 0⟩], []⟩]⟩]).2
      = ⟨false, 50, 0, str "bar.cs", [], 9, 3, 0, [], [⟨"v"⟩], []⟩ :=
  ⟨by decide, by decide,
    ((C20_failure_leaves_resolved_state [⟨str "/src/foo.cs", [⟨1, 1, 100, [⟨1, 100, 0⟩], []⟩]⟩]
      (by decide)).1 ⟨true, 50, 0, str "bar.cs", [], 9, 3, 0, [], [⟨"v"⟩], []⟩ (by decide)).2.2.2.2.2⟩

/-- C18 (as amended): document preference.  When `TrySetBreakpoint` succeeds (on a
table within the 32-bit limits), the document it resolves against, the one at
position `best_match_index`, is a candidate that yields a match, and among
all such documents it is one whose match of the requested name starts
earliest in its path, that is, a matching file with the shortest path. -/
theorem C18_prefers_earliest_match (self : DbgBreakpoint) (docs : PortablePdbFile)
    (hlim : withinLimits docs) (hset : (TrySetBreakpoint self docs).1 = true) :
    ∃ (l1 : List DocumentIndex) (d : DocumentIndex) (l2 : List DocumentIndex),
      docs = l1 ++ d :: l2 ∧ (TrySetBreakpoint_loop self docs).best_match_index = l1.length ∧
      self.file_name_ <:+ normalizedPath d.file_path ∧ yieldsMatch d self.line_ ∧
      (∃ m ∈ d.methods, (TrySetBreakpoint self docs).2.method_def_ = m.method_def) ∧
      ∀ d' ∈ docs, self.file_name_ <:+ normalizedPath d'.file_path → yieldsMatch d' self.line_ →
        d.file_path.length - self.file_name_.length
          ≤ d'.file_path.length - self.file_name_.length ∧
        d.file_path.length ≤ d'.file_path.length := by
  have h64 : ∀ d ∈ docs, d.file_path.length < 2 ^ 64 := fun d hd => by
    have := hlim.2 d hd
    omega
  rcases TrySetBreakpoint_cases self docs hlim with ⟨hf, -⟩ | ⟨-, l1, d, l2, loc, hsplit, hb, hfl, hy, ⟨b0, hb1, -, hb3⟩, hbefore, hafter⟩
  · rw [hf] at hset; exact absurd hset (by simp)
  · have hd : d ∈ docs := by rw [hsplit]; simp
    obtain ⟨hsuf, hsum⟩ := (fileNameLocation_eq_some_iff self.file_name_ d (h64 d hd) loc).1 hfl
    have hy0 := hy
    rw [← hb1] at hy0
    obtain ⟨m, hm, -, hdef, -, -⟩ := methodLoop_resolved d b0 hy0
    refine ⟨l1, d, l2, hsplit, hb, hsuf, hy, ⟨m, hm, by rw [hb3]; exact hdef⟩, ?_⟩
    intro d' hd' hsuf' hy'
    have hle' := hsuf'.length_le
    rw [normalizedPath_length] at hle'
    have hloc' := (fileNameLocation_eq_some_iff self.file_name_ d' (h64 d' hd')
      (d'.file_path.length - self.file_name_.length)).2 ⟨hsuf', by omega⟩
    have hcmp : loc ≤ d'.file_path.length - self.file_name_.length := by
      rw [hsplit] at hd'
      rcases List.mem_append.1 hd' with hin | hin
      · exact Nat.le_of_lt (hbefore d' hin _ hloc' hy')
      · rcases List.mem_cons.1 hin with heq | hin2
        · subst heq
          rw [hfl] at hloc'
          exact Nat.le_of_eq (Option.some.inj hloc')
        · exact hafter d' hin2 _ hloc' hy'
    constructor <;> omega

/-- Witness for C18 (as amended): of `/a/b/foo.cs` and `/a/foo.cs`, both matching
`foo.cs` and both resolvable, the second one (position 1) is chosen. -/
theorem C18_prefers_earliest_match_witness :
    withinLimits [⟨str "/a/b/foo.cs", [⟨1, 1, 100, [⟨1, 100, 0⟩], []⟩]⟩,
      ⟨str "/a/foo.cs", [⟨2, 40, 60, [⟨40, 60, 7⟩], []⟩]⟩] ∧
    (TrySetBreakpoint_loop (fresh.Initialize (str "foo.cs") [] 50 0)
      [⟨str "/a/b/foo.cs", [⟨1, 1, 100, [⟨1, 100, 0⟩], []⟩]⟩,
        ⟨str "/a/foo.cs", [⟨2, 40, 60, [⟨40, 60, 7⟩], []⟩]⟩]).best_match_index = 1 ∧
    (∃ (l1 : List DocumentIndex) (d : DocumentIndex) (l2 : List DocumentIndex),
      [(⟨str "/a/b/foo.cs", [⟨1, 1, 100, [⟨1, 100, 0⟩], []⟩]⟩ : DocumentIndex),
        ⟨str "/a/foo.cs", [⟨2, 40, 60, [⟨40, 60, 7⟩], []⟩]⟩] = l1 ++ d :: l2 ∧
      (TrySetBreakpoint_loop (fresh.Initialize (str "foo.cs") [] 50 0)
        [⟨str "/a/b/foo.cs", [⟨1, 1, 100, [⟨1, 100, 0⟩], []⟩]⟩,
          ⟨str "/a/foo.cs", [⟨2, 40, 60, [⟨40, 60, 7⟩], []⟩]⟩]).best_match_index = l1.length) :=
  ⟨by decide, by decide,
    by
      obtain ⟨l1, d, l2, h1, h2, -⟩ := C18_prefers_earliest_match
        (fresh.Initialize (str "foo.cs") [] 50 0)
        [⟨str "/a/b/foo.cs", [⟨1, 1, 100, [⟨1, 100, 0⟩], []⟩]⟩,
          ⟨str "/a/foo.cs", [⟨2, 40, 60, [⟨40, 60, 7⟩], []⟩]⟩]
        (by decide) (by decide)
      exact ⟨l1, d, l2, h1, h2⟩⟩

/-- Counterexample to C18 as stated: the documents `/a/b/foo.cs` (method token 1)
and `/a/foo.cs` (method token 2) are both candidates for `foo.cs`, with the
match starting at 5 and at 3, and both resolve line 50; in either order the
breakpoint resolves against `/a/foo.cs`, whose match starts earlier and whose
path is the shorter one. -/
theorem C18_counterexample :
    fileNameLocation (str "foo.cs") ⟨str "/a/b/foo.cs", [⟨1, 1, 100, [⟨1, 100, 0⟩], []⟩]⟩ = some 5 ∧
    fileNameLocation (str "foo.cs") ⟨str "/a/foo.cs", [⟨2, 40, 60, [⟨40, 60, 7⟩], []⟩]⟩ = some 3 ∧
    yieldsMatch ⟨str "/a/b/foo.cs", [⟨1, 1, 100, [⟨1, 100, 0⟩], []⟩]⟩ 50 ∧
    yieldsMatch ⟨str "/a/foo.cs", [⟨2, 40, 60, [⟨40, 60, 7⟩], []⟩]⟩ 50 ∧
    (TrySetBreakpoint (fresh.Initialize (str "foo.cs") [] 50 0)
      [⟨str "/a/b/foo.cs", [⟨1, 1, 100, [⟨1, 100, 0⟩], []⟩]⟩,
        ⟨str "/a/foo.cs", [⟨2, 40, 60, [⟨40, 60, 7⟩], []⟩]⟩]).2.method_def_ = 2 ∧
    (TrySetBreakpoint (fresh.Initialize (str "foo.cs") [] 50 0)
      [⟨str "/a/foo.cs", [⟨2, 40, 60, [⟨40, 60, 7⟩], []⟩]⟩,
        ⟨str "/a/b/foo.cs", [⟨1, 1, 100, [⟨1, 100, 0⟩], []⟩]⟩]).2.method_def_ = 2 := by
  decide

/-! ## Normalization of the two sides of the match -/

set_option maxRecDepth 100000 in
theorem tolower_idem : ∀ c : Byte, tolower (tolower c) = tolower c := by decide

set_option maxRecDepth 100000 in
theorem normalize_byte_idem : ∀ c : Byte,
    tolower (if tolower (if c = 0x5C then 0x2F else c) = 0x5C then 0x2F
      else tolower (if c = 0x5C then 0x2F else c)) = tolower (if c = 0x5C then 0x2F else c) := by
  decide

theorem normalizedPath_idem (p : List Byte) : normalizedPath (normalizedPath p) = normalizedPath p := by
  unfold normalizedPath
  simp only [List.map_map]
  apply List.map_congr_left
  intro c _
  exact normalize_byte_idem c

/-- The checks of lines 82 to 98 in terms of the normalized path. -/
theorem fileNameLocation_eq (f : List Byte) (d : DocumentIndex) :
    fileNameLocation f d =
      if d.file_path.length < f.length then none
      else if (rfind (normalizedPath d.file_path) f + f.length) % 2 ^ 64 ≠ d.file_path.length
        then none
      else some (rfind (normalizedPath d.file_path) f) := by
  unfold fileNameLocation normalizedPath
  simp only [List.length_map]

/-- C14 (as amended): path matching lower-cases both sides and normalizes
separators on the document side only.  A breakpoint initialized with `f`
resolves exactly as one initialized with `f` lower-cased, the stored name
being `f` lower-cased with its backslashes kept; and a document is matched
exactly as the document whose path is already lower-cased with every `\`
replaced by `/`. -/
theorem C14_request_lowercased_document_normalized (self : DbgBreakpoint) (f id : List Byte)
    (line column : Nat) (docs : PortablePdbFile) :
    TrySetBreakpoint (self.Initialize f id line column) docs
      = TrySetBreakpoint (self.Initialize (f.map tolower) id line column) docs ∧
    (self.Initialize f id line column).file_name_ = f.map tolower ∧
    (∀ (g : List Byte) (d : DocumentIndex),
      fileNameLocation g d = fileNameLocation g ⟨normalizedPath d.file_path, d.methods⟩) := by
  have hinit : self.Initialize f id line column
      = self.Initialize (f.map tolower) id line column := by
    unfold Initialize
    have : (f.map tolower).map tolower = f.map tolower := by
      rw [List.map_map]
      apply List.map_congr_left
      intro c _
      exact tolower_idem c
    rw [this]
  refine ⟨by rw [← hinit], rfl, ?_⟩
  intro g d
  rw [fileNameLocation_eq, fileNameLocation_eq]
  simp only [normalizedPath_idem, normalizedPath_length]

/-- Counterexample to C14 as stated: against the document `C:\src\A\Foo.cs`, a
breakpoint initialized with `A\Foo.cs` is not resolved, whereas one
initialized with its lower-cased, slash-normalized form `a/foo.cs` is. -/
theorem C14_counterexample :
    normalizedPath (str "A\\Foo.cs") = str "a/foo.cs" ∧
    (fresh.Initialize (str "A\\Foo.cs") [] 50 0).file_name_ = str "a\\foo.cs" ∧
    (TrySetBreakpoint (fresh.Initialize (str "A\\Foo.cs") [] 50 0)
      [⟨str "C:\\src\\A\\Foo.cs", [⟨1, 1, 100, [⟨1, 100, 0⟩], []⟩]⟩]).1 = false ∧
    (TrySetBreakpoint (fresh.Initialize (normalizedPath (str "A\\Foo.cs")) [] 50 0)
      [⟨str "C:\\src\\A\\Foo.cs", [⟨1, 1, 100, [⟨1, 100, 0⟩], []⟩]⟩]).1 = true ∧
    (TrySetBreakpoint (fresh.Initialize (str "A/Foo.cs") [] 50 0)
      [⟨str "C:\\src\\A\\Foo.cs", [⟨1, 1, 100, [⟨1, 100, 0⟩], []⟩]⟩]).1 = true := by
  decide

/-! ## The resolver as an update of the breakpoint -/

theorem Update.apply_none (b : DbgBreakpoint) : (⟨none, none⟩ : Update).apply b = b := rfl

theorem Update.apply_after (u2 u1 : Update) (b : DbgBreakpoint) :
    (u2.after u1).apply b = u2.apply (u1.apply b) := by
  obtain ⟨l2, v2⟩ := u2
  obtain ⟨l1, v1⟩ := u1
  cases l2 <;> cases v2 <;> cases l1 <;> cases v1 <;> rfl

theorem Update.apply_idem (u : Update) (b : DbgBreakpoint) (r : Bool) :
    ({ u.apply { u.apply b with set_ := r } with set_ := r } : DbgBreakpoint)
      = { u.apply b with set_ := r } := by
  obtain ⟨l, v⟩ := u
  cases l <;> cases v <;> rfl

theorem Update.apply_line (u : Update) (b : DbgBreakpoint) : (u.apply b).line_ = b.line_ := rfl

theorem Update.apply_file_name (u : Update) (b : DbgBreakpoint) :
    (u.apply b).file_name_ = b.file_name_ := rfl

/-- The scope loop is an update that depends on the offset only. -/
theorem scopeLoop_update (scopes : List LocalScopeRow) (il : Nat) :
    ∃ u : Update, u.location = none ∧
      ∀ b : DbgBreakpoint, b.il_offset_ = il → scopes.foldl scopeStep b = u.apply b := by
  induction scopes using List.reverseRecOn with
  | nil => exact ⟨⟨none, none⟩, rfl, fun b _ => rfl⟩
  | append_singleton t a ih =>
    obtain ⟨u, hu0, hu⟩ := ih
    by_cases hout : a.start_offset > il ∨ (a.start_offset + a.length) % 2 ^ 32 < il
    · refine ⟨u, hu0, fun b hb => ?_⟩
      rw [List.foldl_append, List.foldl_cons, List.foldl_nil]
      have hil : (t.foldl scopeStep b).il_offset_ = il := (scopeLoop_frame t b).1.trans hb
      rw [scopeStep_of_outside _ _ (by rw [hil]; exact hout)]
      exact hu b hb
    · refine ⟨⟨none, some (a.local_variables, a.local_constants)⟩, rfl, fun b hb => ?_⟩
      rw [List.foldl_append, List.foldl_cons, List.foldl_nil]
      have hil : (t.foldl scopeStep b).il_offset_ = il := (scopeLoop_frame t b).1.trans hb
      rw [scopeStep_of_inside _ _ (by rw [hil]; exact hout), hu b hb]
      obtain ⟨l, v⟩ := u
      simp only at hu0
      subst hu0
      cases v <;> rfl

/-- The function `TrySetBreakpointInMethod` returns a flag and makes an update
that depend on the line only. -/
theorem TrySetBreakpointInMethod_update (line : Nat) (m : MethodInfo) :
    ∃ (ok : Bool) (u : Update),
      ∀ b : DbgBreakpoint, b.line_ = line → TrySetBreakpointInMethod b m = (ok, u.apply b) := by
  cases hf : m.firstSequencePoint line with
  | none =>
    refine ⟨false, ⟨none, none⟩, fun b hb => ?_⟩
    rw [TrySetBreakpointInMethod_eq, hb, hf]
    rfl
  | some sp =>
    obtain ⟨u, -, hu⟩ := scopeLoop_update m.local_scope sp.il_offset
    refine ⟨true, u.after ⟨some (sp.il_offset, m.method_def), none⟩, fun b hb => ?_⟩
    subst hb
    rw [TrySetBreakpointInMethod_eq, hf, Update.apply_after]
    show (true, m.local_scope.foldl scopeStep
      { b with il_offset_ := sp.il_offset, method_def_ := m.method_def }) = _
    rw [hu _ rfl]
    rfl

/-- One iteration of the method loop, as a function of the line and the two
loop variables. -/
theorem methodStep_update (line : Nat) (found : Bool) (best : Nat) (m : MethodInfo) :
    ∃ (found' : Bool) (best' : Nat) (u : Update),
      ∀ st : MethodLoop, st.found_breakpoint = found → st.best_matched_method_first_line = best →
        st.self.line_ = line → methodStep st m = ⟨found', best', u.apply st.self⟩ := by
  by_cases hout : m.first_line > line ∨ m.last_line < line
  · refine ⟨found, best, ⟨none, none⟩, fun st h1 h2 h3 => ?_⟩
    unfold methodStep
    rw [h3, if_pos hout, ← h1, ← h2]
    rfl
  · by_cases hgt : m.first_line > best
    · obtain ⟨ok, u, hu⟩ := TrySetBreakpointInMethod_update line m
      cases ok with
      | true =>
        refine ⟨true, m.first_line, u, fun st h1 h2 h3 => ?_⟩
        unfold methodStep
        rw [h3, if_neg hout, h2, if_pos hgt, hu st.self h3]
      | false =>
        refine ⟨found, best, u, fun st h1 h2 h3 => ?_⟩
        unfold methodStep
        rw [h3, if_neg hout, h2, if_pos hgt, hu st.self h3, ← h1, ← h2]
    · refine ⟨found, best, ⟨none, none⟩, fun st h1 h2 h3 => ?_⟩
      unfold methodStep
      rw [h3, if_neg hout, h2, if_neg hgt, ← h1, ← h2]
      rfl

/-- The method loop, as a function of the line and the two loop variables. -/
theorem methodLoop_update (line : Nat) (ms : List MethodInfo) : ∀ (found : Bool) (best : Nat),
    ∃ (found' : Bool) (best' : Nat) (u : Update),
      ∀ st : MethodLoop, st.found_breakpoint = found → st.best_matched_method_first_line = best →
        st.self.line_ = line → ms.foldl methodStep st = ⟨found', best', u.apply st.self⟩ := by
  induction ms with
  | nil =>
    intro found best
    refine ⟨found, best, ⟨none, none⟩, fun st h1 h2 _ => ?_⟩
    rw [List.foldl_nil, ← h1, ← h2]
    rfl
  | cons m t ih =>
    intro found best
    obtain ⟨f1, b1, u1, h1⟩ := methodStep_update line found best m
    obtain ⟨f2, b2, u2, h2⟩ := ih f1 b1
    refine ⟨f2, b2, u2.after u1, fun st hf hb hl => ?_⟩
    rw [List.foldl_cons, h1 st hf hb hl, h2 ⟨f1, b1, u1.apply st.self⟩ rfl rfl hl,
      Update.apply_after]

/-- One iteration of the document loop, as a function of the request and the
loop variables. -/
theorem documentStep_update (docs : List DocumentIndex) (f : List Byte) (line : Nat)
    (cur bidx bloc : Nat) (d : DocumentIndex) :
    ∃ (cur' bidx' bloc' : Nat) (u : Update),
      ∀ st : DocumentLoop, st.current_doc_index_index = cur → st.best_match_index = bidx →
        st.best_file_name_location_matched = bloc → st.self.file_name_ = f →
        st.self.line_ = line → documentStep docs st d = ⟨cur', bidx', bloc', u.apply st.self⟩ := by
  cases hfl : fileNameLocation f d with
  | none =>
    refine ⟨(cur + 1) % 2 ^ 32, bidx, bloc, ⟨none, none⟩, fun st h1 h2 h3 h4 h5 => ?_⟩
    rw [documentStep_of_none docs st d (by rw [h4]; exact hfl), h1, ← h2, ← h3]
    rfl
  | some loc =>
    by_cases hlt : loc < bloc
    · cases hget : docs[(cur + 1) % 2 ^ 32]? with
      | none =>
        refine ⟨(cur + 1) % 2 ^ 32, bidx, bloc, ⟨none, none⟩, fun st h1 h2 h3 h4 h5 => ?_⟩
        unfold documentStep
        simp only [h4, hfl, h3, hlt, if_true, h1, hget]
        rw [← h2]
        rfl
      | some matched_doc =>
        obtain ⟨fd, bf, u, hu⟩ := methodLoop_update line matched_doc.methods false 0
        cases fd with
        | true =>
          refine ⟨(cur + 1) % 2 ^ 32, (cur + 1) % 2 ^ 32, loc, u, fun st h1 h2 h3 h4 h5 => ?_⟩
          unfold documentStep
          simp only [h4, hfl, h3, hlt, if_true, h1, hget]
          rw [hu ⟨false, 0, st.self⟩ rfl rfl h5]
          rfl
        | false =>
          refine ⟨(cur + 1) % 2 ^ 32, bidx, bloc, u, fun st h1 h2 h3 h4 h5 => ?_⟩
          unfold documentStep
          simp only [h4, hfl, h3, hlt, if_true, h1, hget]
          rw [hu ⟨false, 0, st.self⟩ rfl rfl h5, ← h2]
          rfl
    · refine ⟨(cur + 1) % 2 ^ 32, bidx, bloc, ⟨none, none⟩, fun st h1 h2 h3 h4 h5 => ?_⟩
      unfold documentStep
      simp only [h4, hfl, h3, hlt, if_false, h1]
      rw [← h2]
      rfl

/-- The document loop, as a function of the request and the loop variables. -/
theorem documentLoop_update (docs : List DocumentIndex) (f : List Byte) (line : Nat)
    (rest : List DocumentIndex) : ∀ (cur bidx bloc : Nat),
    ∃ (cur' bidx' bloc' : Nat) (u : Update),
      ∀ st : DocumentLoop, st.current_doc_index_index = cur → st.best_match_index = bidx →
        st.best_file_name_location_matched = bloc → st.self.file_name_ = f →
        st.self.line_ = line →
        rest.foldl (documentStep docs) st = ⟨cur', bidx', bloc', u.apply st.self⟩ := by
  induction rest with
  | nil =>
    intro cur bidx bloc
    refine ⟨cur, bidx, bloc, ⟨none, none⟩, fun st h1 h2 h3 _ _ => ?_⟩
    rw [List.foldl_nil, ← h1, ← h2, ← h3]
    rfl
  | cons d t ih =>
    intro cur bidx bloc
    obtain ⟨c1, i1, l1, u1, h1⟩ := documentStep_update docs f line cur bidx bloc d
    obtain ⟨c2, i2, l2, u2, h2⟩ := ih c1 i1 l1
    refine ⟨c2, i2, l2, u2.after u1, fun st hc hi hl hf hn => ?_⟩
    rw [List.foldl_cons, h1 st hc hi hl hf hn, h2 ⟨c1, i1, l1, u1.apply st.self⟩ rfl rfl rfl hf hn,
      Update.apply_after]

/-- The function `TrySetBreakpoint` returns a flag and makes an update that
depend on the stored file name, the line and the documents only. -/
theorem TrySetBreakpoint_update (f : List Byte) (line : Nat) (docs : PortablePdbFile) :
    ∃ (r : Bool) (u : Update), ∀ b : DbgBreakpoint, b.file_name_ = f → b.line_ = line →
      TrySetBreakpoint b docs = (r, { u.apply b with set_ := r }) := by
  obtain ⟨c, i, l, u, h⟩ := documentLoop_update docs f line docs UINT32_MAX UINT32_MAX UINT32_MAX
  refine ⟨decide (i ≠ UINT32_MAX), u, fun b hf hl => ?_⟩
  unfold TrySetBreakpoint TrySetBreakpoint_loop
  rw [h ⟨UINT32_MAX, UINT32_MAX, UINT32_MAX, b⟩ rfl rfl rfl hf hl]

/-- C21: re-invocation is idempotent.  For every breakpoint state `b` and every
document collection `d`, running `TrySetBreakpoint` on `d` a second time
returns the same result as the first run and leaves the breakpoint in the
state the first run left it in. -/
theorem C21_TrySetBreakpoint_idempotent (b : DbgBreakpoint) (d : PortablePdbFile) :
    TrySetBreakpoint (TrySetBreakpoint b d).2 d = TrySetBreakpoint b d := by
  obtain ⟨r, u, h⟩ := TrySetBreakpoint_update b.file_name_ b.line_ d
  rw [h b rfl rfl]
  rw [h { u.apply b with set_ := r } rfl rfl, Update.apply_idem]

/-- C22: the requested column does not influence resolution.  For every file
name, line, document collection and any two columns, breakpoints initialized
with one and with the other get the same `TrySetBreakpoint` result, resolved
flag, method, instruction offset, local variables and local constants. -/
theorem C22_column_does_not_influence_resolution (self : DbgBreakpoint) (file_name id : List Byte)
    (line c1 c2 : Nat) (docs : PortablePdbFile) :
    (TrySetBreakpoint (self.Initialize file_name id line c1) docs).1
      = (TrySetBreakpoint (self.Initialize file_name id line c2) docs).1 ∧
    (TrySetBreakpoint (self.Initialize file_name id line c1) docs).2.set_
      = (TrySetBreakpoint (self.Initialize file_name id line c2) docs).2.set_ ∧
    (TrySetBreakpoint (self.Initialize file_name id line c1) docs).2.method_def_
      = (TrySetBreakpoint (self.Initialize file_name id line c2) docs).2.method_def_ ∧
    (TrySetBreakpoint (self.Initialize file_name id line c1) docs).2.il_offset_
      = (TrySetBreakpoint (self.Initialize file_name id line c2) docs).2.il_offset_ ∧
    (TrySetBreakpoint (self.Initialize file_name id line c1) docs).2.local_variables_
      = (TrySetBreakpoint (self.Initialize file_name id line c2) docs).2.local_variables_ ∧
    (TrySetBreakpoint (self.Initialize file_name id line c1) docs).2.local_constants_
      = (TrySetBreakpoint (self.Initialize file_name id line c2) docs).2.local_constants_ := by
  obtain ⟨r, u, h⟩ := TrySetBreakpoint_update (file_name.map tolower) line docs
  rw [h (self.Initialize file_name id line c1) rfl rfl,
    h (self.Initialize file_name id line c2) rfl rfl]
  obtain ⟨l, v⟩ := u
  cases l <;> cases v <;> exact ⟨rfl, rfl, rfl, rfl, rfl, rfl⟩

/-! ## Tie-break between documents and stale locals -/

/-- C24 (as amended): when `TrySetBreakpoint` succeeds (on a table within the
32-bit limits), the document it resolves against is a candidate that yields
a match, that is, has a resolvable method with `first_line ≥ 1`; its match
offset, the path length minus the length of the requested name, is strictly
smaller than that of every such document before it and not larger than that
of any such document after it, so it has the smallest offset and is the
first with that offset; a candidate that yields no match is never the one
resolved against. -/
theorem C24_smallest_offset_first_in_order (self : DbgBreakpoint) (docs : PortablePdbFile)
    (hlim : withinLimits docs) (hset : (TrySetBreakpoint self docs).1 = true) :
    ∃ (l1 : List DocumentIndex) (d : DocumentIndex) (l2 : List DocumentIndex),
      docs = l1 ++ d :: l2 ∧ (TrySetBreakpoint_loop self docs).best_match_index = l1.length ∧
      self.file_name_ <:+ normalizedPath d.file_path ∧ yieldsMatch d self.line_ ∧
      (∃ m ∈ d.methods, m.resolvable self.line_ ∧
        (TrySetBreakpoint self docs).2.method_def_ = m.method_def) ∧
      (∀ d' ∈ l1, self.file_name_ <:+ normalizedPath d'.file_path → yieldsMatch d' self.line_ →
        d.file_path.length - self.file_name_.length
          < d'.file_path.length - self.file_name_.length) ∧
      (∀ d' ∈ l2, self.file_name_ <:+ normalizedPath d'.file_path → yieldsMatch d' self.line_ →
        d.file_path.length - self.file_name_.length
          ≤ d'.file_path.length - self.file_name_.length) := by
  have h64 : ∀ d ∈ docs, d.file_path.length < 2 ^ 64 := fun d hd => by
    have := hlim.2 d hd
    omega
  have hlocOf : ∀ d' ∈ docs, self.file_name_ <:+ normalizedPath d'.file_path →
      fileNameLocation self.file_name_ d'
        = some (d'.file_path.length - self.file_name_.length) := by
    intro d' hd' hsuf'
    have hle' := hsuf'.length_le
    rw [normalizedPath_length] at hle'
    exact (fileNameLocation_eq_some_iff self.file_name_ d' (h64 d' hd') _).2 ⟨hsuf', by omega⟩
  rcases TrySetBreakpoint_cases self docs hlim with ⟨hf, -⟩ | ⟨-, l1, d, l2, loc, hsplit, hb, hfl, hy, ⟨b0, hb1, -, hb3⟩, hbefore, hafter⟩
  · rw [hf] at hset; exact absurd hset (by simp)
  · have hd : d ∈ docs := by rw [hsplit]; simp
    obtain ⟨hsuf, hsum⟩ := (fileNameLocation_eq_some_iff self.file_name_ d (h64 d hd) loc).1 hfl
    have hloc : loc = d.file_path.length - self.file_name_.length := by omega
    have hy0 := hy
    rw [← hb1] at hy0
    obtain ⟨m, hm, hr, hdef, -, -⟩ := methodLoop_resolved d b0 hy0
    rw [hb1] at hr
    refine ⟨l1, d, l2, hsplit, hb, hsuf, hy, ⟨m, hm, hr, by rw [hb3]; exact hdef⟩, ?_, ?_⟩
    · intro d' hd' hsuf' hy'
      have hmem : d' ∈ docs := by rw [hsplit]; exact List.mem_append_left _ hd'
      rw [← hloc]
      exact hbefore d' hd' _ (hlocOf d' hmem hsuf') hy'
    · intro d' hd' hsuf' hy'
      have hmem : d' ∈ docs := by
        rw [hsplit]; exact List.mem_append_right _ (List.mem_cons_of_mem _ hd')
      rw [← hloc]
      exact hafter d' hd' _ (hlocOf d' hmem hsuf') hy'

/-- Witness for C24 (as amended): `/x/foo.cs` and `/y/foo.cs` match `foo.cs` at the
same offset and both resolve line 50; the first one (position 0) is chosen. -/
theorem C24_smallest_offset_first_in_order_witness :
    withinLimits [⟨str "/x/foo.cs", [⟨1, 1, 100, [⟨1, 100, 0⟩], []⟩]⟩,
      ⟨str "/y/foo.cs", [⟨2, 40, 60, [⟨40, 60, 7⟩], []⟩]⟩] ∧
    (TrySetBreakpoint (fresh.Initialize (str "foo.cs") [] 50 0)
      [⟨str "/x/foo.cs", [⟨1, 1, 100, [⟨1, 100, 0⟩], []⟩]⟩,
        ⟨str "/y/foo.cs", [⟨2, 40, 60, [⟨40, 60, 7⟩], []⟩]⟩]).2.method_def_ = 1 ∧
    (∃ (l1 : List DocumentIndex) (d : DocumentIndex) (l2 : List DocumentIndex),
      [(⟨str "/x/foo.cs", [⟨1, 1, 100, [⟨1, 100, 0⟩], []⟩]⟩ : DocumentIndex),
        ⟨str "/y/foo.cs", [⟨2, 40, 60, [⟨40, 60, 7⟩], []⟩]⟩] = l1 ++ d :: l2 ∧
      (TrySetBreakpoint_loop (fresh.Initialize (str "foo.cs") [] 50 0)
        [⟨str "/x/foo.cs", [⟨1, 1, 100, [⟨1, 100, 0⟩], []⟩]⟩,
          ⟨str "/y/foo.cs", [⟨2, 40, 60, [⟨40, 60, 7⟩], []⟩]⟩]).best_match_index = l1.length) :=
  ⟨by decide, by decide,
    by
      obtain ⟨l1, d, l2, h1, h2, -⟩ := C24_smallest_offset_first_in_order
        (fresh.Initialize (str "foo.cs") [] 50 0)
        [⟨str "/x/foo.cs", [⟨1, 1, 100, [⟨1, 100, 0⟩], []⟩]⟩,
          ⟨str "/y/foo.cs", [⟨2, 40, 60, [⟨40, 60, 7⟩], []⟩]⟩]
        (by decide) (by decide)
      exact ⟨l1, d, l2, h1, h2⟩⟩

/-- Counterexample to C24 as stated: `foo.cs` matches the request at offset 0 and
its method (token 1, lines 0-10) has a sequence point containing line 5,
`/a/foo.cs` matches at offset 3 with a method (token 2, lines 1-10) that
resolves line 5; the breakpoint resolves against `/a/foo.cs`, the document
with the larger offset, because a method whose `first_line` is 0 is never
tried. -/
theorem C24_counterexample :
    fileNameLocation (str "foo.cs") ⟨str "foo.cs", [⟨1, 0, 10, [⟨0, 10, 0⟩], []⟩]⟩ = some 0 ∧
    (⟨1, 0, 10, [⟨0, 10, 0⟩], []⟩ : MethodInfo).resolvable 5 ∧
    fileNameLocation (str "foo.cs") ⟨str "/a/foo.cs", [⟨2, 1, 10, [⟨1, 10, 4⟩], []⟩]⟩ = some 3 ∧
    (⟨2, 1, 10, [⟨1, 10, 4⟩], []⟩ : MethodInfo).resolvable 5 ∧
    (TrySetBreakpoint (fresh.Initialize (str "foo.cs") [] 5 0)
      [⟨str "foo.cs", [⟨1, 0, 10, [⟨0, 10, 0⟩], []⟩]⟩,
        ⟨str "/a/foo.cs", [⟨2, 1, 10, [⟨1, 10, 4⟩], []⟩]⟩]).1 = true ∧
    (TrySetBreakpoint (fresh.Initialize (str "foo.cs") [] 5 0)
      [⟨str "foo.cs", [⟨1, 0, 10, [⟨0, 10, 0⟩], []⟩]⟩,
        ⟨str "/a/foo.cs", [⟨2, 1, 10, [⟨1, 10, 4⟩], []⟩]⟩]).2.method_def_ = 2 ∧
    (TrySetBreakpoint_loop (fresh.Initialize (str "foo.cs") [] 5 0)
      [⟨str "foo.cs", [⟨1, 0, 10, [⟨0, 10, 0⟩], []⟩]⟩,
        ⟨str "/a/foo.cs", [⟨2, 1, 10, [⟨1, 10, 4⟩], []⟩]⟩]).best_match_index = 1 := by
  decide

/-- The case of C24 evaluated: a candidate with the smaller offset but no
sequence point at the requested line does not win. -/
theorem TrySetBreakpoint_skips_unresolvable_candidate :
    (TrySetBreakpoint (fresh.Initialize (str "foo.cs") [] 50 0)
      [⟨str "/a/foo.cs", [⟨1, 1, 10, [⟨1, 10, 0⟩], []⟩]⟩,
        ⟨str "/a/b/foo.cs", [⟨2, 40, 60, [⟨40, 60, 7⟩], []⟩]⟩]).2.method_def_ = 2 := by
  decide

/-- C28, the defect: in one document an outer method (token 1, lines 1-100)
whose scope `[0, 50]` declares `x` and the constant `k` precedes an inner
method (token 2, lines 40-60) with no local scope.  Line 50 resolves to the
inner method at offset 200, yet the breakpoint keeps the variable `x` and the
constant `k` of the outer method, because the locals are cleared only when a
scope of the method being tried matches. -/
theorem C28_locals_left_over_from_outer_method :
    (TrySetBreakpoint (fresh.Initialize (str "foo.cs") [] 50 0)
      [⟨str "/src/foo.cs", [⟨1, 1, 100, [⟨1, 100, 0⟩], [⟨0, 50, [⟨"x"⟩], [⟨"k"⟩]⟩]⟩,
        ⟨2, 40, 60, [⟨40, 60, 200⟩], []⟩]⟩]).1 = true ∧
    (TrySetBreakpoint (fresh.Initialize (str "foo.cs") [] 50 0)
      [⟨str "/src/foo.cs", [⟨1, 1, 100, [⟨1, 100, 0⟩], [⟨0, 50, [⟨"x"⟩], [⟨"k"⟩]⟩]⟩,
        ⟨2, 40, 60, [⟨40, 60, 200⟩], []⟩]⟩]).2.method_def_ = 2 ∧
    (TrySetBreakpoint (fresh.Initialize (str "foo.cs") [] 50 0)
      [⟨str "/src/foo.cs", [⟨1, 1, 100, [⟨1, 100, 0⟩], [⟨0, 50, [⟨"x"⟩], [⟨"k"⟩]⟩]⟩,
        ⟨2, 40, 60, [⟨40, 60, 200⟩], []⟩]⟩]).2.il_offset_ = 200 ∧
    (⟨2, 40, 60, [⟨40, 60, 200⟩], []⟩ : MethodInfo).local_scope = [] ∧
    (TrySetBreakpoint (fresh.Initialize (str "foo.cs") [] 50 0)
      [⟨str "/src/foo.cs", [⟨1, 1, 100, [⟨1, 100, 0⟩], [⟨0, 50, [⟨"x"⟩], [⟨"k"⟩]⟩]⟩,
        ⟨2, 40, 60, [⟨40, 60, 200⟩], []⟩]⟩]).2.local_variables_ = [⟨"x"⟩] ∧
    (TrySetBreakpoint (fresh.Initialize (str "foo.cs") [] 50 0)
      [⟨str "/src/foo.cs", [⟨1, 1, 100, [⟨1, 100, 0⟩], [⟨0, 50, [⟨"x"⟩], [⟨"k"⟩]⟩]⟩,
        ⟨2, 40, 60, [⟨40, 60, 200⟩], []⟩]⟩]).2.local_constants_ = [⟨"k"⟩] := by
  decide

end DbgBreakpoint

end google_cloud_debugger
